import Mathlib

/-!
# Verification of the SysY compiler middle-end IR subsystem

This file is a shallow embedding, in Lean 4, of the parts of the SysY
compiler's IR subsystem (use-def machinery, SCCP, InstCombine, ADCE,
Mem2Reg, the dominator analysis and the inliner heuristics) that are needed
to settle the claims of the specification, together with theorems settling
each claim.

Modelling conventions, used throughout:
* C pointers to IR objects are modelled by natural-number identifiers
  (`Nat`); pointer identity becomes identifier equality.
* The per-value data that the C code reads through an `IRValue*`
  (`is_constant`, `def_instr`, the type, the constant payloads) is a
  `ValueInfo` looked up in a `ValueEnv` environment.
* C `int` arithmetic is modelled over `Int` (overflow is undefined
  behaviour in the source and never exercised by the theorems below);
  C `float` payloads are modelled over `ℚ`, which is faithful for the
  literal comparisons with `0.0`, `1.0`, `-1.0`, `2.0` performed by the
  code and for the concrete inputs used in the theorems.
* Worklists (`ir_utils.c`, used as a stack: `worklist_add` pushes,
  `worklist_pop` pops the most recent item) are modelled by Lean lists
  with push-to-front and pop-from-front.
* Unbounded C loops are modelled with explicit fuel; where the C code has
  a literal iteration cap (SCCP's `max_iterations = 1000`, ADCE's
  `2 * total_instructions`) the fuel is that cap.
-/

/-- The opcode enumeration from `ir_data_structures.h` (`Opcode`). -/
inductive Opcode where
  | ret | br
  | add | sub | mul | sdiv | srem
  | fadd | fsub | fmul | fdiv
  | shl | lshr | ashr | and | or | xor
  | alloca | load | store | getelementptr
  | icmp | fcmp | phi | call
  | sitofp | fptosi | zext | fpext | sext | trunc | fptrunc
  | unknown
deriving DecidableEq, Repr

/-- Structural types, the fragment of the `Type` model needed by the
transforms under verification (`ast.h` / spec data model): basic `i1`,
`i32`, `f32`, pointers and arrays. -/
inductive Ty where
  | void
  | i1
  | i32
  | f32
  | ptr (elem : Ty)
  | arr (elem : Ty)
deriving DecidableEq, Repr

/-- An operand of an instruction: either a value reference or a basic-block
reference (`OperandKind` plus the `data` union of `IROperand`). -/
inductive OperandData where
  | value (v : Nat)
  | block (b : Nat)
deriving DecidableEq, Repr

/-- The per-value information the passes read through an `IRValue*`:
the `is_constant` flag, the defining instruction (`def_instr`, `none` for
constants, arguments, globals and undef), the type and the constant
payloads (`int_val` / `float_val` of the union; both modelled as separate
fields, each meaningful only for constants of the matching type). -/
structure ValueInfo where
  is_constant : Bool := false
  def_instr : Option Nat := none
  ty : Ty := .i32
  int_val : Int := 0
  float_val : ℚ := 0
deriving DecidableEq, Repr

/-- The environment giving each value identifier its `ValueInfo`. -/
abbrev ValueEnv := Nat → ValueInfo

/-- An IR instruction (`IRInstruction`): identifier, opcode, the condition
code string of `icmp`/`fcmp` (`opcode_cond`), the result value (`dest`),
the operand list (the doubly-linked operand list of the C code, in order),
and the `phi_for_alloca` back-pointer used by Mem2Reg (the identifier of
the associated alloca instruction). -/
structure IRInstruction where
  id : Nat
  opcode : Opcode
  opcode_cond : String := ""
  dest : Option Nat := none
  operands : List OperandData := []
  phi_for_alloca : Option Nat := none
deriving DecidableEq, Repr

/-- A basic block (`IRBasicBlock`): identifier (playing the role of the
dense `post_order_id` used to index the analyses' side arrays), the
instruction list in order, and the CFG/analysis side tables that the
embedded passes read (`predecessors`, `successors`, `dom_frontier`). -/
structure IRBasicBlock where
  id : Nat
  instrs : List IRInstruction := []
  preds : List Nat := []
  succs : List Nat := []
  dom_frontier : List Nat := []
deriving DecidableEq, Repr

/-- A function (`IRFunction`): the entry block identifier (`none` models a
NULL `entry`, i.e. an external declaration), the block list in layout
order, the argument value identifiers, and the cached reverse post-order
block identifier list (`reverse_post_order`). -/
structure IRFunction where
  entry : Option Nat := none
  blocks : List IRBasicBlock := []
  args : List Nat := []
  reverse_post_order : List Nat := []
deriving DecidableEq, Repr

/-- Pointwise update of a map `Nat → α`; models a store through a pointer
or into a side array indexed by an identifier. -/
def setAt {α : Type} (f : Nat → α) (k : Nat) (v : α) : Nat → α :=
  fun x => if x = k then v else f x

/-- Look up a block of a function by its identifier. -/
def IRFunction.findBlock (f : IRFunction) (b : Nat) : Option IRBasicBlock :=
  f.blocks.find? (fun bb => bb.id = b)

/-- All instructions of a function, in block layout order. -/
def IRFunction.allInstrs (f : IRFunction) : List IRInstruction :=
  f.blocks.flatMap (fun bb => bb.instrs)

/-- Find an instruction (and its parent block identifier) by instruction
identifier; models following an `IRInstruction*` together with its
`parent` back-pointer. -/
def IRFunction.find_instr (f : IRFunction) (i : Nat) :
    Option (IRInstruction × Nat) :=
  (f.blocks.flatMap (fun bb => bb.instrs.map (fun ins => (ins, bb.id)))).find?
    (fun p => p.1.id = i)

/-- Rewrite the instruction with identifier `i` in place everywhere it
occurs (models a store through the instruction pointer). -/
def IRFunction.setInstr (f : IRFunction) (i : Nat) (g : IRInstruction → IRInstruction) :
    IRFunction :=
  { f with blocks := f.blocks.map (fun bb =>
      { bb with instrs := bb.instrs.map (fun ins => if ins.id = i then g ins else ins) }) }

/-- The last instruction of a block (`bb->tail`). -/
def IRBasicBlock.tail (bb : IRBasicBlock) : Option IRInstruction :=
  bb.instrs.getLast?

namespace Inliner

/-- `INLINE_THRESHOLD` from `inliner.c` (line 35). -/
def INLINE_THRESHOLD : Nat := 80

/-- `count_instructions` from `inliner.c`: the number of instructions in
the function, counted block by block. -/
def count_instructions (func : IRFunction) : Nat :=
  (func.blocks.map (fun bb => bb.instrs.length)).sum

/-- `should_inline_function` from `inliner.c` (lines 217-230): the callee
must have an entry block, must not be on the inliner's call stack (pointer
comparison against the stacked functions, modelled by structural equality
of the records), and `count_instructions(callee) <= INLINE_THRESHOLD`. -/
def should_inline_function (call_stack : List IRFunction) (callee : IRFunction) : Bool :=
  if callee.entry = none then false
  else if call_stack.contains callee then false
  else count_instructions callee ≤ INLINE_THRESHOLD

end Inliner

/-- Consecutive (value, block) operand pairs of a PHI instruction; the C
code walks the operand list two nodes at a time (a dangling odd operand is
never reached by the pair loop and is ignored). -/
def phiPairs : List OperandData → List (OperandData × OperandData)
  | x :: y :: rest => (x, y) :: phiPairs rest
  | _ => []

/-- `remove_phi_entries_for_predecessor` from `ir_utils.c`: drop every
(value, block) pair whose block operand is `pred`. -/
def remove_phi_entries_for_predecessor (instr : IRInstruction) (pred : Nat) :
    IRInstruction :=
  if instr.opcode ≠ .phi then instr
  else { instr with operands := removePairs instr.operands }
where
  removePairs : List OperandData → List OperandData
    | [] => []
    | [x] => [x]
    | x :: y :: rest =>
        if y = .block pred then removePairs rest
        else x :: y :: removePairs rest

/-- `remove_predecessessor` helper of `ir_utils.c` (`remove_predecessor`):
remove the first occurrence of `pred` from `block`'s predecessor list and
drop the matching incoming entries from the block's leading PHI
instructions. -/
def remove_predecessor (bb : IRBasicBlock) (pred : Nat) : IRBasicBlock :=
  if bb.preds.contains pred then
    let phiCount := (bb.instrs.takeWhile (fun i => i.opcode = .phi)).length
    { bb with
      preds := bb.preds.erase pred
      instrs := (bb.instrs.take phiCount).map
          (fun i => remove_phi_entries_for_predecessor i pred)
        ++ bb.instrs.drop phiCount }
  else bb

namespace SCCP

/-- `LatticeState` from `sccp.c`: `LATTICE_TIR_OP` is Top (`tir_op`),
`LATTICE_CONSTANT` and `LATTICE_BOTTOM` as in the source. -/
inductive LatticeState where
  | tir_op
  | constant
  | bottom
deriving DecidableEq, Repr

/-- `LatticeValue` from `sccp.c`: the lattice state, the `const_val` union
(modelled as two fields, only the one matching the type being meaningful),
the type (`none` models a NULL `Type*`) and the `is_valid` flag. -/
structure LatticeValue where
  state : LatticeState
  int_val : Int := 0
  float_val : ℚ := 0
  ty : Option Ty := none
  is_valid : Bool := true
deriving DecidableEq, Repr

/-- The mutable analysis state of `SCCPContext`: the lattice array
(`value_lattice`, indexed by value identifier), the domain of the value-id
map (`value_id_map` assigns ids exactly to instruction result values), the
`executable_blocks` flags, and the two worklists. -/
structure SCCPState where
  value_lattice : Nat → LatticeValue
  has_value_id : Nat → Bool
  executable_blocks : Nat → Bool
  cfg_worklist : List Nat
  ssa_worklist : List Nat
  changed : Bool := false

/-- `get_lattice_value` from `sccp.c`: a NULL value is Bottom (invalid);
an IR constant is its own Constant lattice value (integer payload when its
type is `BASIC_INT`, float payload otherwise); otherwise the lattice array
entry if the value has an id, and Bottom (invalid) if not (this is the path
taken by function arguments, which are not in the id map). -/
def get_lattice_value (env : ValueEnv) (s : SCCPState) : Option Nat → LatticeValue
  | none => { state := .bottom, is_valid := false }
  | some v =>
    if (env v).is_constant then
      if (env v).ty = .i32 then
        { state := .constant, int_val := (env v).int_val, ty := some (env v).ty }
      else
        { state := .constant, float_val := (env v).float_val, ty := some (env v).ty }
    else if s.has_value_id v then s.value_lattice v
    else { state := .bottom, is_valid := false }

/-- `are_lattice_values_equal` from `sccp.c`: equal states; Constant values
additionally compare their types (pointer identity in C, structural
identity here) and their payloads — exactly for integers, within `1e-6`
for floats. -/
def are_lattice_values_equal (v1 v2 : LatticeValue) : Bool :=
  if v1.state ≠ v2.state then false
  else if v1.state = .constant then
    if v1.ty ≠ v2.ty then false
    else if v1.ty = some .i32 then v1.int_val = v2.int_val
    else |v1.float_val - v2.float_val| < (1 : ℚ) / 1000000
  else true

/-- `merge_lattice_values` from `sccp.c`. -/
def merge_lattice_values (v1 v2 : LatticeValue) : LatticeValue :=
  if v1.state = .bottom ∨ v2.state = .bottom then
    { state := .bottom, is_valid := true }
  else if v1.state = .tir_op then v2
  else if v2.state = .tir_op then v1
  else if are_lattice_values_equal v1 v2 then v1
  else { state := .bottom, is_valid := true }

/-- `set_lattice_value` from `sccp.c`: values without an id (constants,
arguments) are ignored; otherwise the entry is updated and the value is
pushed onto the SSA worklist when the lattice value changed. -/
def set_lattice_value (s : SCCPState) (v : Nat) (new_lval : LatticeValue) :
    SCCPState :=
  if ¬ s.has_value_id v then s
  else if are_lattice_values_equal (s.value_lattice v) new_lval then s
  else { s with
    value_lattice := setAt s.value_lattice v new_lval
    ssa_worklist := v :: s.ssa_worklist
    changed := true }

/-- The value referenced by an operand slot (`op->data.value`; the slot is
expected to be a value operand wherever the C code reads it as one). -/
def operandValue : Option OperandData → Option Nat
  | some (.value v) => some v
  | _ => none

/-- The block referenced by an operand slot (`op->data.bb`). -/
def operandBlock : Option OperandData → Option Nat
  | some (.block b) => some b
  | _ => none

/-- Truncating (toward zero) conversion of a rational to an integer,
the semantics of the C cast `(int)float_val`. -/
def truncToInt (q : ℚ) : Int := Int.tdiv q.num (q.den : Int)

/-- `evaluate_instruction` from `sccp.c` (lines 351-459): constant-fold the
instruction over the lattice values of its operands.  Integer arithmetic
folds `sdiv`/`srem` with a zero divisor to `0` (the C conditional
`(v2 != 0) ? v1 / v2 : 0`); comparisons fold via the condition-code
string; conversions fold their single operand; a PHI is the merge of the
incoming values from executable predecessor blocks; every other opcode is
conservatively Bottom. -/
def evaluate_instruction (env : ValueEnv) (s : SCCPState)
    (instr : IRInstruction) : LatticeValue :=
  let destTy : Option Ty := instr.dest.map (fun d => (env d).ty)
  match instr.opcode with
  | .add | .sub | .mul | .sdiv | .srem =>
    let lval1 := get_lattice_value env s (operandValue (instr.operands.get? 0))
    let lval2 := get_lattice_value env s (operandValue (instr.operands.get? 1))
    let merged := merge_lattice_values lval1 lval2
    if merged.state = .bottom then merged
    else if lval1.state = .constant ∧ lval2.state = .constant then
      let v1 := lval1.int_val
      let v2 := lval2.int_val
      let res : Int :=
        match instr.opcode with
        | .add => v1 + v2
        | .sub => v1 - v2
        | .mul => v1 * v2
        | .sdiv => if v2 ≠ 0 then Int.tdiv v1 v2 else 0
        | .srem => if v2 ≠ 0 then Int.tmod v1 v2 else 0
        | _ => 0
      { state := .constant, int_val := res, ty := destTy }
    else merged
  | .icmp =>
    let lval1 := get_lattice_value env s (operandValue (instr.operands.get? 0))
    let lval2 := get_lattice_value env s (operandValue (instr.operands.get? 1))
    let merged := merge_lattice_values lval1 lval2
    if merged.state = .bottom then merged
    else if lval1.state = .constant ∧ lval2.state = .constant then
      let v1 := lval1.int_val
      let v2 := lval2.int_val
      let res : Int :=
        if instr.opcode_cond = "eq" then (if v1 = v2 then 1 else 0)
        else if instr.opcode_cond = "ne" then (if v1 ≠ v2 then 1 else 0)
        else if instr.opcode_cond = "slt" then (if v1 < v2 then 1 else 0)
        else if instr.opcode_cond = "sgt" then (if v1 > v2 then 1 else 0)
        else if instr.opcode_cond = "sle" then (if v1 ≤ v2 then 1 else 0)
        else if instr.opcode_cond = "sge" then (if v1 ≥ v2 then 1 else 0)
        else 0
      { state := .constant, int_val := res, ty := destTy }
    else merged
  | .fcmp =>
    let lval1 := get_lattice_value env s (operandValue (instr.operands.get? 0))
    let lval2 := get_lattice_value env s (operandValue (instr.operands.get? 1))
    let merged := merge_lattice_values lval1 lval2
    if merged.state = .bottom then merged
    else if lval1.state = .constant ∧ lval2.state = .constant then
      let v1 := lval1.float_val
      let v2 := lval2.float_val
      let res : Int :=
        if instr.opcode_cond = "oeq" then (if v1 = v2 then 1 else 0)
        else if instr.opcode_cond = "one" then (if v1 ≠ v2 then 1 else 0)
        else if instr.opcode_cond = "olt" then (if v1 < v2 then 1 else 0)
        else if instr.opcode_cond = "ogt" then (if v1 > v2 then 1 else 0)
        else if instr.opcode_cond = "ole" then (if v1 ≤ v2 then 1 else 0)
        else if instr.opcode_cond = "oge" then (if v1 ≥ v2 then 1 else 0)
        else 0
      { state := .constant, int_val := res, ty := destTy }
    else merged
  | .zext | .sitofp | .fptosi =>
    let lval1 := get_lattice_value env s (operandValue (instr.operands.get? 0))
    if lval1.state = .bottom then { state := .bottom, is_valid := true }
    else if lval1.state = .constant then
      match instr.opcode with
      | .zext => { state := .constant, int_val := lval1.int_val, ty := destTy }
      | .sitofp => { state := .constant, float_val := (lval1.int_val : ℚ), ty := destTy }
      | .fptosi => { state := .constant, int_val := truncToInt lval1.float_val, ty := destTy }
      | _ => { state := .constant, ty := destTy }
    else lval1
  | .phi =>
    (phiPairs instr.operands).foldl
      (fun merged pr =>
        match operandBlock (some pr.2) with
        | some incoming_bb =>
          if s.executable_blocks incoming_bb then
            merge_lattice_values merged
              (get_lattice_value env s (operandValue (some pr.1)))
          else merged
        | none => merged)
      { state := .tir_op, is_valid := true }
  | _ => { state := .bottom, is_valid := true }

/-- The result-value part of `visit_instruction` from `sccp.c`: in a
reachable block, re-evaluate an instruction that has a result (a value
already at Bottom is left alone). -/
def visit_instruction_dest (env : ValueEnv) (s : SCCPState)
    (instr : IRInstruction) (parent : Nat) : SCCPState :=
  if ¬ s.executable_blocks parent then s
  else
    match instr.dest with
    | some d =>
      let old_lval := get_lattice_value env s (some d)
      if old_lval.state = .bottom then s
      else set_lattice_value s d (evaluate_instruction env s instr)
    | none => s

/-- `visit_phi_operands` from `sccp.c`: when a block becomes reachable,
re-visit the leading PHI instructions of the newly reachable block. -/
def visit_phi_operands (f : IRFunction) (env : ValueEnv) (s : SCCPState)
    (tgt : Nat) : SCCPState :=
  if ¬ s.executable_blocks tgt then s
  else
    match f.findBlock tgt with
    | none => s
    | some bb =>
      (bb.instrs.takeWhile (fun i => i.opcode = .phi)).foldl
        (fun st phi => visit_instruction_dest env st phi tgt) s

/-- `visit_instruction` from `sccp.c` (lines 242-271): in a reachable
block, an instruction with a result is re-evaluated; a conditional `br`
(more than one operand) whose condition is a lattice Constant marks the
selected successor reachable (nothing happens for Top or Bottom
conditions); an unconditional `br` marks its target reachable.  Newly
reachable blocks enter the CFG worklist and their PHIs are re-visited. -/
def visit_instruction (f : IRFunction) (env : ValueEnv) (s : SCCPState)
    (instr : IRInstruction) (parent : Nat) : SCCPState :=
  if ¬ s.executable_blocks parent then s
  else
    match instr.dest with
    | some _ => visit_instruction_dest env s instr parent
    | none =>
      if instr.opcode = .br ∧ instr.operands.length > 1 then
        let cond_lval :=
          get_lattice_value env s (operandValue (instr.operands.get? 0))
        if cond_lval.state = .constant then
          let true_target := operandBlock (instr.operands.get? 1)
          let false_target := operandBlock (instr.operands.get? 2)
          let target := if cond_lval.int_val ≠ 0 then true_target else false_target
          match target with
          | some t =>
            if ¬ s.executable_blocks t then
              let s' := { s with
                executable_blocks := setAt s.executable_blocks t true
                cfg_worklist := t :: s.cfg_worklist }
              visit_phi_operands f env s' t
            else s
          | none => s
        else s
      else if instr.opcode = .br then
        match operandBlock (instr.operands.get? 0) with
        | some t =>
          if ¬ s.executable_blocks t then
            let s' := { s with
              executable_blocks := setAt s.executable_blocks t true
              cfg_worklist := t :: s.cfg_worklist }
            visit_phi_operands f env s' t
          else s
        | none => s
      else s

/-- `visit_block` from `sccp.c`: simulate every instruction of a reachable
block in order. -/
def visit_block (f : IRFunction) (env : ValueEnv) (s : SCCPState)
    (bb : IRBasicBlock) : SCCPState :=
  if ¬ s.executable_blocks bb.id then s
  else bb.instrs.foldl (fun st i => visit_instruction f env st i bb.id) s

/-- The users of a value: the instructions having an operand referencing
it, with their parent blocks.  The C code walks `val->use_list_head`; by
the use-def consistency invariant (see the `UseDef` development below)
that list holds exactly these operands. -/
def users (f : IRFunction) (v : Nat) : List (IRInstruction × Nat) :=
  (f.blocks.flatMap (fun bb => bb.instrs.map (fun i => (i, bb.id)))).filter
    (fun p => p.1.operands.contains (.value v))

/-- `run_sccp_analysis` from `sccp.c` (lines 194-221): while either
worklist is non-empty and fewer than `max_iterations` (1000) iterations
have run, pop one block from the CFG worklist and visit it, then pop one
value from the SSA worklist and visit all its users. -/
def run_sccp_analysis (f : IRFunction) (env : ValueEnv) :
    Nat → SCCPState → SCCPState
  | 0, s => s
  | fuel + 1, s =>
    if s.cfg_worklist.isEmpty ∧ s.ssa_worklist.isEmpty then s
    else
      let s1 :=
        match s.cfg_worklist with
        | [] => s
        | b :: rest =>
          let s' := { s with cfg_worklist := rest }
          match f.findBlock b with
          | some bb => visit_block f env s' bb
          | none => s'
      let s2 :=
        match s1.ssa_worklist with
        | [] => s1
        | v :: rest =>
          let s' := { s1 with ssa_worklist := rest }
          (users f v).foldl (fun st p => visit_instruction f env st p.1 p.2) s'
      run_sccp_analysis f env fuel s2

/-- `initialize_sccp` from `sccp.c`: every instruction result starts at
Top; the arguments are set to Bottom through `set_lattice_value` (which
silently ignores them because they are not in the value-id map, exactly
as in the source); the entry block is marked executable and pushed. -/
def initialize_sccp (f : IRFunction) (entry : Nat) : SCCPState :=
  let dests := f.allInstrs.filterMap (fun i => i.dest)
  let s0 : SCCPState :=
    { value_lattice := fun _ => { state := .tir_op, is_valid := true }
      has_value_id := fun v => dests.contains v
      executable_blocks := fun _ => false
      cfg_worklist := []
      ssa_worklist := [] }
  let s1 := f.args.foldl
    (fun st a => set_lattice_value st a
      { state := .bottom, ty := some (Ty.i32), is_valid := true }) s0
  { s1 with
    executable_blocks := setAt s1.executable_blocks entry true
    cfg_worklist := [entry] }

/-- `create_constant_from_lattice` from `sccp.c`, together with the fresh
value allocation: a new constant value carrying the lattice constant's
payload (integer payload for `i32`/`i1`, float payload for `f32`). -/
def create_constant_from_lattice (env : ValueEnv) (nv : Nat)
    (lval : LatticeValue) : ValueEnv :=
  match lval.ty with
  | none => env
  | some t =>
    setAt env nv
      { is_constant := true
        def_instr := none
        ty := t
        int_val := if t = .i32 ∨ t = .i1 then lval.int_val else 0
        float_val := if t = .f32 then lval.float_val else 0 }

/-- Replace every operand occurrence of `old` by `new` across the whole
function: the effect of `replace_all_uses_with` (whose use-list walk
retargets exactly the operands referencing `old`, by the use-def
consistency invariant). -/
def rauw (f : IRFunction) (old new : Nat) : IRFunction :=
  { f with blocks := f.blocks.map (fun bb =>
      { bb with instrs := bb.instrs.map (fun i =>
          { i with operands := i.operands.map (fun od =>
              if od = .value old then .value new else od) }) }) }

/-- The mutable module-level state threaded through the SCCP transform:
the function, the value environment (new constant values are allocated
into it) and the fresh-identifier counters. -/
structure SCCPTransformState where
  f : IRFunction
  env : ValueEnv
  next_val : Nat
  next_instr : Nat
  changed : Bool := false

/-- `transform_based_on_sccp` from `sccp.c` (lines 477-526): first replace
every value whose final lattice state is Constant by a freshly created
constant value; then rewrite every executable block whose terminator is a
conditional `br` on a lattice-Constant condition into an unconditional
`br` to the surviving target, removing the block from the dead successor's
predecessor list (and from its PHIs). -/
def transform_based_on_sccp (s : SCCPState) (st0 : SCCPTransformState) :
    SCCPTransformState :=
  let dests := st0.f.allInstrs.filterMap (fun i => i.dest)
  let st1 := dests.foldl
    (fun (st : SCCPTransformState) (d : Nat) =>
      let lval := s.value_lattice d
      if lval.state = .constant then
        let nv := st.next_val
        { st with
          env := create_constant_from_lattice st.env nv lval
          f := rauw st.f d nv
          next_val := nv + 1
          changed := true }
      else st) st0
  let blockIds := st1.f.blocks.map (fun bb => bb.id)
  blockIds.foldl
    (fun (st : SCCPTransformState) (b : Nat) =>
      match st.f.findBlock b with
      | none => st
      | some bb =>
        if ¬ s.executable_blocks bb.id then st
        else
          match bb.tail with
          | none => st
          | some term =>
            if term.opcode = .br ∧ term.operands.length > 1 then
              let cond_lval :=
                get_lattice_value st.env s (operandValue (term.operands.get? 0))
              if cond_lval.state = .constant then
                match operandBlock (term.operands.get? 1),
                      operandBlock (term.operands.get? 2) with
                | some true_target, some false_target =>
                  let final_target :=
                    if cond_lval.int_val ≠ 0 then true_target else false_target
                  let dead_succ :=
                    if final_target = true_target then false_target else true_target
                  let ni := st.next_instr
                  let new_br : IRInstruction :=
                    { id := ni, opcode := .br, operands := [.block final_target] }
                  let f1 := { st.f with blocks := st.f.blocks.map (fun (b2 : IRBasicBlock) =>
                      if b2.id = dead_succ then remove_predecessor b2 bb.id else b2) }
                  let f2 := { f1 with blocks := f1.blocks.map (fun (b2 : IRBasicBlock) =>
                      if b2.id = bb.id then
                        { b2 with instrs := b2.instrs.dropLast ++ [new_br] }
                      else b2) }
                  { st with f := f2, next_instr := ni + 1, changed := true }
                | _, _ => st
              else st
            else st) st1

/-- `run_sccp` from `sccp.c` (lines 99-125): a NULL function or a function
without an entry block is rejected with `false` and the IR untouched;
otherwise initialize, run the analysis to a fixed point (iteration cap
1000) and apply the transformation, reporting whether anything changed. -/
def run_sccp (env : ValueEnv) (next_val next_instr : Nat)
    (fopt : Option IRFunction) : Bool × Option IRFunction :=
  match fopt with
  | none => (false, none)
  | some func =>
    match func.entry with
    | none => (false, some func)
    | some entry =>
      let s := initialize_sccp func entry
      let s' := run_sccp_analysis func env 1000 s
      let st := transform_based_on_sccp s'
        { f := func, env := env, next_val := next_val, next_instr := next_instr }
      (st.changed, some st.f)

end SCCP

/-- The instructions of a function having an operand that references value
`v`, paired with their parent block identifiers.  The C passes walk
`v->use_list_head`; by the use-def consistency invariant (the `UseDef`
development below) that walk visits exactly these instructions. -/
def valueUsers (f : IRFunction) (v : Nat) : List (IRInstruction × Nat) :=
  (f.blocks.flatMap (fun bb => bb.instrs.map (fun i => (i, bb.id)))).filter
    (fun p => p.1.operands.contains (.value v))

namespace InstCombine

/-- The visitor context of `inst_combine.c` (`InstCombineContext`): the
function (needed to dereference `def_instr` and `parent` pointers), the
value environment, the instruction being visited with its parent block
identifier, and the fresh-value counter backing `pool_alloc` of new
constant values. -/
structure ICCtx where
  f : IRFunction
  env : ValueEnv
  instr : IRInstruction
  parent : Nat
  next_val : Nat

/-- The observable outcome of one visitor call: the instruction is
`replaced` by a value (the non-NULL return of a `visit_` function, after
which the driver RAUWs and erases), or `modified` in place with
`re_queue = true`, or left `unchanged` (NULL return, no `re_queue`).
`replaced`/`modified` carry the value environment and counter extended
with any constants the visitor created (`create_const_int` /
`create_const_float`). -/
inductive ICResult where
  | replaced (env : ValueEnv) (next_val : Nat) (v : Nat)
  | modified (env : ValueEnv) (next_val : Nat) (instr : IRInstruction)
  | unchanged
deriving Inhabited

/-- `create_const_int` from `inst_combine.c`: allocate a fresh constant
`i32` value. -/
def create_const_int (env : ValueEnv) (next_val : Nat) (value : Int) :
    ValueEnv × Nat × Nat :=
  (setAt env next_val { is_constant := true, ty := .i32, int_val := value },
   next_val + 1, next_val)

/-- `create_const_float` from `inst_combine.c`: allocate a fresh constant
`f32` value. -/
def create_const_float (env : ValueEnv) (next_val : Nat) (value : ℚ) :
    ValueEnv × Nat × Nat :=
  (setAt env next_val { is_constant := true, ty := .f32, float_val := value },
   next_val + 1, next_val)

/-- Fold to a freshly created integer constant. -/
def foldInt (ctx : ICCtx) (z : Int) : ICResult :=
  let r := create_const_int ctx.env ctx.next_val z
  .replaced r.1 r.2.1 r.2.2

/-- Fold to a freshly created float constant. -/
def foldFloat (ctx : ICCtx) (q : ℚ) : ICResult :=
  let r := create_const_float ctx.env ctx.next_val q
  .replaced r.1 r.2.1 r.2.2

/-- `is_power_of_two` from `inst_combine.c`: `some log₂ n` when `n` is a
positive power of two, `none` otherwise (the log is computed by shifting
until the low bit is set). -/
def is_power_of_two (n : Int) : Option Nat :=
  if n ≤ 0 then none
  else if n.toNat &&& (n.toNat - 1) = 0 then some (logLoop 64 n.toNat 0)
  else none
where
  logLoop : Nat → Nat → Nat → Nat
    | 0, _, acc => acc
    | fuel + 1, temp, acc =>
      if temp % 2 = 0 ∧ temp > 1 then logLoop fuel (temp / 2) (acc + 1) else acc

/-- First and second operand values of the visited instruction (`ctx.op1`,
`ctx.op2` of `InstCombineContext`; visitors requiring operands that the
instruction lacks leave it unchanged, where the C code would read
uninitialized context fields — undefined behaviour never exercised on
well-formed IR). -/
def ICCtx.ops2 (ctx : ICCtx) : Option (Nat × Nat) :=
  match SCCP.operandValue (ctx.instr.operands.get? 0),
        SCCP.operandValue (ctx.instr.operands.get? 1) with
  | some a, some b => some (a, b)
  | _, _ => none

/-- `visit_add` from `inst_combine.c`: constant fold; canonicalize a
constant LHS to the right; `x + 0 → x`; `(x - y) + y → x` and the
commuted form. -/
def visit_add (ctx : ICCtx) : ICResult :=
  match ctx.ops2 with
  | none => .unchanged
  | some (lhs, rhs) =>
    let lv := ctx.env lhs
    let rv := ctx.env rhs
    if lv.is_constant ∧ rv.is_constant then
      foldInt ctx (lv.int_val + rv.int_val)
    else if lv.is_constant ∧ ¬ rv.is_constant then
      .modified ctx.env ctx.next_val
        { ctx.instr with operands := [.value rhs, .value lhs] }
    else if rv.is_constant ∧ rv.int_val = 0 then .replaced ctx.env ctx.next_val lhs
    else
      let sub_lhs : ICResult :=
        match lv.def_instr with
        | some di =>
          match ctx.f.find_instr di with
          | some (dinstr, _) =>
            if dinstr.opcode = .sub ∧
                SCCP.operandValue (dinstr.operands.get? 1) = some rhs then
              match SCCP.operandValue (dinstr.operands.get? 0) with
              | some x => .replaced ctx.env ctx.next_val x
              | none => .unchanged
            else .unchanged
          | none => .unchanged
        | none => .unchanged
      match sub_lhs with
      | .unchanged =>
        match rv.def_instr with
        | some di =>
          match ctx.f.find_instr di with
          | some (dinstr, _) =>
            if dinstr.opcode = .sub ∧
                SCCP.operandValue (dinstr.operands.get? 1) = some lhs then
              match SCCP.operandValue (dinstr.operands.get? 0) with
              | some x => .replaced ctx.env ctx.next_val x
              | none => .unchanged
            else .unchanged
          | none => .unchanged
        | none => .unchanged
      | r => r

/-- `visit_sub` from `inst_combine.c`: constant fold; `x - 0 → x`;
`x - x → 0`; `x - c → x + (-c)` (in place, re-queued). -/
def visit_sub (ctx : ICCtx) : ICResult :=
  match ctx.ops2 with
  | none => .unchanged
  | some (lhs, rhs) =>
    let lv := ctx.env lhs
    let rv := ctx.env rhs
    if lv.is_constant ∧ rv.is_constant then
      foldInt ctx (lv.int_val - rv.int_val)
    else if rv.is_constant ∧ rv.int_val = 0 then .replaced ctx.env ctx.next_val lhs
    else if lhs = rhs then foldInt ctx 0
    else if rv.is_constant then
      let r := create_const_int ctx.env ctx.next_val (-rv.int_val)
      .modified r.1 r.2.1
        { ctx.instr with opcode := .add, operands := [.value lhs, .value r.2.2] }
    else .unchanged

/-- `visit_mul` from `inst_combine.c`: constant fold; canonicalize a
constant LHS to the right; `x*0 → 0`, `x*1 → x`, `x*-1 → 0-x`; strength
reduction `x * 2^k → x << k`. -/
def visit_mul (ctx : ICCtx) : ICResult :=
  match ctx.ops2 with
  | none => .unchanged
  | some (lhs, rhs) =>
    let lv := ctx.env lhs
    let rv := ctx.env rhs
    if lv.is_constant ∧ rv.is_constant then
      foldInt ctx (lv.int_val * rv.int_val)
    else if lv.is_constant ∧ ¬ rv.is_constant then
      .modified ctx.env ctx.next_val
        { ctx.instr with operands := [.value rhs, .value lhs] }
    else if rv.is_constant then
      let c := rv.int_val
      if c = 0 then foldInt ctx 0
      else if c = 1 then .replaced ctx.env ctx.next_val lhs
      else if c = -1 then
        let r := create_const_int ctx.env ctx.next_val 0
        .modified r.1 r.2.1
          { ctx.instr with opcode := .sub, operands := [.value r.2.2, .value lhs] }
      else
        match is_power_of_two c with
        | some log_val =>
          let r := create_const_int ctx.env ctx.next_val (log_val : Int)
          .modified r.1 r.2.1
            { ctx.instr with opcode := .shl, operands := [.value lhs, .value r.2.2] }
        | none => .unchanged
    else .unchanged

/-- `visit_sdiv` from `inst_combine.c` (lines 260-289): a constant zero
divisor is rejected up front — division by zero is undefined behaviour and
is not folded; otherwise constant fold, `x / 1 → x`, `x / -1 → 0 - x`,
`0 / x → 0`. -/
def visit_sdiv (ctx : ICCtx) : ICResult :=
  match ctx.ops2 with
  | none => .unchanged
  | some (lhs, rhs) =>
    let lv := ctx.env lhs
    let rv := ctx.env rhs
    if rv.is_constant ∧ rv.int_val = 0 then .unchanged
    else if lv.is_constant ∧ rv.is_constant then
      foldInt ctx (Int.tdiv lv.int_val rv.int_val)
    else if rv.is_constant ∧ rv.int_val = 1 then .replaced ctx.env ctx.next_val lhs
    else if rv.is_constant ∧ rv.int_val = -1 then
      let r := create_const_int ctx.env ctx.next_val 0
      .modified r.1 r.2.1
        { ctx.instr with opcode := .sub, operands := [.value r.2.2, .value lhs] }
    else if lv.is_constant ∧ lv.int_val = 0 then foldInt ctx 0
    else .unchanged

/-- `visit_srem` from `inst_combine.c` (lines 292-311): a constant zero
divisor is rejected up front; otherwise constant fold, `x % ±1 → 0`,
`x % x → 0`. -/
def visit_srem (ctx : ICCtx) : ICResult :=
  match ctx.ops2 with
  | none => .unchanged
  | some (lhs, rhs) =>
    let lv := ctx.env lhs
    let rv := ctx.env rhs
    if rv.is_constant ∧ rv.int_val = 0 then .unchanged
    else if lv.is_constant ∧ rv.is_constant then
      foldInt ctx (Int.tmod lv.int_val rv.int_val)
    else if rv.is_constant ∧ (rv.int_val = 1 ∨ rv.int_val = -1) then foldInt ctx 0
    else if lhs = rhs then foldInt ctx 0
    else .unchanged

/-- `visit_icmp` from `inst_combine.c`: fold a comparison of two integer
constants to the `i32` constant `0` or `1`. -/
def visit_icmp (ctx : ICCtx) : ICResult :=
  match ctx.ops2 with
  | none => .unchanged
  | some (lhs, rhs) =>
    let lv := ctx.env lhs
    let rv := ctx.env rhs
    if lv.is_constant ∧ rv.is_constant then
      let p := ctx.instr.opcode_cond
      let result : Bool :=
        if p = "eq" then lv.int_val = rv.int_val
        else if p = "ne" then lv.int_val ≠ rv.int_val
        else if p = "slt" then lv.int_val < rv.int_val
        else if p = "sgt" then lv.int_val > rv.int_val
        else if p = "sle" then lv.int_val ≤ rv.int_val
        else if p = "sge" then lv.int_val ≥ rv.int_val
        else false
      foldInt ctx (if result then 1 else 0)
    else .unchanged

/-- `visit_fcmp` from `inst_combine.c`: fold a comparison of two float
constants to the `i32` constant `0` or `1`. -/
def visit_fcmp (ctx : ICCtx) : ICResult :=
  match ctx.ops2 with
  | none => .unchanged
  | some (lhs, rhs) =>
    let lv := ctx.env lhs
    let rv := ctx.env rhs
    if lv.is_constant ∧ rv.is_constant then
      let p := ctx.instr.opcode_cond
      let result : Bool :=
        if p = "oeq" then lv.float_val = rv.float_val
        else if p = "one" then lv.float_val ≠ rv.float_val
        else if p = "olt" then lv.float_val < rv.float_val
        else if p = "ogt" then lv.float_val > rv.float_val
        else if p = "ole" then lv.float_val ≤ rv.float_val
        else if p = "oge" then lv.float_val ≥ rv.float_val
        else false
      foldInt ctx (if result then 1 else 0)
    else .unchanged

/-- `visit_fadd` from `inst_combine.c`: constant fold; `fadd x, 0.0 → x`
on either side. -/
def visit_fadd (ctx : ICCtx) : ICResult :=
  match ctx.ops2 with
  | none => .unchanged
  | some (lhs, rhs) =>
    let lv := ctx.env lhs
    let rv := ctx.env rhs
    if lv.is_constant ∧ rv.is_constant then
      foldFloat ctx (lv.float_val + rv.float_val)
    else if rv.is_constant ∧ rv.float_val = 0 then .replaced ctx.env ctx.next_val lhs
    else if lv.is_constant ∧ lv.float_val = 0 then .replaced ctx.env ctx.next_val rhs
    else .unchanged

/-- `visit_fsub` from `inst_combine.c`: constant fold; `fsub x, 0.0 → x`;
`fsub 0.0, x` is rebuilt in place (with a fresh `0.0` constant) and
re-queued. -/
def visit_fsub (ctx : ICCtx) : ICResult :=
  match ctx.ops2 with
  | none => .unchanged
  | some (lhs, rhs) =>
    let lv := ctx.env lhs
    let rv := ctx.env rhs
    if lv.is_constant ∧ rv.is_constant then
      foldFloat ctx (lv.float_val - rv.float_val)
    else if rv.is_constant ∧ rv.float_val = 0 then .replaced ctx.env ctx.next_val lhs
    else if lv.is_constant ∧ lv.float_val = 0 then
      let r := create_const_float ctx.env ctx.next_val 0
      .modified r.1 r.2.1
        { ctx.instr with opcode := .fsub, operands := [.value r.2.2, .value rhs] }
    else .unchanged

/-- `visit_fmul` from `inst_combine.c`: constant fold; `x*1.0 → x`,
`x*0.0 → 0.0`, `x*-1.0 → fsub 0.0, x`, `x*2.0 → fadd x, x` (each also in
the commuted form). -/
def visit_fmul (ctx : ICCtx) : ICResult :=
  match ctx.ops2 with
  | none => .unchanged
  | some (lhs, rhs) =>
    let lv := ctx.env lhs
    let rv := ctx.env rhs
    if lv.is_constant ∧ rv.is_constant then
      foldFloat ctx (lv.float_val * rv.float_val)
    else if rv.is_constant ∧ rv.float_val = 1 then .replaced ctx.env ctx.next_val lhs
    else if lv.is_constant ∧ lv.float_val = 1 then .replaced ctx.env ctx.next_val rhs
    else if (rv.is_constant ∧ rv.float_val = 0) ∨ (lv.is_constant ∧ lv.float_val = 0) then
      foldFloat ctx 0
    else if rv.is_constant ∧ rv.float_val = -1 then
      let r := create_const_float ctx.env ctx.next_val 0
      .modified r.1 r.2.1
        { ctx.instr with opcode := .fsub, operands := [.value r.2.2, .value lhs] }
    else if lv.is_constant ∧ lv.float_val = -1 then
      let r := create_const_float ctx.env ctx.next_val 0
      .modified r.1 r.2.1
        { ctx.instr with opcode := .fsub, operands := [.value r.2.2, .value rhs] }
    else if rv.is_constant ∧ rv.float_val = 2 then
      .modified ctx.env ctx.next_val
        { ctx.instr with opcode := .fadd, operands := [.value lhs, .value lhs] }
    else if lv.is_constant ∧ lv.float_val = 2 then
      .modified ctx.env ctx.next_val
        { ctx.instr with opcode := .fadd, operands := [.value rhs, .value rhs] }
    else .unchanged

/-- `visit_fdiv` from `inst_combine.c` (lines 410-444): a constant zero
divisor is rejected; constant fold; `0.0 / x → 0.0`; `x / 1.0 → x`;
`fdiv x, x → 1.0` whenever both operands are the same value (the source
performs no nonzero check on a non-constant `x`); `x / -1.0 →
fsub 0.0, x`. -/
def visit_fdiv (ctx : ICCtx) : ICResult :=
  match ctx.ops2 with
  | none => .unchanged
  | some (lhs, rhs) =>
    let lv := ctx.env lhs
    let rv := ctx.env rhs
    if rv.is_constant ∧ rv.float_val = 0 then .unchanged
    else if lv.is_constant ∧ rv.is_constant then
      foldFloat ctx (lv.float_val / rv.float_val)
    else if lv.is_constant ∧ lv.float_val = 0 then foldFloat ctx 0
    else if rv.is_constant ∧ rv.float_val = 1 then .replaced ctx.env ctx.next_val lhs
    else if lhs = rhs then foldFloat ctx 1
    else if rv.is_constant ∧ rv.float_val = -1 then
      let r := create_const_float ctx.env ctx.next_val 0
      .modified r.1 r.2.1
        { ctx.instr with opcode := .fsub, operands := [.value r.2.2, .value lhs] }
    else .unchanged

/-- `visit_phi` from `inst_combine.c`: replace a PHI whose incoming values
are all equal (ignoring self-references) by that value; in a
single-predecessor block, replace a PHI by its incoming value for that
predecessor. -/
def visit_phi (ctx : ICCtx) : ICResult :=
  let phi := ctx.instr
  if phi.operands.length = 0 then .unchanged
  else
    match SCCP.operandValue (phi.operands.get? 0) with
    | none => .unchanged
    | some first_val =>
      let vals := (phiPairs phi.operands).filterMap
        (fun pr => SCCP.operandValue (some pr.1))
      let all_same := vals.all (fun v => v = first_val ∨ phi.dest = some v)
      if all_same then .replaced ctx.env ctx.next_val first_val
      else
        match ctx.f.findBlock ctx.parent with
        | some bb =>
          if bb.preds.length = 1 then
            match (phiPairs phi.operands).find?
                (fun pr => pr.2 = .block (bb.preds.headI)) with
            | some pr =>
              match SCCP.operandValue (some pr.1) with
              | some v => .replaced ctx.env ctx.next_val v
              | none => .unchanged
            | none => .unchanged
          else .unchanged
        | none => .unchanged

/-- The visitor dispatch table of `inst_combine.c` (`visit_fn_table`):
opcodes without a dedicated visitor (`shl`, `ashr`, `and`, `gep`, and
everything else) take `visit_unhandled`, which does nothing. -/
def dispatch (ctx : ICCtx) : ICResult :=
  match ctx.instr.opcode with
  | .add => visit_add ctx
  | .sub => visit_sub ctx
  | .mul => visit_mul ctx
  | .sdiv => visit_sdiv ctx
  | .srem => visit_srem ctx
  | .fadd => visit_fadd ctx
  | .fsub => visit_fsub ctx
  | .fmul => visit_fmul ctx
  | .fdiv => visit_fdiv ctx
  | .icmp => visit_icmp ctx
  | .fcmp => visit_fcmp ctx
  | .phi => visit_phi ctx
  | _ => .unchanged

/-- The driver state of `run_inst_combine`: the function, the value
environment and fresh counter, the instruction worklist (a stack of
instruction identifiers), the `in_worklist` flags consulted by
`replace_all_uses_with` when re-queuing users, and the overall change
flag. -/
structure ICState where
  f : IRFunction
  env : ValueEnv
  next_val : Nat
  wl : List Nat
  in_worklist : Nat → Bool
  changed : Bool := false

/-- The `replace_all_uses_with(wl, old, new)` call of the driver: re-queue
every user of `old` whose `in_worklist` flag is clear (skipping already
erased users), then retarget every use of `old` to `new`. -/
def rauwRequeue (s : ICState) (old new : Nat) : ICState :=
  let us := (valueUsers s.f old).filter
    (fun p => p.1.opcode ≠ .unknown ∧ ¬ s.in_worklist p.1.id)
  { s with
    f := SCCP.rauw s.f old new
    wl := (us.map (fun p => p.1.id)).reverse ++ s.wl
    in_worklist := fun i => if (us.map (fun p => p.1.id)).contains i then true else s.in_worklist i }

/-- `erase_instruction` as observed at the function level: the instruction
is unlinked from its block (the use-list unlinking is the subject of the
`UseDef` development). -/
def eraseFromBlocks (f : IRFunction) (i : Nat) : IRFunction :=
  { f with blocks := f.blocks.map (fun bb =>
      { bb with instrs := bb.instrs.filter (fun ins => ins.id ≠ i) }) }

/-- One iteration of the driver loop of `run_inst_combine`: pop an
instruction, skip it when it has been erased, dispatch its visitor, then
either RAUW-and-erase (non-NULL visitor result), or write back the
modified instruction and re-queue it, or do nothing. -/
def icStep (s : ICState) (i : Nat) : ICState :=
  match s.f.find_instr i with
  | none => s
  | some (instr, parent) =>
    if instr.opcode = .unknown then s
    else
      let ctx : ICCtx :=
        { f := s.f, env := s.env, instr := instr, parent := parent,
          next_val := s.next_val }
      match dispatch ctx with
      | .replaced env' nv' v =>
        let s1 := { s with env := env', next_val := nv' }
        let s2 :=
          match instr.dest with
          | some d => rauwRequeue s1 d v
          | none => s1
        { s2 with f := eraseFromBlocks s2.f i, changed := true }
      | .modified env' nv' instr' =>
        { s with
          env := env', next_val := nv',
          f := s.f.setInstr i (fun _ => instr'),
          wl := i :: s.wl,
          changed := true }
      | .unchanged => s

/-- The worklist loop of `run_inst_combine` (the C loop is uncapped and
relies on the rewrite system terminating; the model bounds it with
explicit fuel, ample for all executions considered in the theorems). -/
def icLoop : Nat → ICState → ICState
  | 0, s => s
  | fuel + 1, s =>
    match s.wl with
    | [] => s
    | i :: rest => icLoop fuel (icStep { s with wl := rest } i)

/-- `run_inst_combine` from `inst_combine.c` (lines 76-142): a NULL
function or a function without an entry block is rejected with `false` and
the IR untouched; otherwise every instruction is queued in reverse
post-order and the worklist is drained. -/
def run_inst_combine (env : ValueEnv) (next_val : Nat)
    (fopt : Option IRFunction) : Bool × Option IRFunction :=
  match fopt with
  | none => (false, none)
  | some func =>
    match func.entry with
    | none => (false, some func)
    | some _ =>
      let initIds := func.reverse_post_order.flatMap
        (fun b => match func.findBlock b with
          | some bb => bb.instrs.map (fun i => i.id)
          | none => [])
      let s0 : ICState :=
        { f := func, env := env, next_val := next_val,
          wl := initIds.reverse, in_worklist := fun _ => false }
      let s1 := icLoop ((initIds.length + 1) * 64) s0
      (s1.changed, some s1.f)

end InstCombine

namespace ADCE

/-- `is_critical_instruction` from `adce.c` (lines 157-169): only `call`,
`store`, `ret` and `br` are critical; in particular `load` is not. -/
def is_critical_instruction (instr : IRInstruction) : Bool :=
  match instr.opcode with
  | .call | .store | .ret | .br => true
  | _ => false

/-- The marking state of `run_adce`: the per-instruction `is_live` flags,
the `live_blocks` array, and the worklist of live instructions (with
their parent block identifiers). -/
structure AdceState where
  live : Nat → Bool
  live_blocks : Nat → Bool
  wl : List (IRInstruction × Nat)

/-- `mark_instruction_live` from `adce.c`: an instruction not yet live is
flagged, queued, and its parent block is flagged live. -/
def mark_instruction_live (s : AdceState) (instr : IRInstruction)
    (parent : Nat) : AdceState :=
  if s.live instr.id then s
  else
    { live := setAt s.live instr.id true
      live_blocks := setAt s.live_blocks parent true
      wl := (instr, parent) :: s.wl }

/-- `propagate_data_flow_liveness` from `adce.c`: for a PHI, only incoming
values from live predecessor blocks mark their defining instructions; for
any other instruction, every non-constant operand value with a defining
instruction marks it.  (For a non-PHI the C loop reads `op->data.value`
of every operand; a block operand read through the value arm of the union
is skipped by the `is_constant` test, so the model only considers value
operands.) -/
def propagate_data_flow_liveness (f : IRFunction) (env : ValueEnv)
    (s : AdceState) (instr : IRInstruction) : AdceState :=
  if instr.opcode = .phi then
    (phiPairs instr.operands).foldl
      (fun st pr =>
        match pr.2 with
        | .block pred_bb =>
          if st.live_blocks pred_bb then
            match pr.1 with
            | .value v =>
              if ¬ (env v).is_constant then
                match (env v).def_instr with
                | some di =>
                  match f.find_instr di with
                  | some (dinstr, dparent) => mark_instruction_live st dinstr dparent
                  | none => st
                | none => st
              else st
            | .block _ => st
          else st
        | .value _ => st) s
  else
    instr.operands.foldl
      (fun st od =>
        match od with
        | .value v =>
          if ¬ (env v).is_constant then
            match (env v).def_instr with
            | some di =>
              match f.find_instr di with
              | some (dinstr, dparent) => mark_instruction_live st dinstr dparent
              | none => st
            | none => st
          else st
        | .block _ => st) s

/-- `propagate_control_flow_liveness` from `adce.c`: when a block is not
yet flagged live, flag it and mark the terminator (tail instruction) of
each of its predecessors live. -/
def propagate_control_flow_liveness (f : IRFunction) (s : AdceState)
    (bb_id : Nat) : AdceState :=
  if s.live_blocks bb_id then s
  else
    let s1 := { s with live_blocks := setAt s.live_blocks bb_id true }
    match f.findBlock bb_id with
    | none => s1
    | some bb =>
      bb.preds.foldl
        (fun st p =>
          match f.findBlock p with
          | some pred_bb =>
            match pred_bb.tail with
            | some t => mark_instruction_live st t p
            | none => st
          | none => st) s1

/-- The propagation loop of `run_adce` (step 5): pop a live instruction
and propagate along data flow and control flow, for at most
`2 * total_instructions` iterations. -/
def adceLoop (f : IRFunction) (env : ValueEnv) : Nat → AdceState → AdceState
  | 0, s => s
  | fuel + 1, s =>
    match s.wl with
    | [] => s
    | (instr, parent) :: rest =>
      let s1 := { s with wl := rest }
      let s2 := propagate_data_flow_liveness f env s1 instr
      let s3 := propagate_control_flow_liveness f s2 parent
      adceLoop f env fuel s3

/-- The final liveness marking computed by `run_adce` on a function:
initialize every instruction dead, seed the worklist with the critical
instructions in block order, then run the propagation loop. -/
def adceMark (f : IRFunction) (env : ValueEnv) : AdceState :=
  let total := (f.blocks.map (fun bb => bb.instrs.length)).sum
  let s0 : AdceState :=
    { live := fun _ => false, live_blocks := fun _ => false, wl := [] }
  let s1 := f.blocks.foldl
    (fun st bb => bb.instrs.foldl
      (fun st2 instr =>
        if is_critical_instruction instr then mark_instruction_live st2 instr bb.id
        else st2) st) s0
  adceLoop f env (2 * total) s1

/-- `run_adce` from `adce.c` (lines 53-150): a NULL function or a function
without an entry block is rejected with `false` and the IR untouched;
otherwise mark-and-sweep — instructions not marked live are erased. -/
def run_adce (env : ValueEnv) (fopt : Option IRFunction) :
    Bool × Option IRFunction :=
  match fopt with
  | none => (false, none)
  | some func =>
    match func.entry with
    | none => (false, some func)
    | some _ =>
      let s := adceMark func env
      let newBlocks := func.blocks.map (fun bb =>
        { bb with instrs := bb.instrs.filter (fun i => s.live i.id) })
      let changed := func.blocks ≠ newBlocks
      (changed, some { func with blocks := newBlocks })

end ADCE

/-- Statement helper: does an operand refer to a value whose defining
instruction (per the environment) is the instruction with id `id`? -/
def operandRefsDef (env : ValueEnv) (id : Nat) : OperandData → Bool
  | .value v => (env v).def_instr == some id
  | .block _ => false

/-- `ir_phi_add_incoming` from `ir_builder.c`: append a (value, block)
incoming pair to a PHI, unless an entry for that predecessor block is
already present (in which case nothing is added). -/
def ir_phi_add_incoming (phi : IRInstruction) (val : Nat) (pred : Nat) :
    IRInstruction :=
  if phi.operands.contains (.block pred) then phi
  else { phi with operands := phi.operands ++ [.value val, .block pred] }

namespace Mem2Reg

/-- The dominator-tree side table (`dom_children` of every block, rooted
at the entry block), as computed by the dominator analysis: each node is
a block identifier with its ordered children list. -/
inductive DomTree where
  | node (b : Nat) (children : List DomTree)

mutual

/-- The block identifiers of a dominator tree, in depth-first order. -/
def DomTree.nodes : DomTree → List Nat
  | .node b children => b :: DomTree.nodesList children

/-- The block identifiers of a forest of dominator trees. -/
def DomTree.nodesList : List DomTree → List Nat
  | [] => []
  | t :: ts => DomTree.nodes t ++ DomTree.nodesList ts

end

/-- The mutable state threaded through Mem2Reg: the function, the value
environment (fresh PHI results and the undef value are allocated into it)
and the fresh identifier counters. -/
structure M2RState where
  f : IRFunction
  env : ValueEnv
  next_val : Nat
  next_instr : Nat

/-- `is_alloca_promotable` from `mem2reg.c` (lines 183-208): the allocated
type must not be an array, and every use of the alloca's result must be a
`load`, or a `store` in which the use is the address operand (the second
operand).  The C code walks `alloca_instr->dest->use_list_head`; by the
use-def consistency invariant that walk visits exactly the operand
occurrences of the result value, which is what the model inspects. -/
def is_alloca_promotable (f : IRFunction) (env : ValueEnv)
    (alloca_instr : IRInstruction) : Bool :=
  match alloca_instr.dest with
  | none => false
  | some d =>
    match (env d).ty with
    | .ptr allocated_type =>
      (match allocated_type with
       | .arr _ => false
       | _ => true)
      && f.allInstrs.all (fun i => i.operands.enum.all (fun ke =>
          ke.2 ≠ .value d ∨ i.opcode = .load ∨ (i.opcode = .store ∧ ke.1 = 1)))
    | _ => false

/-- `analyze_allocas` from `mem2reg.c`: scan the leading run of `alloca`
instructions of the entry block and keep the promotable ones (the scan
stops at the first non-alloca instruction, exactly as the C loop
condition `instr && instr->opcode == IR_OP_ALLOCA` does). -/
def analyze_allocas (f : IRFunction) (env : ValueEnv) (entry : Nat) :
    List IRInstruction :=
  match f.findBlock entry with
  | none => []
  | some bb =>
    (bb.instrs.takeWhile (fun i => i.opcode = .alloca)).filter
      (is_alloca_promotable f env)

/-- The defining blocks of a promotable alloca (`analyze_allocas`, second
phase): the blocks containing a `store` that uses the alloca's result. -/
def defining_blocks (f : IRFunction) (d : Nat) : List Nat :=
  (f.blocks.filter (fun bb => bb.instrs.any (fun i =>
    i.opcode = .store ∧ i.operands.contains (.value d)))).map (fun bb => bb.id)

/-- The worklist loop of `compute_phi_placement` from `mem2reg.c`: the
iterated dominance frontier of the defining blocks.  New frontier blocks
are recorded; those that do not themselves define the variable are pushed
for further propagation. -/
def phiPlacementLoop (f : IRFunction) (defblocks : List Nat) :
    Nat → List Nat → List Nat → List Nat
  | 0, phi_blocks, _ => phi_blocks
  | fuel + 1, phi_blocks, wl =>
    match wl with
    | [] => phi_blocks
    | b :: rest =>
      let df := match f.findBlock b with
        | some bb => bb.dom_frontier
        | none => []
      let step := df.foldl
        (fun (acc : List Nat × List Nat) fb =>
          if acc.1.contains fb then acc
          else (fb :: acc.1, if defblocks.contains fb then acc.2 else fb :: acc.2))
        (phi_blocks, [])
      phiPlacementLoop f defblocks fuel step.1 (step.2 ++ rest)

/-- `compute_phi_placement` from `mem2reg.c` (lines 250-281) for one
alloca: seed the worklist with the defining blocks (pushed in ascending
identifier order, as the C loop over `block_id` does) and iterate. -/
def compute_phi_placement (f : IRFunction) (defblocks : List Nat) : List Nat :=
  let n := f.blocks.length
  let init := ((List.range n).filter (fun b => defblocks.contains b)).reverse
  phiPlacementLoop f defblocks (n * n + n + 1) [] init

/-- Insert a PHI at the end of the leading PHI run of block `bid` (the
placement performed by `ir_builder_create_phi`, which inserts before the
first non-PHI instruction). -/
def insertPhiInBlock (f : IRFunction) (bid : Nat) (phi : IRInstruction) :
    IRFunction :=
  { f with blocks := f.blocks.map (fun bb =>
      if bb.id = bid then
        { bb with instrs :=
            bb.instrs.takeWhile (fun i => i.opcode = .phi) ++ [phi]
            ++ bb.instrs.dropWhile (fun i => i.opcode = .phi) }
      else bb) }

/-- `insert_phi_nodes` from `mem2reg.c` (lines 286-314): for each
promotable alloca and each of its placement blocks, create a PHI with a
fresh result value of the allocated type and the `phi_for_alloca`
back-pointer set to the alloca. -/
def insert_phi_nodes (st : M2RState)
    (placements : List (IRInstruction × List Nat)) : M2RState :=
  placements.foldl
    (fun (st1 : M2RState) pa =>
      (st1.f.blocks.map (fun bb => bb.id)).foldl
        (fun (st2 : M2RState) bid =>
          if pa.2.contains bid then
            let phi_ty := match pa.1.dest with
              | some d => match (st2.env d).ty with
                | .ptr e => e
                | t => t
              | none => .i32
            let phi : IRInstruction :=
              { id := st2.next_instr, opcode := .phi, dest := some st2.next_val,
                phi_for_alloca := some pa.1.id }
            { st2 with
              f := insertPhiInBlock st2.f bid phi
              env := setAt st2.env st2.next_val
                { is_constant := false, def_instr := some st2.next_instr, ty := phi_ty }
              next_val := st2.next_val + 1
              next_instr := st2.next_instr + 1 }
          else st2) st1) st

/-- Step 1 of `rename_recursive`: each leading PHI of the block whose
`phi_for_alloca` matches a promotable alloca pushes its result value onto
that alloca's version stack. -/
def renamePhiScan (pas : List IRInstruction) (bb : IRBasicBlock)
    (stks : List (List Nat)) : List (List Nat) :=
  (bb.instrs.takeWhile (fun i => i.opcode = .phi)).foldl
    (fun stks phi =>
      match pas.findIdx? (fun pa => phi.phi_for_alloca = some pa.id) with
      | some i =>
        match phi.dest with
        | some d => stks.set i (d :: stks.getD i [])
        | none => stks
      | none => stks) stks

/-- Step 2 of `rename_recursive` for one instruction (looked up afresh in
the current state, as the C pointer walk observes in-place updates made by
earlier iterations): a `load` of a promotable alloca RAUWs its result
with the stack top and is marked for removal; a `store` to a promotable
alloca pushes the stored value and is marked for removal. -/
def renameInstrStep (pas : List IRInstruction) (bid : Nat)
    (acc : M2RState × List (List Nat)) (iid : Nat) : M2RState × List (List Nat) :=
  let st := acc.1
  let stks := acc.2
  match st.f.findBlock bid with
  | none => acc
  | some bb =>
    match bb.instrs.find? (fun i => i.id = iid) with
    | none => acc
    | some cur =>
      if cur.opcode = .load then
        match pas.findIdx? (fun pa =>
            SCCP.operandValue (cur.operands.get? 0) = pa.dest ∧ pa.dest ≠ none) with
        | some i =>
          let top := (stks.getD i []).headI
          let f1 := match cur.dest with
            | some d => SCCP.rauw st.f d top
            | none => st.f
          let f2 := f1.setInstr iid (fun ins => { ins with opcode := .unknown })
          ({ st with f := f2 }, stks)
        | none => acc
      else if cur.opcode = .store then
        match pas.findIdx? (fun pa =>
            SCCP.operandValue (cur.operands.get? 1) = pa.dest ∧ pa.dest ≠ none) with
        | some i =>
          let stks' := match SCCP.operandValue (cur.operands.get? 0) with
            | some v => stks.set i (v :: stks.getD i [])
            | none => stks
          let f2 := st.f.setInstr iid (fun ins => { ins with opcode := .unknown })
          ({ st with f := f2 }, stks')
        | none => acc
      else acc

/-- Step 3 of `rename_recursive`: add the current stack top of the
matching alloca as the incoming value from this block to each leading PHI
of every successor block. -/
def renameFillSuccessorPhis (pas : List IRInstruction) (bid : Nat)
    (st : M2RState) (stks : List (List Nat)) : M2RState :=
  match st.f.findBlock bid with
  | none => st
  | some bb =>
    bb.succs.foldl
      (fun (st1 : M2RState) succ =>
        match st1.f.findBlock succ with
        | none => st1
        | some sbb =>
          (sbb.instrs.takeWhile (fun i => i.opcode = .phi)).foldl
            (fun (st2 : M2RState) phi =>
              match pas.findIdx? (fun pa => phi.phi_for_alloca = some pa.id) with
              | some j =>
                let g := fun (ins : IRInstruction) =>
                  ir_phi_add_incoming ins ((stks.getD j []).headI) bid
                { st2 with f := st2.f.setInstr phi.id g }
              | none => st2) st1) st

/-- `cleanup_removed_instructions` from `ir_utils.c`, as called at the end
of `rename_recursive`: erase every instruction of the block marked with
the `unknown` opcode. -/
def cleanupBlock (f : IRFunction) (bid : Nat) : IRFunction :=
  { f with blocks := f.blocks.map (fun bb =>
      if bb.id = bid then
        { bb with instrs := bb.instrs.filter (fun i => i.opcode ≠ .unknown) }
      else bb) }

mutual

/-- `rename_recursive` from `mem2reg.c` (lines 340-410): process the
block's PHIs (pushing versions), walk the instructions rewriting loads and
stores of promotable allocas, fill successor PHIs, recurse into the
dominator-tree children, then clean up the marked instructions (the
version stks, being threaded functionally, revert on return exactly as
the paired pushes/pops of the C code do). -/
def rename_recursive (pas : List IRInstruction) (st : M2RState) :
    DomTree → List (List Nat) → M2RState
  | .node b children, stks =>
    match st.f.findBlock b with
    | none => st
    | some bb =>
      let stacks1 := renamePhiScan pas bb stks
      let ids := bb.instrs.map (fun i => i.id)
      let acc := ids.foldl (renameInstrStep pas b) (st, stacks1)
      let st2 := renameFillSuccessorPhis pas b acc.1 acc.2
      let st3 := renameForest pas st2 children acc.2
      { st3 with f := cleanupBlock st3.f b }

/-- Sequential recursion into the dominator-tree children. -/
def renameForest (pas : List IRInstruction) (st : M2RState) :
    List DomTree → List (List Nat) → M2RState
  | [], _ => st
  | c :: cs, stks => renameForest pas (rename_recursive pas st c stks) cs stks

end

/-- `run_mem2reg` from `mem2reg.c` (lines 122-171): a NULL function or a
function without an entry block is rejected with `false` and the IR
untouched; otherwise analyze the promotable allocas (returning `false`
and leaving the IR unchanged if there are none), place and insert PHIs,
rename over the dominator tree `dt` (the `dom_children` side table
computed by the dominator analysis), and erase the promoted allocas. -/
def run_mem2reg (dt : DomTree) (env : ValueEnv) (next_val next_instr : Nat)
    (fopt : Option IRFunction) : Bool × Option IRFunction :=
  match fopt with
  | none => (false, none)
  | some func =>
    match func.entry with
    | none => (false, some func)
    | some entry =>
      let pas := analyze_allocas func env entry
      if pas.isEmpty then (false, some func)
      else
        let placements := pas.map (fun pa =>
          (pa, compute_phi_placement func
            (match pa.dest with
             | some d => defining_blocks func d
             | none => [])))
        let st1 := insert_phi_nodes
          { f := func, env := env, next_val := next_val, next_instr := next_instr }
          placements
        let uv := st1.next_val
        let st2 : M2RState :=
          { st1 with
            env := setAt st1.env uv
              { is_constant := false, def_instr := none, ty := .void }
            next_val := uv + 1 }
        let stks := pas.map (fun _ => [uv])
        let st3 := rename_recursive pas st2 dt stks
        let f1 := pas.foldl (fun (g : IRFunction) pa =>
          InstCombine.eraseFromBlocks g pa.id) st3.f
        (true, some f1)

/-- The claim's own notion of a promotable alloca, written from the
specification's words for comparison with the code's behaviour: an
entry-block alloca of non-array type whose every use is a load, or a
store in which the alloca is the address operand. -/
def specPromotableAlloca (f : IRFunction) (env : ValueEnv)
    (a : IRInstruction) : Bool :=
  match f.entry with
  | none => false
  | some e =>
    match f.findBlock e with
    | none => false
    | some bb =>
      decide (a.opcode = .alloca) && bb.instrs.contains a &&
      (match a.dest with
       | some d =>
         (match (env d).ty with
          | .ptr (.arr _) => false
          | .ptr _ => true
          | _ => false)
         && f.allInstrs.all (fun i => i.operands.enum.all (fun ke =>
           ke.2 ≠ .value d ∨ i.opcode = .load ∨ (i.opcode = .store ∧ ke.1 = 1)))
       | none => false)

end Mem2Reg

namespace Dominators

/-- The CFG projection of a function on which `dominators.c` operates:
`n` blocks identified by `0, …, n-1` in function layout order, the
successor side table filled by `build_cfg`, and the entry block. -/
structure CFG where
  n : Nat
  succ : Nat → List Nat
  entry : Nat

/-- The predecessor side table: `a` is a predecessor of `b` exactly when
`b` is among `a`'s successors (`build_cfg`'s second pass). -/
def preds (g : CFG) (b : Nat) : List Nat :=
  (List.range g.n).filter (fun a => (g.succ a).contains b)

/-- `dfs_visit` from `dominators.c` (lines 100-110): depth-first search
appending each block to the post-order list after its successors; the
fuel bounds the recursion depth (every recursive call is on a newly
visited block, so `n + 1` suffices). -/
def dfs_visit (g : CFG) : Nat → (Nat → Bool) → Nat → ((Nat → Bool) × List Nat)
  | 0, vis, _ => (vis, [])
  | fuel + 1, vis, block =>
    let vis1 := setAt vis block true
    let r := (g.succ block).foldl
      (fun (p : (Nat → Bool) × List Nat) s =>
        if p.1 s then p
        else
          let q := dfs_visit g fuel p.1 s
          (q.1, p.2 ++ q.2))
      (vis1, [])
    (r.1, r.2 ++ [block])

/-- `perform_post_order_traversal`: the post-order block list from the
entry; block `post_order[i]` receives `post_order_id = i`. -/
def post_order (g : CFG) : List Nat :=
  (dfs_visit g (g.n + 1) (fun _ => false) g.entry).2

/-- The `post_order_id` of a block: its index in the post-order list. -/
def pid (post : List Nat) (b : Nat) : Nat := post.indexOf b

/-- The block with a given `post_order_id` (`ctx->post_order[id]`). -/
def blockOfPid (post : List Nat) (i : Nat) : Nat := post.getD i 0

/-- Intersection of two bitsets (`bitset_intersect`). -/
def bitset_and (a b : List Bool) : List Bool := List.zipWith (· && ·) a b

/-- Membership in a bitset (`bitset_contains`). -/
def bitset_mem (s : List Bool) (i : Nat) : Bool := s.getD i false

/-- One reverse-post-order pass of the iterative dataflow of
`compute_dominator_sets`: for each non-entry block, recompute
`{b} ∪ ⋂ Dom(p)` over its predecessors and record whether anything
changed.  The dominator sets are bitsets indexed by `post_order_id`. -/
def dom_pass (g : CFG) (post : List Nat) (dom0 : List (List Bool)) :
    List (List Bool) × Bool :=
  post.reverse.foldl
    (fun (acc : List (List Bool) × Bool) b =>
      if b = g.entry then acc
      else
        let b_id := pid post b
        let ps := preds g b
        let temp :=
          match ps with
          | [] => List.replicate g.n false
          | p :: rest =>
            rest.foldl (fun t p2 => bitset_and t (acc.1.getD (pid post p2) []))
              (acc.1.getD (pid post p) [])
        let temp2 := temp.set b_id true
        if acc.1.getD b_id [] = temp2 then acc
        else (acc.1.set b_id temp2, true))
    (dom0, false)

/-- The `while (changed)` loop of `compute_dominator_sets`, with fuel (the
sum of the bitset populations strictly decreases on every changed round,
so `n * n + 1` rounds always reach the fixed point). -/
def dom_iter (g : CFG) (post : List Nat) : Nat → List (List Bool) → List (List Bool)
  | 0, dom => dom
  | fuel + 1, dom =>
    let r := dom_pass g post dom
    if r.2 then dom_iter g post fuel r.1 else r.1

/-- `compute_dominator_sets` from `dominators.c` (lines 133-193):
`Dom(entry) = {entry}`, every other block starts at the full set, then
iterate to the fixed point. -/
def compute_dominator_sets (g : CFG) (post : List Nat) : List (List Bool) :=
  let entry_id := pid post g.entry
  let init := (List.range g.n).map (fun i =>
    if blockOfPid post i = g.entry then (List.replicate g.n false).set entry_id true
    else List.replicate g.n true)
  dom_iter g post (g.n * g.n + 1) init

/-- `compute_immediate_dominators` from `dominators.c` (lines 196-228):
for each non-entry block, the immediate dominator is chosen as the block,
among all strict dominators in its dominator set, with the **highest**
`post_order_id` (the C loop keeps `dom_candidate_id > idom_id`). -/
def compute_immediate_dominators (g : CFG) (post : List Nat)
    (dom : List (List Bool)) (b : Nat) : Option Nat :=
  if b = g.entry then none
  else
    let b_id := pid post b
    let b_doms := dom.getD b_id []
    let idom_id := (List.range g.n).foldl
      (fun (best : Option Nat) cand =>
        if cand = b_id then best
        else if bitset_mem b_doms cand then
          match best with
          | none => some cand
          | some cur => if cand > cur then some cand else some cur
        else best) none
    idom_id.map (blockOfPid post)

/-- `build_dominator_tree` from `dominators.c`: the `dom_children` lists,
populated by walking the blocks in function layout order. -/
def dom_children (idom : Nat → Option Nat) (n : Nat) (b : Nat) : List Nat :=
  (List.range n).filter (fun c => idom c = some b)

/-- `dfs_dom_tree` from `ir_utils.c` (lines 1594-1602): assign enter/exit
timestamps over the dominator tree; returns the updated `(dom_tin,
dom_tout)` table and the next free timestamp. -/
def dfs_dom_tree (children : Nat → List Nat) :
    Nat → Nat → (Nat → Nat × Nat) → Nat → ((Nat → Nat × Nat) × Nat)
  | 0, time, acc, _ => (acc, time)
  | fuel + 1, time, acc, b =>
    let tin := time
    let r := (children b).foldl
      (fun (p : (Nat → Nat × Nat) × Nat) c =>
        dfs_dom_tree children fuel p.2 p.1 c)
      (acc, time + 1)
    (setAt r.1 b (tin, r.2), r.2 + 1)

/-- The result of `compute_dominators`: the post-order list, the `idom`
table and the dominator-tree DFS timestamps (`dom_tin`/`dom_tout`). -/
structure DomResult where
  post : List Nat
  idom : Nat → Option Nat
  tin : Nat → Nat
  tout : Nat → Nat

/-- `compute_dominators` from `dominators.c` (lines 42-95) followed by
`compute_dom_tree_timestamps` from `ir_utils.c`: post-order traversal,
iterative dominator sets, immediate-dominator extraction, dominator-tree
children, and the timestamp DFS from the entry block. -/
def compute_dominators (g : CFG) : DomResult :=
  let post := post_order g
  let dom := compute_dominator_sets g post
  let idom := fun b => compute_immediate_dominators g post dom b
  let children := dom_children idom g.n
  let ts := (dfs_dom_tree children (g.n + 1) 0 (fun _ => (0, 0)) g.entry).1
  { post := post, idom := idom, tin := fun b => (ts b).1, tout := fun b => (ts b).2 }

/-- `dominates` from `ir_utils.c` (lines 1210-1219): the O(1) timestamp
query — `dom` dominates `use` when `dom = use`, or when
`dom.tin ≤ use.tin ∧ dom.tout ≥ use.tout`. -/
def dominates (r : DomResult) (dom use : Nat) : Bool :=
  if dom = use then true
  else r.tin dom ≤ r.tin use && r.tout dom ≥ r.tout use

/-- Walks of the CFG: `Walks g a b l` holds when `l` is the block sequence
of a path from `a` to `b` along successor edges. -/
inductive Walks (g : CFG) : Nat → Nat → List Nat → Prop where
  | nil (a : Nat) : Walks g a a [a]
  | cons (a c b : Nat) (l : List Nat) :
      (g.succ a).contains c → Walks g c b l → Walks g a b (a :: l)

/-- Path-based dominance, the definition of the specification: `a`
dominates `b` when every path from the entry block to `b` passes
through `a`. -/
def path_dominates (g : CFG) (a b : Nat) : Prop :=
  ∀ l, Walks g g.entry b l → a ∈ l

end Dominators

namespace UseDef

/-- The referent of an operand slot: a value (`IR_OP_KIND_VALUE`), a basic
block (`IR_OP_KIND_BASIC_BLOCK`), or unallocated memory (the operand
identifier has not been handed out by `create_ir_operand` yet). -/
inductive ORef where
  | value (v : Nat)
  | block (b : Nat)
  | unalloc
deriving DecidableEq, Repr

/-- The classification of a value that the use-def functions branch on:
`const` (`is_constant` set — constants never enter use lists), `reg`
(a register: non-constant with `def_instr != NULL`), and `nodef`
(non-constant with `def_instr == NULL`: function arguments, globals,
undef values). -/
inductive VKind where
  | const
  | reg
  | nodef
deriving DecidableEq, Repr

/-- The classification environment; `is_constant` and `def_instr` of a
value are fixed at its creation and not altered by the four
operand-manipulation functions. -/
abbrev KindEnv := Nat → VKind

/-- The pointer-level state of the use-def machinery of `ir_utils.c`:
`nOps` is the allocation bound (operand identifiers `≥ nOps` are virgin
memory), `ref` the operand referents, `nxt` the `next_use` links,
`use_list_head` the per-value use-list heads, `owner`/`iOps` the
instruction attachment (an operand's `user` together with the
instruction's operand list), and the per-instruction `opcode`,
`parent` and `dest` fields with the per-block instruction lists needed by
`erase_instruction`. -/
structure State where
  nOps : Nat
  ref : Nat → ORef
  nxt : Nat → Option Nat
  use_list_head : Nat → Option Nat
  owner : Nat → Option Nat
  iOps : Nat → List Nat
  opcode : Nat → Opcode
  parent : Nat → Option Nat
  blockInstrs : Nat → List Nat
  dest : Nat → Option Nat

/-- The splice loop of `remove_operand_from_use_list` (`ir_utils.c`,
lines 665-684, the pointer-to-pointer walk): remove the first occurrence
of `o` from the chain starting at `cur`, clearing `o`'s `next_use`;
returns the new chain start and the updated `next_use` table.  The fuel
bounds the walk (the loop is called only on register use lists, which the
invariant below keeps finite and duplicate-free). -/
def removeFirst (o : Nat) : Nat → (Nat → Option Nat) → Option Nat →
    Option Nat × (Nat → Option Nat)
  | 0, nxt, cur => (cur, nxt)
  | fuel + 1, nxt, cur =>
    match cur with
    | none => (none, nxt)
    | some p =>
      if p = o then (nxt o, setAt nxt o none)
      else
        let r := removeFirst o fuel nxt (nxt p)
        (some p, setAt r.2 p r.1)

/-- `remove_operand_from_use_list` from `ir_utils.c`: a non-value operand
is ignored; so is an operand whose referenced value is constant **or has
no defining instruction** (the early return
`val->is_constant || val->def_instr == NULL`); otherwise the operand is
spliced out of the referent's use list. -/
def remove_operand_from_use_list (env : KindEnv) (s : State) (o : Nat) : State :=
  match s.ref o with
  | .value v =>
    if env v = .const ∨ env v = .nodef then s
    else
      let r := removeFirst o s.nOps s.nxt (s.use_list_head v)
      { s with nxt := r.2, use_list_head := setAt s.use_list_head v r.1 }
  | _ => s

/-- `add_operand` from `ir_utils.c` (lines 618-646) for a value operand:
allocate a fresh operand, append it to the instruction's operand list,
and — when the value is **not constant** (no `def_instr` check here) —
prepend it to the value's use list. -/
def add_operand (env : KindEnv) (s : State) (instr v : Nat) : State :=
  let o := s.nOps
  let s1 : State := { s with
    nOps := o + 1
    ref := setAt s.ref o (.value v)
    owner := setAt s.owner o (some instr)
    iOps := setAt s.iOps instr (s.iOps instr ++ [o]) }
  if env v = .const then s1
  else { s1 with
    nxt := setAt s1.nxt o (s.use_list_head v)
    use_list_head := setAt s1.use_list_head v (some o) }

/-- `add_operand` for a basic-block operand (`add_bb_operand`): allocate
and attach, with no use-list bookkeeping. -/
def add_bb_operand (s : State) (instr b : Nat) : State :=
  let o := s.nOps
  { s with
    nOps := o + 1
    ref := setAt s.ref o (.block b)
    owner := setAt s.owner o (some instr)
    iOps := setAt s.iOps instr (s.iOps instr ++ [o]) }

/-- `remove_operand` from `ir_utils.c` (lines 690-713): unlink from the
referent's use list, then from the owning instruction's operand list.
(A detached operand is left alone; the C code's behaviour there would
dereference an invalid `user` pointer, so attachment is a precondition.) -/
def remove_operand (env : KindEnv) (s : State) (o : Nat) : State :=
  match s.owner o with
  | none => s
  | some instr =>
    let s1 := remove_operand_from_use_list env s o
    { s1 with
      iOps := setAt s1.iOps instr ((s1.iOps instr).erase o)
      owner := setAt s1.owner o none }

/-- `change_operand_value` from `ir_utils.c` (lines 720-739): no-op when
the operand already references the new value; otherwise unlink from the
old referent's use list, retarget, and prepend to the new referent's use
list when the new value is non-constant **and has a defining
instruction**; otherwise the `next_use` link is cleared.  (The C code
asserts the operand is a value operand; it is only ever called on
attached operands, which the model makes a guard.) -/
def change_operand_value (env : KindEnv) (s : State) (o new_val : Nat) : State :=
  match s.ref o, s.owner o with
  | .value old_val, some _ =>
    if old_val = new_val then s
    else
      let s1 := remove_operand_from_use_list env s o
      let s2 : State := { s1 with ref := setAt s1.ref o (.value new_val) }
      if env new_val = .reg then
        { s2 with
          nxt := setAt s2.nxt o (s2.use_list_head new_val)
          use_list_head := setAt s2.use_list_head new_val (some o) }
      else { s2 with nxt := setAt s2.nxt o none }
  | _, _ => s

/-- The loop of `replace_all_uses_with` (`ir_utils.c`, lines 748-784):
retarget the head of `old_val`'s use list until the list is empty.  The
C loop is unbounded; the fuel (instantiated with the allocation bound)
covers every terminating execution, and truncates the executions on
which the C code would not terminate (a `nodef` value with uses, whose
head is never removed). -/
def replace_all_uses_with_loop (env : KindEnv) (old_val new_val : Nat) :
    Nat → State → State
  | 0, s => s
  | fuel + 1, s =>
    match s.use_list_head old_val with
    | none => s
    | some use =>
      replace_all_uses_with_loop env old_val new_val fuel
        (change_operand_value env s use new_val)

/-- `replace_all_uses_with` from `ir_utils.c`: no-op when the two values
coincide or the old value has no uses; otherwise run the retargeting
loop (the optional worklist argument only schedules re-visits and does
not affect the use-def state). -/
def replace_all_uses_with (env : KindEnv) (s : State) (old_val new_val : Nat) :
    State :=
  if old_val = new_val ∨ s.use_list_head old_val = none then s
  else replace_all_uses_with_loop env old_val new_val s.nOps s

/-- `erase_instruction` from `ir_utils.c` (lines 863-914): an already
poisoned instruction is ignored; otherwise every operand is removed in
list order (the C `while (instr->operand_head)` loop), the instruction is
unlinked from its block's instruction list, and its `opcode` is set to
the poisoned `unknown` value with `parent` and `dest` cleared.  The
debug-build precondition (the result value's use list is empty) is a
hypothesis of the theorems, not enforced here, matching release
builds. -/
def erase_instruction (env : KindEnv) (s : State) (instr : Nat) : State :=
  if s.opcode instr = .unknown then s
  else
    let s1 := (s.iOps instr).foldl (fun st o => remove_operand env st o) s
    let s2 : State :=
      match s.parent instr with
      | some b =>
        let bl := setAt s1.blockInstrs b ((s1.blockInstrs b).erase instr)
        { s1 with blockInstrs := bl }
      | none => s1
    { s2 with
      opcode := setAt s2.opcode instr .unknown
      parent := setAt s2.parent instr none
      dest := setAt s2.dest instr none }

/-- One operand-manipulation call of the claim: the four functions of the
use-def machinery (`add_operand` in its value and block forms,
`remove_operand`, `change_operand_value`, `replace_all_uses_with`). -/
inductive Call where
  | add_op (instr v : Nat)
  | add_bb (instr b : Nat)
  | remove_op (o : Nat)
  | change_op (o new_val : Nat)
  | rauw (old_val new_val : Nat)

/-- Apply one call. -/
def applyCall (env : KindEnv) (s : State) : Call → State
  | .add_op i v => add_operand env s i v
  | .add_bb i b => add_bb_operand s i b
  | .remove_op o => remove_operand env s o
  | .change_op o v => change_operand_value env s o v
  | .rauw a b => replace_all_uses_with env s a b

/-- Apply a sequence of calls in order. -/
def applySeq (env : KindEnv) (s : State) (calls : List Call) : State :=
  calls.foldl (applyCall env) s

/-- Executable readout of a use list: follow `use_list_head` and
`next_use` (the fuel `nOps` suffices for any duplicate-free chain of
allocated operands). -/
def chainFrom (nxt : Nat → Option Nat) : Nat → Option Nat → List Nat
  | 0, _ => []
  | fuel + 1, cur =>
    match cur with
    | none => []
    | some o => o :: chainFrom nxt fuel (nxt o)

/-- The use list of value `v` as read from the state. -/
def useList (s : State) (v : Nat) : List Nat :=
  chainFrom s.nxt s.nOps (s.use_list_head v)

/-- `IsChain nxt c l`: `l` is the (finite, complete) chain obtained by
following `nxt` from `c`. -/
inductive IsChain (nxt : Nat → Option Nat) : Option Nat → List Nat → Prop where
  | nil : IsChain nxt none []
  | cons (o : Nat) (l : List Nat) :
      IsChain nxt (nxt o) l → IsChain nxt (some o) (o :: l)

/-- The use list of a register value `v` is well formed in state `s` with
contents `l`: it is a complete duplicate-free chain, its members are
allocated, attached operands referencing `v`, and every allocated
attached operand referencing `v` is a member. -/
def RegChainOk (s : State) (v : Nat) (l : List Nat) : Prop :=
  IsChain s.nxt (s.use_list_head v) l ∧ l.Nodup ∧
  (∀ o ∈ l, o < s.nOps ∧ s.ref o = .value v ∧ s.owner o ≠ none) ∧
  (∀ o, o < s.nOps → s.ref o = .value v → s.owner o ≠ none → o ∈ l)

/-- The use-def consistency invariant: every register value has a well
formed use list, and operand identifiers beyond the allocation bound are
virgin. -/
def WF (env : KindEnv) (s : State) : Prop :=
  (∀ v, env v = .reg → ∃ l, RegChainOk s v l) ∧
  (∀ o, s.nOps ≤ o → s.ref o = .unalloc ∧ s.owner o = none ∧ s.nxt o = none)

end UseDef

/-! ## Concrete inputs used by the theorems -/

/-- A value environment where every value is a plain register-like value
with no constant payload (used where only non-constant values occur). -/
def envDefault : ValueEnv := fun _ => {}

/-- C1: a function whose entry block `0` ends in a conditional branch on
value `10` (a function argument, hence lattice Bottom), with successor
blocks `1` and `2`. -/
def brC1 : IRInstruction :=
  { id := 0, opcode := .br, operands := [.value 10, .block 1, .block 2] }

/-- C1: the enclosing function. -/
def fC1 : IRFunction :=
  { entry := some 0
    blocks :=
      [ { id := 0, instrs := [brC1], succs := [1, 2] }
      , { id := 1, instrs := [{ id := 1, opcode := .ret }], preds := [0] }
      , { id := 2, instrs := [{ id := 2, opcode := .ret }], preds := [0] } ]
    args := [10]
    reverse_post_order := [0, 1, 2] }

/-- C2: an environment where value `20` is the integer constant `0` and
value `22` is the register defined by the `sdiv`. -/
def envC2 : ValueEnv := fun v =>
  if v = 20 then { is_constant := true, ty := .i32, int_val := 0 }
  else if v = 22 then { def_instr := some 1, ty := .i32 }
  else {}

/-- C2: the `sdiv` instruction `%22 = sdiv 0, 0` — both operands reference
the same constant-zero value object, so the lattice values of the two
operands are equal and the SCCP evaluator reaches its folding branch with
a zero divisor. -/
def sdivC2 : IRInstruction :=
  { id := 1, opcode := .sdiv, dest := some 22,
    operands := [.value 20, .value 20] }

/-- C2: a single-block function `%22 = sdiv 0, 0; ret %22`. -/
def fC2 : IRFunction :=
  { entry := some 0
    blocks :=
      [ { id := 0,
          instrs := [sdivC2, { id := 2, opcode := .ret, operands := [.value 22] }] } ]
    reverse_post_order := [0] }

/-- C5: the three-block straight-line CFG `0 → 1 → 2` with entry `0`. -/
def gC5 : Dominators.CFG :=
  { n := 3, entry := 0,
    succ := fun b => if b = 0 then [1] else if b = 1 then [2] else [] }

/-- C6: an environment where value `8` is a non-constant address with no
defining instruction (a function argument), value `7` is the load result
(defined by instruction 1), and value `30` is the constant `0`. -/
def envC6 : ValueEnv := fun v =>
  if v = 7 then { def_instr := some 1, ty := .i32 }
  else if v = 30 then { is_constant := true, ty := .i32, int_val := 0 }
  else {}

/-- C6: the dead load of the counterexample. -/
def loadC6 : IRInstruction :=
  { id := 1, opcode := .load, dest := some 7, operands := [.value 8] }

/-- C6: a single-block function `%7 = load %8; ret 0` — the load's result
is unused. -/
def fC6 : IRFunction :=
  { entry := some 0
    blocks :=
      [ { id := 0,
          instrs := [loadC6, { id := 2, opcode := .ret, operands := [.value 30] }] } ]
    reverse_post_order := [0] }

/-- C6: the expected result of ADCE on `fC6`: only the `ret` remains. -/
def fC6_after : IRFunction :=
  { entry := some 0
    blocks :=
      [ { id := 0
          instrs := [{ id := 2, opcode := .ret, operands := [.value 30] }] } ]
    reverse_post_order := [0] }

/-- C7: a callee with an entry block and exactly 80 instructions. -/
def callee80 : IRFunction :=
  { entry := some 0
    blocks :=
      [ { id := 0
          instrs := (List.range 80).map (fun k => { id := k, opcode := .add }) } ] }

/-- C8: the visitor context for `fdiv %5, %5` where value `5` is a
non-constant register — nothing is known about it being nonzero. -/
def ctxC8 : InstCombine.ICCtx :=
  { f := { entry := some 0, blocks := [] }
    env := envDefault
    instr := { id := 1, opcode := .fdiv, dest := some 3,
               operands := [.value 5, .value 5] }
    parent := 0
    next_val := 50 }

/-- C9: the classification — value `7` is a function argument
(non-constant, `def_instr == NULL`). -/
def envC9 : UseDef.KindEnv := fun v => if v = 7 then .nodef else .reg

/-- C9: a state with one allocated operand `0` referencing value `7`,
sitting in `7`'s use list and attached to instruction `1` (a live `add`
in block `0` whose result value, if any, has an empty use list). -/
def sC9 : UseDef.State :=
  { nOps := 1
    ref := fun o => if o = 0 then .value 7 else .unalloc
    nxt := fun _ => none
    use_list_head := fun v => if v = 7 then some 0 else none
    owner := fun o => if o = 0 then some 1 else none
    iOps := fun i => if i = 1 then [0] else []
    opcode := fun i => if i = 1 then .add else .ret
    parent := fun i => if i = 1 then some 0 else none
    blockInstrs := fun b => if b = 0 then [1] else []
    dest := fun _ => none }

/-- The empty use-def state: nothing allocated. -/
def emptyUD : UseDef.State :=
  { nOps := 0
    ref := fun _ => .unalloc
    nxt := fun _ => none
    use_list_head := fun _ => none
    owner := fun _ => none
    iOps := fun _ => []
    opcode := fun _ => .ret
    parent := fun _ => none
    blockInstrs := fun _ => []
    dest := fun _ => none }

/-- C3 witness: values `5` and `6` are registers, the rest constants. -/
def envW : UseDef.KindEnv := fun v => if v = 5 ∨ v = 6 then .reg else .const

/-- C3 witness: add two operands on value `5` to instruction `1`, then
retarget one of them to value `6`. -/
def callsW : List UseDef.Call :=
  [.add_op 1 5, .add_op 1 5, .change_op 0 6]

/-- C4: the environment of the counterexample function: value `1` is the
result of `alloca i32*` (a pointer slot), value `2` the result of
`alloca i32`, value `3` the first load's result (an `i32*`), value `4`
the second load's result. -/
def envC4 : ValueEnv := fun v =>
  if v = 1 then { def_instr := some 1, ty := .ptr (.ptr .i32) }
  else if v = 2 then { def_instr := some 2, ty := .ptr .i32 }
  else if v = 3 then { def_instr := some 4, ty := .ptr .i32 }
  else if v = 4 then { def_instr := some 5, ty := .i32 }
  else {}

/-- C4: the counterexample function —
`%1 = alloca i32*; %2 = alloca i32; store %2, %1; %3 = load %1;
%4 = load %3; ret %4`.  Alloca `%1` is promotable; alloca `%2` is not
(its address is stored as a value), but promoting `%1` rewrites the second
load into `load %2`, after which `%2` satisfies the claim's promotability
definition and yet remains. -/
def fC4 : IRFunction :=
  { entry := some 0
    blocks :=
      [ { id := 0
          instrs :=
            [ { id := 1, opcode := .alloca, dest := some 1 }
            , { id := 2, opcode := .alloca, dest := some 2 }
            , { id := 3, opcode := .store, operands := [.value 2, .value 1] }
            , { id := 4, opcode := .load, dest := some 3, operands := [.value 1] }
            , { id := 5, opcode := .load, dest := some 4, operands := [.value 3] }
            , { id := 6, opcode := .ret, operands := [.value 4] } ] } ]
    reverse_post_order := [0] }

/-- C4: the (single-node) dominator tree of `fC4`. -/
def dtC4 : Mem2Reg.DomTree := .node 0 []

/-- C4 witness: `%1 = alloca i32; store 42, %1; %5 = load %1; ret %5`. -/
def envC4w : ValueEnv := fun v =>
  if v = 1 then { def_instr := some 1, ty := .ptr .i32 }
  else if v = 5 then { def_instr := some 3, ty := .i32 }
  else if v = 9 then { is_constant := true, ty := .i32, int_val := 42 }
  else {}

/-- C4 witness function. -/
def fC4w : IRFunction :=
  { entry := some 0
    blocks :=
      [ { id := 0
          instrs :=
            [ { id := 1, opcode := .alloca, dest := some 1 }
            , { id := 2, opcode := .store, operands := [.value 9, .value 1] }
            , { id := 3, opcode := .load, dest := some 5, operands := [.value 1] }
            , { id := 4, opcode := .ret, operands := [.value 5] } ] } ]
    reverse_post_order := [0] }

/-- C4 amended witness: the result of `run_mem2reg` on `fC4w` — the
alloca, store and load are gone, and the `ret` returns the stored
constant. -/
def fC4w_after : IRFunction :=
  { entry := some 0
    blocks :=
      [ { id := 0
          instrs := [{ id := 4, opcode := .ret, operands := [.value 9] }] } ]
    reverse_post_order := [0] }

/-- C10 witness: an external declaration (no entry block). -/
def fExt : IRFunction := { entry := none, blocks := [] }

/-! ## Predicates used to state the Mem2Reg and ADCE theorems -/

namespace Mem2Reg

/-- An instruction is a load from, or a store to, one of the promoted
addresses `pd`: the address operand of a load is its first operand, the
address operand of a store its second. -/
def UsesPromotedAddr (pd : List Nat) (i : IRInstruction) : Prop :=
  (i.opcode = .load ∧ ∃ v ∈ pd, i.operands.get? 0 = some (.value v)) ∨
  (i.opcode = .store ∧ ∃ v ∈ pd, i.operands.get? 1 = some (.value v))

/-- Every instruction of every block of `f` avoids the promoted
addresses. -/
def FuncClean (pd : List Nat) (f : IRFunction) : Prop :=
  ∀ bb ∈ f.blocks, ∀ i ∈ bb.instrs, ¬ UsesPromotedAddr pd i

/-- The pass-internal invariant: no store has a promoted address as its
*value* (first) operand, and every PHI carrying a `phi_for_alloca`
back-pointer has a result outside the promoted addresses. -/
def M2RInv (pd : List Nat) (f : IRFunction) : Prop :=
  (∀ bb ∈ f.blocks, ∀ i ∈ bb.instrs, i.opcode = .store →
    ∀ v ∈ pd, i.operands.get? 0 ≠ some (.value v)) ∧
  (∀ bb ∈ f.blocks, ∀ i ∈ bb.instrs, i.phi_for_alloca ≠ none →
    ∀ d, i.dest = some d → d ∉ pd)

/-- The version stacks are well formed: one non-empty stack per
promotable alloca, holding no promoted address. -/
def StacksOk (pd : List Nat) (pas : List IRInstruction)
    (stks : List (List Nat)) : Prop :=
  stks.length = pas.length ∧ ∀ l ∈ stks, l ≠ [] ∧ ∀ v ∈ l, v ∉ pd

/-- The destination values of the promoted allocas. -/
def pdests (pas : List IRInstruction) : List Nat :=
  pas.filterMap (fun pa => pa.dest)

/-- How one renaming step may rewrite an instruction: identifier,
destination and `phi_for_alloca` back-pointer are preserved, the opcode
is preserved or poisoned to `unknown`, and no operand slot acquires a
promoted address. -/
def InstrEvolve (pd : List Nat) (i1 i2 : IRInstruction) : Prop :=
  i2.id = i1.id ∧ i2.dest = i1.dest ∧ i2.phi_for_alloca = i1.phi_for_alloca ∧
  (i2.opcode = i1.opcode ∨ i2.opcode = .unknown) ∧
  (∀ k dd, dd ∈ pd → i2.operands.get? k = some (OperandData.value dd) →
    i1.operands.get? k = some (OperandData.value dd))

/-- How the renaming walk may rewrite the function: block identifiers are
unchanged, instruction identifiers form a sublist of the previous ones
(instructions are only rewritten in place or removed), and every
surviving instruction evolves from an instruction of a block with the
same identifier. -/
def FuncEvolve (pd : List Nat) (f1 f2 : IRFunction) : Prop :=
  f2.blocks.map (fun bb => bb.id) = f1.blocks.map (fun bb => bb.id) ∧
  List.Sublist (f2.allInstrs.map (fun i => i.id))
    (f1.allInstrs.map (fun i => i.id)) ∧
  (∀ b2 ∈ f2.blocks, ∀ i2 ∈ b2.instrs, ∃ b1, b1 ∈ f1.blocks ∧ b1.id = b2.id ∧
    ∃ i1, i1 ∈ b1.instrs ∧ InstrEvolve pd i1 i2)

/-- Block `b` of `f` is clean: no instruction of a block with identifier
`b` is a load from or a store to a promoted address. -/
def BlockClean (pd : List Nat) (f : IRFunction) (b : Nat) : Prop :=
  ∀ bb ∈ f.blocks, bb.id = b → ∀ i ∈ bb.instrs, ¬ UsesPromotedAddr pd i

end Mem2Reg

/-! ## Theorems -/

/-- Any walk contains its starting block. -/
theorem Dominators.walks_start_mem {g : Dominators.CFG} {a b : Nat}
    {l : List Nat} (h : Dominators.Walks g a b l) : a ∈ l := by
  cases h with
  | nil => exact List.mem_singleton_self a
  | cons a c b l _ _ => exact List.mem_cons_self a l

/-- C5: after `compute_dominators`, the timestamp test implemented by
`dominates` disagrees with path-based dominance: in the straight-line CFG
`0 → 1 → 2`, block `1` dominates block `2` (every path from the entry
passes through it), yet `dominates` answers `false` — the immediate
dominator chosen by `compute_immediate_dominators` is the strict dominator
with the **highest** post-order id, which is always the entry block, so
the dominator tree degenerates to a star and the interval test fails. -/
theorem dominance_timestamp_query_incorrect :
    Dominators.path_dominates gC5 1 2 ∧
    Dominators.dominates (Dominators.compute_dominators gC5) 1 2 = false ∧
    (Dominators.compute_dominators gC5).idom 2 = some 0 := by
  refine ⟨?_, by decide, by decide⟩
  intro l hw
  cases hw with
  | cons a c b l hedge hrest =>
    have hc : c = 1 := by
      have : c ∈ [1] := by
        simpa [gC5, List.contains_iff_exists_mem_beq] using hedge
      simpa using this
    subst hc
    exact List.mem_cons_of_mem _ (Dominators.walks_start_mem hrest)

/-- C1: in SCCP, a conditional branch whose condition has lattice state
Bottom marks **neither** successor reachable: `visit_instruction` only
handles the Constant case, so on `br %10, bb1, bb2` with `%10` an
argument (Bottom), both successors stay unreachable and the CFG worklist
is unchanged — contradicting the claim (and the classic algorithm the
file documents) that both successors are marked. -/
theorem sccp_bottom_condition_marks_no_successor :
    (SCCP.get_lattice_value envDefault (SCCP.initialize_sccp fC1 0)
      (some 10)).state = SCCP.LatticeState.bottom ∧
    brC1.opcode = .br ∧ brC1.operands.length > 1 ∧
    (SCCP.initialize_sccp fC1 0).executable_blocks 0 = true ∧
    (SCCP.visit_instruction fC1 envDefault (SCCP.initialize_sccp fC1 0)
      brC1 0).executable_blocks 1 = false ∧
    (SCCP.visit_instruction fC1 envDefault (SCCP.initialize_sccp fC1 0)
      brC1 0).executable_blocks 2 = false ∧
    (SCCP.visit_instruction fC1 envDefault (SCCP.initialize_sccp fC1 0)
      brC1 0).cfg_worklist = [0] := by
  decide

/-- C2 counterexample: SCCP does **not** leave every `sdiv` with a
constant-zero divisor unfolded.  On `%22 = sdiv 0, 0` (both operands the
same constant-zero value, so the operand lattice values merge without
hitting Bottom), the evaluator folds via `(v2 != 0) ? v1 / v2 : 0` to the
Constant `0`, and the transform creates a fresh constant `0` and replaces
every use of `%22` with it. -/
theorem sccp_folds_sdiv_by_zero_constant :
    (envC2 20).is_constant = true ∧ (envC2 20).int_val = 0 ∧
    sdivC2.opcode = .sdiv ∧ sdivC2.operands.get? 1 = some (.value 20) ∧
    (SCCP.run_sccp_analysis fC2 envC2 1000
      (SCCP.initialize_sccp fC2 0)).value_lattice 22 =
      { state := .constant, int_val := 0, ty := some .i32 } ∧
    (SCCP.transform_based_on_sccp
      (SCCP.run_sccp_analysis fC2 envC2 1000 (SCCP.initialize_sccp fC2 0))
      { f := fC2, env := envC2, next_val := 100, next_instr := 100 }).env 100 =
      { is_constant := true, ty := .i32, int_val := 0 } ∧
    ((SCCP.transform_based_on_sccp
      (SCCP.run_sccp_analysis fC2 envC2 1000 (SCCP.initialize_sccp fC2 0))
      { f := fC2, env := envC2, next_val := 100, next_instr := 100 }).f.allInstrs.any
        (fun i => i.opcode = .ret ∧ i.operands = [.value 100])) = true := by
  decide

/-- C6 counterexample: ADCE does **not** keep every load: a load is not a
critical instruction, so the dead load `%7 = load %8` of `fC6` is swept
by `run_adce`. -/
theorem adce_removes_dead_load :
    ADCE.is_critical_instruction loadC6 = false ∧
    loadC6 ∈ fC6.allInstrs ∧
    ADCE.run_adce envC6 (some fC6) =
      (true, some
        { entry := some 0
          blocks :=
            [ { id := 0
                instrs := [{ id := 2, opcode := .ret, operands := [.value 30] }] } ]
          reverse_post_order := [0] }) := by
  decide

/-- C7 counterexample: the inliner's size test is
`count_instructions(callee) <= 80`, so a callee with **exactly** 80
instructions passes `should_inline_function` — contradicting the claim
that such a callee is never inlined. -/
theorem inliner_accepts_callee_at_threshold :
    Inliner.count_instructions callee80 = 80 ∧
    callee80.entry ≠ none ∧
    Inliner.should_inline_function [] callee80 = true := by
  decide

/-- C8: `visit_fdiv` rewrites `fdiv %5, %5` to the constant `1.0` even
though `%5` is not a constant and nothing is known about it being
nonzero: the `lhs == rhs` branch performs no nonzero check (the source's
own comment `x / x -> 1.0, if x != 0` documents the intended side
condition that the code omits). -/
theorem fdiv_self_folded_without_nonzero_check :
    (envDefault 5).is_constant = false ∧
    ctxC8.instr.operands = [.value 5, .value 5] ∧
    ∃ env' nv, InstCombine.visit_fdiv ctxC8 = .replaced env' nv 50 ∧
      (env' 50).is_constant = true ∧ (env' 50).float_val = 1 ∧
      (env' 50).ty = .f32 := by
  exact ⟨rfl, rfl, _, _, rfl, rfl, rfl, rfl⟩

/-- C9: `erase_instruction` does **not** remove every operand of the
erased instruction from the referenced values' use lists: operand `0`
references value `7`, a non-constant value with no defining instruction
(a function argument), and after erasing its instruction the operand is
detached and the opcode poisoned, yet `7`'s use list still holds the
operand — `remove_operand_from_use_list` returns early when
`def_instr == NULL`, although `add_operand` inserts such operands. -/
theorem erase_instruction_leaves_argument_use :
    envC9 7 = .nodef ∧
    sC9.use_list_head 7 = some 0 ∧
    (UseDef.erase_instruction envC9 sC9 1).opcode 1 = .unknown ∧
    (UseDef.erase_instruction envC9 sC9 1).parent 1 = none ∧
    (UseDef.erase_instruction envC9 sC9 1).blockInstrs 0 = [] ∧
    (UseDef.erase_instruction envC9 sC9 1).owner 0 = none ∧
    (UseDef.erase_instruction envC9 sC9 1).ref 0 = .value 7 ∧
    (UseDef.erase_instruction envC9 sC9 1).use_list_head 7 = some 0 := by
  decide

/-- C4 counterexample: after `run_mem2reg` on `fC4`, an alloca satisfying
the claim's promotability definition remains: promoting `%1` rewrites
`%4 = load %3` into `%4 = load %2`, after which the un-promoted alloca
`%2` is an entry-block scalar alloca whose every use is a load — yet it
survives the pass.  (The pass itself only promoted `%1`.) -/
theorem mem2reg_promotable_alloca_remains :
    (Mem2Reg.analyze_allocas fC4 envC4 0).map (fun i => i.id) = [1] ∧
    ((Mem2Reg.run_mem2reg dtC4 envC4 50 50 (some fC4)).2.elim false
      (fun g => g.allInstrs.any
        (fun a => Mem2Reg.specPromotableAlloca g envC4 a))) = true := by
  decide

/-- C10: each of the four pass entry points rejects a NULL function and a
function without an entry block (an external declaration), returning
`false` and leaving the IR unchanged. -/
theorem pass_guards_reject_null_and_external :
    (∀ env nv ni, SCCP.run_sccp env nv ni none = (false, none)) ∧
    (∀ env, ADCE.run_adce env none = (false, none)) ∧
    (∀ env nv, InstCombine.run_inst_combine env nv none = (false, none)) ∧
    (∀ dt env nv ni, Mem2Reg.run_mem2reg dt env nv ni none = (false, none)) ∧
    (∀ env nv ni f, f.entry = none →
      SCCP.run_sccp env nv ni (some f) = (false, some f)) ∧
    (∀ env f, f.entry = none → ADCE.run_adce env (some f) = (false, some f)) ∧
    (∀ env nv f, f.entry = none →
      InstCombine.run_inst_combine env nv (some f) = (false, some f)) ∧
    (∀ dt env nv ni f, f.entry = none →
      Mem2Reg.run_mem2reg dt env nv ni (some f) = (false, some f)) := by
  refine ⟨fun _ _ _ => rfl, fun _ => rfl, fun _ _ => rfl, fun _ _ _ _ => rfl,
    ?_, ?_, ?_, ?_⟩
  · intro env nv ni f h
    simp [SCCP.run_sccp, h]
  · intro env f h
    simp [ADCE.run_adce, h]
  · intro env nv f h
    simp [InstCombine.run_inst_combine, h]
  · intro dt env nv ni f h
    simp [Mem2Reg.run_mem2reg, h]

/-- C10 witness: the guards evaluated at an external declaration. -/
theorem pass_guards_reject_null_and_external_witness :
    fExt.entry = none ∧
    SCCP.run_sccp envDefault 0 0 (some fExt) = (false, some fExt) ∧
    ADCE.run_adce envDefault (some fExt) = (false, some fExt) ∧
    InstCombine.run_inst_combine envDefault 0 (some fExt) = (false, some fExt) ∧
    Mem2Reg.run_mem2reg (.node 0 []) envDefault 0 0 (some fExt) =
      (false, some fExt) :=
  ⟨rfl,
   pass_guards_reject_null_and_external.2.2.2.2.1 envDefault 0 0 fExt rfl,
   pass_guards_reject_null_and_external.2.2.2.2.2.1 envDefault fExt rfl,
   pass_guards_reject_null_and_external.2.2.2.2.2.2.1 envDefault 0 fExt rfl,
   pass_guards_reject_null_and_external.2.2.2.2.2.2.2 (.node 0 []) envDefault 0 0
     fExt rfl⟩

/-- C7 amended: `should_inline_function` accepts a callee exactly when it
has a body, is not on the inliner's call stack, and has **at most**
`INLINE_THRESHOLD = 80` instructions (so a callee with exactly 80
instructions is eligible; only 81 or more is rejected). -/
theorem should_inline_iff (call_stack : List IRFunction) (callee : IRFunction) :
    Inliner.should_inline_function call_stack callee = true ↔
      (callee.entry ≠ none ∧ callee ∉ call_stack ∧
        Inliner.count_instructions callee ≤ Inliner.INLINE_THRESHOLD) := by
  unfold Inliner.should_inline_function
  by_cases h1 : callee.entry = none
  · simp [h1]
  · by_cases h2 : callee ∈ call_stack
    · have hc : call_stack.contains callee = true := List.elem_iff.mpr h2
      simp [h1, hc, h2]
    · have hc : call_stack.contains callee = false := by
        rw [Bool.eq_false_iff]
        intro hcon
        exact h2 (List.elem_iff.mp hcon)
      simp [h1, hc, h2, decide_eq_true_iff]

/-- C7 amended witness: the 80-instruction callee is accepted. -/
theorem should_inline_iff_witness :
    Inliner.should_inline_function [] callee80 = true :=
  (should_inline_iff [] callee80).mpr ⟨by decide, by decide, by decide⟩

/-- C2 amended: InstCombine never folds an `sdiv`/`srem` whose second
operand is the integer constant 0 (`visit_sdiv`/`visit_srem` return
without folding or modifying); SCCP, however, folds an `sdiv`/`srem` whose
two operands are the same constant-zero value to the Constant `0`
(evaluating `(v2 != 0) ? v1 op v2 : 0`), and its transform then replaces
the instruction's result by a constant — so division by zero **is**
resolved by SCCP, though never by InstCombine. -/
theorem div_by_zero_folding_amended :
    (∀ (f : IRFunction) (env : ValueEnv) (instr : IRInstruction)
       (parent nv l r : Nat),
      instr.operands = [.value l, .value r] →
      (env r).is_constant = true → (env r).int_val = 0 →
      InstCombine.visit_sdiv
        { f := f, env := env, instr := instr, parent := parent, next_val := nv } =
        .unchanged ∧
      InstCombine.visit_srem
        { f := f, env := env, instr := instr, parent := parent, next_val := nv } =
        .unchanged) ∧
    (∀ (env : ValueEnv) (s : SCCP.SCCPState) (instr : IRInstruction) (z d : Nat),
      (instr.opcode = .sdiv ∨ instr.opcode = .srem) →
      instr.operands = [.value z, .value z] → instr.dest = some d →
      (env z).is_constant = true → (env z).int_val = 0 → (env z).ty = .i32 →
      SCCP.evaluate_instruction env s instr =
        { state := .constant, int_val := 0, ty := some ((env d).ty) }) := by
  constructor
  · intro f env instr parent nv l r hops hc hz
    constructor
    · unfold InstCombine.visit_sdiv InstCombine.ICCtx.ops2
      simp [hops, SCCP.operandValue, hc, hz]
    · unfold InstCombine.visit_srem InstCombine.ICCtx.ops2
      simp [hops, SCCP.operandValue, hc, hz]
  · intro env s instr z d hop hops hdest hc hz hty
    have hlat : SCCP.get_lattice_value env s (some z) =
        { state := .constant, int_val := 0, ty := some .i32 } := by
      simp [SCCP.get_lattice_value, hc, hty, hz]
    rcases hop with h | h <;>
      simp [SCCP.evaluate_instruction, h, hops, hdest, SCCP.operandValue, hlat,
        SCCP.merge_lattice_values, SCCP.are_lattice_values_equal]

/-- C2 amended witness: the InstCombine guards and the SCCP fold at the
concrete `sdiv 0, 0` input. -/
theorem div_by_zero_folding_amended_witness :
    InstCombine.visit_sdiv
      { f := fC2, env := envC2, instr := sdivC2, parent := 0, next_val := 0 } =
      .unchanged ∧
    SCCP.evaluate_instruction envC2 (SCCP.initialize_sccp fC2 0) sdivC2 =
      { state := .constant, int_val := 0, ty := some ((envC2 22).ty) } :=
  ⟨(div_by_zero_folding_amended.1 fC2 envC2 sdivC2 0 0 20 20 rfl rfl rfl).1,
   div_by_zero_folding_amended.2 envC2 (SCCP.initialize_sccp fC2 0) sdivC2 20 22
     (Or.inl rfl) rfl rfl rfl rfl rfl⟩

/-- Fold invariant helper: a property preserved by every step of a left
fold over the list holds of the result. -/
theorem foldl_invariant {α β : Type} {P : β → Prop} (step : β → α → β)
    (l : List α) (b0 : β) (h0 : P b0)
    (hstep : ∀ b a, a ∈ l → P b → P (step b a)) : P (l.foldl step b0) := by
  induction l generalizing b0 with
  | nil => exact h0
  | cons x xs ih =>
    exact ih (step b0 x) (hstep b0 x (List.mem_cons_self x xs) h0)
      (fun b a ha hb => hstep b a (List.mem_cons_of_mem x ha) hb)

/-- Both components of a PHI operand pair are operands of the list. -/
theorem phiPairs_mem {l : List OperandData} {pr : OperandData × OperandData}
    (h : pr ∈ phiPairs l) : pr.1 ∈ l ∧ pr.2 ∈ l := by
  induction l using phiPairs.induct with
  | case1 x y rest ih =>
    rw [phiPairs] at h
    rcases List.mem_cons.mp h with h1 | h1
    · subst h1
      exact ⟨List.mem_cons_self _ _, List.mem_cons_of_mem _ (List.mem_cons_self _ _)⟩
    · have := ih h1
      exact ⟨List.mem_cons_of_mem _ (List.mem_cons_of_mem _ this.1),
             List.mem_cons_of_mem _ (List.mem_cons_of_mem _ this.2)⟩
  | case2 l hne =>
    rw [phiPairs] at h
    · simp at h
    · exact hne

/-- `find_instr` returns an instruction of the function with the looked-up
identifier. -/
theorem find_instr_spec {f : IRFunction} {i : Nat} {ins : IRInstruction}
    {p : Nat} (h : f.find_instr i = some (ins, p)) :
    ins ∈ f.allInstrs ∧ ins.id = i := by
  unfold IRFunction.find_instr at h
  have hmem := List.mem_of_find?_eq_some h
  have hpred := List.find?_some h
  constructor
  · simp only [List.mem_flatMap, List.mem_map] at hmem
    rcases hmem with ⟨bb, hbb, ⟨ins2, hins2, heq⟩⟩
    cases heq
    exact List.mem_flatMap.mpr ⟨bb, hbb, hins2⟩
  · simpa using hpred

/-- `findBlock` returns a block of the function with the looked-up
identifier. -/
theorem findBlock_spec {f : IRFunction} {b : Nat} {bb : IRBasicBlock}
    (h : f.findBlock b = some bb) : bb ∈ f.blocks ∧ bb.id = b := by
  unfold IRFunction.findBlock at h
  exact ⟨List.mem_of_find?_eq_some h, by simpa using List.find?_some h⟩


/-- C6 amended: ADCE does **not** treat loads as having side effects:
`is_critical_instruction` holds exactly for `call`, `store`, `ret` and
`br`; consequently a load whose result value is referenced by no operand
of the function (its result is unused) is never marked live and is swept
by `run_adce`.  (Hypotheses: the function has an entry block, instruction
identifiers are unambiguous for the load, every block ends in a
terminator, and no operand value is defined by the load.) -/
theorem adce_load_liveness_amended :
    (∀ instr : IRInstruction,
      ADCE.is_critical_instruction instr = true ↔
        (instr.opcode = .call ∨ instr.opcode = .store ∨
         instr.opcode = .ret ∨ instr.opcode = .br)) ∧
    (∀ (env : ValueEnv) (f : IRFunction) (e : Nat) (ld : IRInstruction),
      f.entry = some e → ld.opcode = .load →
      (∀ i ∈ f.allInstrs, i.id = ld.id → i = ld) →
      (∀ bb ∈ f.blocks, ∀ t, bb.instrs.getLast? = some t →
        t.opcode = .ret ∨ t.opcode = .br) →
      (∀ i ∈ f.allInstrs, ∀ od ∈ i.operands,
        operandRefsDef env ld.id od = false) →
      ∀ f', (ADCE.run_adce env (some f)).2 = some f' →
        ∀ bb ∈ f'.blocks, ∀ i ∈ bb.instrs, i.id ≠ ld.id) := by
  constructor
  · intro instr
    unfold ADCE.is_critical_instruction
    cases h : instr.opcode <;> simp
  · intro env f e ld hentry hload huniq htails hnouse f' hrun bb hbb i hi
    have hmark : ∀ (st : ADCE.AdceState) (j : IRInstruction) (p : Nat),
        (st.live ld.id = false ∧ ∀ pr ∈ st.wl, pr.1 ∈ f.allInstrs) →
        j ∈ f.allInstrs → j.id ≠ ld.id →
        ((ADCE.mark_instruction_live st j p).live ld.id = false ∧
         ∀ pr ∈ (ADCE.mark_instruction_live st j p).wl, pr.1 ∈ f.allInstrs) := by
      intro st j p hQ hj hne
      unfold ADCE.mark_instruction_live
      split
      · exact hQ
      · refine ⟨?_, ?_⟩
        · simp only [setAt]
          rw [if_neg (fun h => hne h.symm)]
          exact hQ.1
        · intro pr hpr
          rcases List.mem_cons.mp hpr with h | h
          · subst h
            exact hj
          · exact hQ.2 pr h
    have hmarkF : ∀ (st : ADCE.AdceState) (j : IRInstruction) (p : Nat),
        (st.live ld.id = false ∧ ∀ pr ∈ st.wl, pr.1 ∈ f.allInstrs) →
        j ∈ f.allInstrs → j.id ≠ ld.id →
        (fun st2 : ADCE.AdceState =>
          st2.live ld.id = false ∧ ∀ pr ∈ st2.wl, pr.1 ∈ f.allInstrs)
          (ADCE.mark_instruction_live st j p) := hmark
    have hdata : ∀ (st : ADCE.AdceState) (j : IRInstruction),
        (st.live ld.id = false ∧ ∀ pr ∈ st.wl, pr.1 ∈ f.allInstrs) →
        j ∈ f.allInstrs →
        ((ADCE.propagate_data_flow_liveness f env st j).live ld.id = false ∧
         ∀ pr ∈ (ADCE.propagate_data_flow_liveness f env st j).wl,
           pr.1 ∈ f.allInstrs) := by
      intro st j hQ hj
      unfold ADCE.propagate_data_flow_liveness
      split
      · refine foldl_invariant
          (P := fun st2 : ADCE.AdceState =>
            st2.live ld.id = false ∧ ∀ pr ∈ st2.wl, pr.1 ∈ f.allInstrs)
          _ _ _ hQ ?_
        intro st2 pr hpr hQ2
        rcases phiPairs_mem hpr with ⟨hpr1, _⟩
        cases hpr2 : pr.2 with
        | value _ => simpa [hpr2] using hQ2
        | block pred_bb =>
          simp only [hpr2]
          split
          · cases hpr1v : pr.1 with
            | block _ => simpa [hpr1v] using hQ2
            | value v =>
              simp only [hpr1v]
              split
              · cases hdef : (env v).def_instr with
                | none => simpa [hdef] using hQ2
                | some di =>
                  simp only [hdef]
                  cases hfind : f.find_instr di with
                  | none => simpa [hfind] using hQ2
                  | some pr2 =>
                    obtain ⟨dinstr, dparent⟩ := pr2
                    simp only [hfind]
                    refine hmark st2 dinstr dparent hQ2 (find_instr_spec hfind).1 ?_
                    intro hid
                    have hdi : di = ld.id := by
                      have := (find_instr_spec hfind).2
                      omega
                    have hod := hnouse j hj (OperandData.value v) (hpr1v ▸ hpr1)
                    simp only [operandRefsDef, beq_eq_false_iff_ne, ne_eq] at hod
                    exact hod (hdi ▸ hdef)
              · exact hQ2
          · exact hQ2
      · refine foldl_invariant
          (P := fun st2 : ADCE.AdceState =>
            st2.live ld.id = false ∧ ∀ pr ∈ st2.wl, pr.1 ∈ f.allInstrs)
          _ _ _ hQ ?_
        intro st2 od hod hQ2
        cases hodv : od with
        | block _ => simpa using hQ2
        | value v =>
          simp only []
          split
          · cases hdef : (env v).def_instr with
            | none => simpa [hdef] using hQ2
            | some di =>
              simp only [hdef]
              cases hfind : f.find_instr di with
              | none => simpa [hfind] using hQ2
              | some pr2 =>
                obtain ⟨dinstr, dparent⟩ := pr2
                simp only [hfind]
                refine hmark st2 dinstr dparent hQ2 (find_instr_spec hfind).1 ?_
                intro hid
                have hdi : di = ld.id := by
                  have := (find_instr_spec hfind).2
                  omega
                have hodr := hnouse j hj (OperandData.value v) (hodv ▸ hod)
                simp only [operandRefsDef, beq_eq_false_iff_ne, ne_eq] at hodr
                exact hodr (hdi ▸ hdef)
          · exact hQ2
    have hcf : ∀ (st : ADCE.AdceState) (p : Nat),
        (st.live ld.id = false ∧ ∀ pr ∈ st.wl, pr.1 ∈ f.allInstrs) →
        ((ADCE.propagate_control_flow_liveness f st p).live ld.id = false ∧
         ∀ pr ∈ (ADCE.propagate_control_flow_liveness f st p).wl,
           pr.1 ∈ f.allInstrs) := by
      intro st p hQ
      unfold ADCE.propagate_control_flow_liveness
      split
      · exact hQ
      · cases hfb : f.findBlock p with
        | none => simpa [hfb] using hQ
        | some blk =>
          simp only [hfb]
          refine foldl_invariant
            (P := fun st2 : ADCE.AdceState =>
              st2.live ld.id = false ∧ ∀ pr ∈ st2.wl, pr.1 ∈ f.allInstrs)
            _ _ _ hQ ?_
          intro st2 q hq hQ2
          cases hfb2 : f.findBlock q with
          | none => simpa [hfb2] using hQ2
          | some pred_bb =>
            simp only [hfb2]
            cases htl : pred_bb.tail with
            | none => simpa [htl] using hQ2
            | some t =>
              simp only [htl]
              have hpmem : pred_bb ∈ f.blocks := (findBlock_spec hfb2).1
              have htmem : t ∈ f.allInstrs := by
                unfold IRBasicBlock.tail at htl
                exact List.mem_flatMap.mpr
                  ⟨pred_bb, hpmem, List.mem_of_getLast?_eq_some htl⟩
              refine hmark st2 t q hQ2 htmem ?_
              intro hid
              have ht : t = ld := huniq t htmem hid
              have hterm := htails pred_bb hpmem t htl
              rw [ht, hload] at hterm
              rcases hterm with h | h <;> exact Opcode.noConfusion h
    have hloop : ∀ (fuel : Nat) (st : ADCE.AdceState),
        (st.live ld.id = false ∧ ∀ pr ∈ st.wl, pr.1 ∈ f.allInstrs) →
        (ADCE.adceLoop f env fuel st).live ld.id = false := by
      intro fuel
      induction fuel with
      | zero => exact fun st hQ => hQ.1
      | succ n ih =>
        intro st hQ
        unfold ADCE.adceLoop
        cases hwl : st.wl with
        | nil => exact hQ.1
        | cons pr rest =>
          obtain ⟨instr, parent⟩ := pr
          have hmem : instr ∈ f.allInstrs := by
            refine hQ.2 (instr, parent) ?_
            rw [hwl]
            exact List.mem_cons_self _ _
          have hQ1 : (({ st with wl := rest } : ADCE.AdceState).live ld.id = false ∧
              ∀ pr2 ∈ ({ st with wl := rest } : ADCE.AdceState).wl,
                pr2.1 ∈ f.allInstrs) := by
            refine ⟨hQ.1, fun pr2 hpr2 => hQ.2 pr2 ?_⟩
            rw [hwl]
            exact List.mem_cons_of_mem _ hpr2
          exact ih _ (hcf _ parent (hdata _ instr hQ1 hmem))
    have hlive : (ADCE.adceMark f env).live ld.id = false := by
      unfold ADCE.adceMark
      refine hloop _ _ ?_
      refine foldl_invariant
        (P := fun st2 : ADCE.AdceState =>
          st2.live ld.id = false ∧ ∀ pr ∈ st2.wl, pr.1 ∈ f.allInstrs)
        _ _ _ ⟨rfl, by simp⟩ ?_
      intro st blk hblk hQ
      refine foldl_invariant
        (P := fun st2 : ADCE.AdceState =>
          st2.live ld.id = false ∧ ∀ pr ∈ st2.wl, pr.1 ∈ f.allInstrs)
        _ _ _ hQ ?_
      intro st2 instr hinstr hQ2
      split
      · rename_i hcrit
        have hmem : instr ∈ f.allInstrs := List.mem_flatMap.mpr ⟨blk, hblk, hinstr⟩
        refine hmark st2 instr blk.id hQ2 hmem ?_
        intro hid
        have hild : instr = ld := huniq instr hmem hid
        rw [hild] at hcrit
        unfold ADCE.is_critical_instruction at hcrit
        rw [hload] at hcrit
        exact Bool.noConfusion hcrit
      · exact hQ2
    have hf' : f' = { f with blocks := f.blocks.map (fun bb2 => { bb2 with instrs := bb2.instrs.filter (fun i2 => (ADCE.adceMark f env).live i2.id) }) } := by
      unfold ADCE.run_adce at hrun
      simp only [hentry, Option.some.injEq] at hrun
      rw [hentry]
      exact hrun.symm
    intro hid
    rw [hf'] at hbb
    simp only [List.mem_map] at hbb
    rcases hbb with ⟨bb0, hbb0, hbbeq⟩
    rw [← hbbeq] at hi
    simp only [List.mem_filter] at hi
    have hlv := hi.2
    rw [hid, hlive] at hlv
    exact Bool.noConfusion hlv

/-- C6 amended witness: the dead load of `fC6` is removed by `run_adce`. -/
theorem adce_load_liveness_amended_witness :
    ∀ bb ∈ fC6_after.blocks, ∀ i ∈ bb.instrs, i.id ≠ loadC6.id :=
  adce_load_liveness_amended.2 envC6 fC6 0 loadC6 rfl rfl
    (by decide) (by decide) (by decide) fC6_after (by decide)

namespace UseDef

/-- A complete chain readout is unique. -/
lemma isChain_unique {nxt : Nat → Option Nat} {c : Option Nat}
    {l1 l2 : List Nat} (h1 : IsChain nxt c l1) (h2 : IsChain nxt c l2) :
    l1 = l2 := by
  induction h1 generalizing l2 with
  | nil => cases h2; rfl
  | cons o l h ih =>
    cases h2 with
    | cons _ l2t h2t => rw [ih h2t]

/-- Chains read `next_use` only at their members. -/
lemma isChain_congr {nxt nxt2 : Nat → Option Nat} {c : Option Nat}
    {l : List Nat} (h : IsChain nxt c l) (hag : ∀ x ∈ l, nxt2 x = nxt x) :
    IsChain nxt2 c l := by
  induction h with
  | nil => exact .nil
  | cons o l h ih =>
    refine .cons o l ?_
    rw [hag o (List.mem_cons_self o l)]
    exact ih (fun x hx => hag x (List.mem_cons_of_mem o hx))

/-- `chainFrom` reads off a complete chain when given enough fuel. -/
lemma chainFrom_isChain {nxt : Nat → Option Nat} {c : Option Nat}
    {l : List Nat} (h : IsChain nxt c l) :
    ∀ fuel, l.length ≤ fuel → chainFrom nxt fuel c = l := by
  induction h with
  | nil => intro fuel _; cases fuel <;> rfl
  | cons o l h ih =>
    intro fuel hf
    cases fuel with
    | zero => simp at hf
    | succ f =>
      simp only [chainFrom]
      rw [ih f (by simpa using hf)]

/-- A duplicate-free list of naturals all below `n` has length at most
`n`. -/
lemma nodup_lt_length_le {l : List Nat} {n : Nat} (hnd : l.Nodup)
    (hlt : ∀ x ∈ l, x < n) : l.length ≤ n := by
  have hsub : l ⊆ List.range n := fun x hx => List.mem_range.mpr (hlt x hx)
  simpa using (hnd.subperm hsub).length_le

/-- The splice loop of `remove_operand_from_use_list`: on a complete
duplicate-free chain it produces the chain with `o` erased, and it
modifies `next_use` only at the chain's members. -/
lemma removeFirst_spec (o : Nat) {nxt : Nat → Option Nat} {c : Option Nat}
    {l : List Nat} (h : IsChain nxt c l) :
    ∀ fuel, l.Nodup → l.length ≤ fuel →
      IsChain (removeFirst o fuel nxt c).2 (removeFirst o fuel nxt c).1
        (l.erase o) ∧
      (∀ x, x ∉ l → (removeFirst o fuel nxt c).2 x = nxt x) := by
  induction h with
  | nil =>
    intro fuel _ _
    cases fuel with
    | zero => exact ⟨IsChain.nil, fun x _ => rfl⟩
    | succ f => exact ⟨IsChain.nil, fun x _ => rfl⟩
  | cons p l h ih =>
    intro fuel hnd hf
    cases fuel with
    | zero => simp at hf
    | succ f =>
      have hpl : p ∉ l := (List.nodup_cons.mp hnd).1
      have hndl : l.Nodup := (List.nodup_cons.mp hnd).2
      by_cases hpo : p = o
      · subst hpo
        simp only [removeFirst, if_pos rfl]
        rw [List.erase_cons_head]
        refine ⟨?_, ?_⟩
        · refine isChain_congr h ?_
          intro x hx
          have : x ≠ p := fun he => hpl (he ▸ hx)
          simp [setAt, this]
        · intro x hx
          have : x ≠ p := fun he => hx (he ▸ List.mem_cons_self p l)
          simp [setAt, this]
      · simp only [removeFirst, if_neg hpo]
        have hrec := ih f hndl (by simpa using hf)
        rw [List.erase_cons_tail]
        · refine ⟨?_, ?_⟩
          · refine IsChain.cons p (l.erase o) ?_
            have hp : setAt (removeFirst o f nxt (nxt p)).2 p
                (removeFirst o f nxt (nxt p)).1 p =
                (removeFirst o f nxt (nxt p)).1 := by simp [setAt]
            rw [hp]
            refine isChain_congr hrec.1 ?_
            intro x hx
            have hxl : x ∈ l := List.mem_of_mem_erase hx
            have : x ≠ p := fun he => hpl (he ▸ hxl)
            simp [setAt, this]
          · intro x hx
            have hx1 : x ≠ p := fun he => hx (he ▸ List.mem_cons_self p l)
            have hx2 : x ∉ l := fun hc => hx (List.mem_cons_of_mem p hc)
            simp only [setAt, if_neg hx1]
            exact hrec.2 x hx2
        · simpa using hpo

end UseDef

namespace UseDef

/-- `WF` depends only on the five use-def fields of the state. -/
lemma WF_congr {env : KindEnv} {s t : State}
    (h1 : t.nOps = s.nOps) (h2 : t.ref = s.ref) (h3 : t.nxt = s.nxt)
    (h4 : t.use_list_head = s.use_list_head) (h5 : t.owner = s.owner)
    (hwf : WF env s) : WF env t := by
  unfold WF RegChainOk at hwf ⊢
  rw [h1, h2, h3, h4, h5]
  exact hwf

/-- Detaching an operand that no register use list contains preserves the
invariant. -/
lemma wf_detach_unused {env : KindEnv} {s : State} {o : Nat} (hwf : WF env s)
    (hno : ∀ v, env v = .reg → s.ref o ≠ .value v) :
    WF env { s with owner := setAt s.owner o none } := by
  refine ⟨?_, ?_⟩
  · intro v hv
    obtain ⟨l, hc, hnd, hmem, hcom⟩ := hwf.1 v hv
    have hol : o ∉ l := fun hin => hno v hv (hmem o hin).2.1
    refine ⟨l, hc, hnd, ?_, ?_⟩
    · intro o2 ho2
      have hne : o2 ≠ o := fun he => hol (he ▸ ho2)
      refine ⟨(hmem o2 ho2).1, (hmem o2 ho2).2.1, ?_⟩
      show setAt s.owner o none o2 ≠ none
      simp only [setAt, if_neg hne]
      exact (hmem o2 ho2).2.2
    · intro o2 h1 h2 h3
      have hne : o2 ≠ o := by
        intro he
        subst he
        simp [setAt] at h3
      refine hcom o2 h1 h2 ?_
      simpa [setAt, hne] using h3
  · intro x hx
    refine ⟨(hwf.2 x hx).1, ?_, (hwf.2 x hx).2.2⟩
    show setAt s.owner o none x = none
    by_cases hxo : x = o
    · simp [setAt, hxo]
    · simp only [setAt, if_neg hxo]
      exact (hwf.2 x hx).2.1

/-- `remove_operand_from_use_list` changes only `next_use` and
`use_list_head`, and the resulting state — with the spliced operand
additionally detached — satisfies the invariant. -/
lemma rofule_wf {env : KindEnv} {s : State} (o : Nat) (hwf : WF env s) :
    ∃ nx hd, remove_operand_from_use_list env s o =
        { s with nxt := nx, use_list_head := hd } ∧
      WF env { s with nxt := nx, use_list_head := hd, owner := setAt s.owner o none } := by
  cases href : s.ref o with
  | block b =>
    simp only [remove_operand_from_use_list, href]
    refine ⟨s.nxt, s.use_list_head, rfl, ?_⟩
    refine wf_detach_unused hwf ?_
    intro v _
    rw [href]
    intro h
    exact ORef.noConfusion h
  | unalloc =>
    simp only [remove_operand_from_use_list, href]
    refine ⟨s.nxt, s.use_list_head, rfl, ?_⟩
    refine wf_detach_unused hwf ?_
    intro v _
    rw [href]
    intro h
    exact ORef.noConfusion h
  | value v0 =>
    simp only [remove_operand_from_use_list, href]
    by_cases hcn : env v0 = .const ∨ env v0 = .nodef
    · rw [if_pos hcn]
      refine ⟨s.nxt, s.use_list_head, rfl, ?_⟩
      refine wf_detach_unused hwf ?_
      intro v hv
      rw [href]
      intro he
      injection he with hvv
      subst hvv
      rcases hcn with h | h <;> rw [hv] at h <;> exact VKind.noConfusion h
    · rw [if_neg hcn]
      have hreg : env v0 = .reg := by
        cases h : env v0 with
        | const => exact absurd (Or.inl h) hcn
        | nodef => exact absurd (Or.inr h) hcn
        | reg => rfl
      obtain ⟨l0, hc0, hnd0, hmem0, hcom0⟩ := hwf.1 v0 hreg
      have hlen0 : l0.length ≤ s.nOps :=
        nodup_lt_length_le hnd0 (fun x hx => (hmem0 x hx).1)
      have hrf := removeFirst_spec o hc0 s.nOps hnd0 hlen0
      refine ⟨(removeFirst o s.nOps s.nxt (s.use_list_head v0)).2,
        setAt s.use_list_head v0
          (removeFirst o s.nOps s.nxt (s.use_list_head v0)).1, rfl, ?_⟩
      set rr := removeFirst o s.nOps s.nxt (s.use_list_head v0) with hrr
      refine ⟨?_, ?_⟩
      · intro v hv
        by_cases hvv : v = v0
        · subst hvv
          refine ⟨l0.erase o, ?_, hnd0.erase o, ?_, ?_⟩
          · show IsChain rr.2 (setAt s.use_list_head v rr.1 v) (l0.erase o)
            have hh : setAt s.use_list_head v rr.1 v = rr.1 := by
              simp [setAt]
            rw [hh]
            exact hrf.1
          · intro o2 ho2
            have ho2l : o2 ∈ l0 := List.mem_of_mem_erase ho2
            have hne : o2 ≠ o := (hnd0.mem_erase_iff.mp ho2).1
            refine ⟨(hmem0 o2 ho2l).1, (hmem0 o2 ho2l).2.1, ?_⟩
            show setAt s.owner o none o2 ≠ none
            simp only [setAt, if_neg hne]
            exact (hmem0 o2 ho2l).2.2
          · intro o2 h1 h2 h3
            have hne : o2 ≠ o := by
              intro he
              subst he
              simp [setAt] at h3
            have h3s : s.owner o2 ≠ none := by simpa [setAt, hne] using h3
            exact hnd0.mem_erase_iff.mpr ⟨hne, hcom0 o2 h1 h2 h3s⟩
        · obtain ⟨l, hc, hnd, hmem, hcom⟩ := hwf.1 v hv
          have hdisj : ∀ x ∈ l, x ∉ l0 := by
            intro x hx hx0
            have e1 := (hmem x hx).2.1
            have e2 := (hmem0 x hx0).2.1
            rw [e1] at e2
            injection e2 with he
            exact hvv he
          have hol : o ∉ l := by
            intro hin
            have e1 := (hmem o hin).2.1
            rw [href] at e1
            injection e1 with he
            exact hvv he.symm
          refine ⟨l, ?_, hnd, ?_, ?_⟩
          · show IsChain rr.2 (setAt s.use_list_head v0 rr.1 v) l
            have hh : setAt s.use_list_head v0 rr.1 v = s.use_list_head v := by
              simp [setAt, hvv]
            rw [hh]
            refine isChain_congr hc ?_
            intro x hx
            exact hrf.2 x (hdisj x hx)
          · intro o2 ho2
            have hne : o2 ≠ o := fun he => hol (he ▸ ho2)
            refine ⟨(hmem o2 ho2).1, (hmem o2 ho2).2.1, ?_⟩
            show setAt s.owner o none o2 ≠ none
            simp only [setAt, if_neg hne]
            exact (hmem o2 ho2).2.2
          · intro o2 h1 h2 h3
            have hne : o2 ≠ o := by
              intro he
              subst he
              simp [setAt] at h3
            exact hcom o2 h1 h2 (by simpa [setAt, hne] using h3)
      · intro x hx
        have hx2 : s.nOps ≤ x := hx
        have hxl0 : x ∉ l0 := fun hin => absurd (hmem0 x hin).1 (by omega)
        refine ⟨(hwf.2 x hx2).1, ?_, ?_⟩
        · show setAt s.owner o none x = none
          by_cases hxo : x = o
          · simp [setAt, hxo]
          · simp only [setAt, if_neg hxo]
            exact (hwf.2 x hx).2.1
        · show rr.2 x = none
          rw [hrf.2 x hxl0]
          exact (hwf.2 x hx).2.2

end UseDef

lemma setAt_pos {α : Type} (f : Nat → α) (k : Nat) (v : α) :
    setAt f k v k = v := by
  simp [setAt]

lemma setAt_neg {α : Type} (f : Nat → α) (k : Nat) (v : α) {x : Nat}
    (h : x ≠ k) : setAt f k v x = f x := by
  simp [setAt, h]

namespace UseDef

/-- Allocating a fresh operand (without use-list insertion) preserves the
invariant as long as its referent is not a register value. -/
lemma wf_alloc {env : KindEnv} {s : State} (r : ORef) (i : Nat)
    (hno : ∀ v, env v = .reg → r ≠ .value v) (hwf : WF env s) :
    WF env { s with nOps := s.nOps + 1, ref := setAt s.ref s.nOps r, owner := setAt s.owner s.nOps (some i) } := by
  refine ⟨?_, ?_⟩
  · intro v hv
    obtain ⟨l, hc, hnd, hmem, hcom⟩ := hwf.1 v hv
    refine ⟨l, hc, hnd, ?_, ?_⟩
    · intro o2 ho2
      have hb := (hmem o2 ho2).1
      have hne : o2 ≠ s.nOps := by omega
      refine ⟨by show o2 < s.nOps + 1; omega, ?_, ?_⟩
      · show setAt s.ref s.nOps r o2 = ORef.value v
        rw [setAt_neg _ _ _ hne]
        exact (hmem o2 ho2).2.1
      · show setAt s.owner s.nOps (some i) o2 ≠ none
        rw [setAt_neg _ _ _ hne]
        exact (hmem o2 ho2).2.2
    · intro o2 h1 h2 h3
      by_cases hne : o2 = s.nOps
      · have h2b : setAt s.ref s.nOps r o2 = ORef.value v := h2
        rw [hne, setAt_pos] at h2b
        exact absurd h2b (hno v hv)
      · have h1b : o2 < s.nOps + 1 := h1
        have h2b : setAt s.ref s.nOps r o2 = ORef.value v := h2
        have h3b : setAt s.owner s.nOps (some i) o2 ≠ none := h3
        rw [setAt_neg _ _ _ hne] at h2b
        rw [setAt_neg _ _ _ hne] at h3b
        exact hcom o2 (by omega) h2b h3b
  · intro x hx
    have hx2 : s.nOps + 1 ≤ x := hx
    have hne : x ≠ s.nOps := by omega
    refine ⟨?_, ?_, (hwf.2 x (by omega)).2.2⟩
    · show setAt s.ref s.nOps r x = ORef.unalloc
      rw [setAt_neg _ _ _ hne]
      exact (hwf.2 x (by omega)).1
    · show setAt s.owner s.nOps (some i) x = none
      rw [setAt_neg _ _ _ hne]
      exact (hwf.2 x (by omega)).2.1

end UseDef

namespace UseDef

/-- Adding a basic-block operand preserves the invariant. -/
lemma add_bb_wf {env : KindEnv} {s : State} {i b : Nat} (hwf : WF env s) :
    WF env (add_bb_operand s i b) := by
  have h := wf_alloc (ORef.block b) i
    (fun v _ he => ORef.noConfusion he) hwf
  exact WF_congr rfl rfl rfl rfl rfl h

/-- Adding a value operand preserves the invariant. -/
lemma add_op_wf {env : KindEnv} {s : State} {i v : Nat} (hwf : WF env s) :
    WF env (add_operand env s i v) := by
  by_cases hc : env v = .const
  · have h := wf_alloc (ORef.value v) i ?_ hwf
    · simp only [add_operand, if_pos hc]
      exact WF_congr rfl rfl rfl rfl rfl h
    · intro w hw he
      injection he with hvw
      rw [hvw, hw] at hc
      exact VKind.noConfusion hc
  · simp only [add_operand, if_neg hc]
    refine ⟨?_, ?_⟩
    · intro w hw
      by_cases hwv : w = v
      · subst hwv
        obtain ⟨l, hcn, hnd, hmem, hcom⟩ := hwf.1 w hw
        have hnl : s.nOps ∉ l := fun hin => absurd (hmem s.nOps hin).1 (by omega)
        refine ⟨s.nOps :: l, ?_, List.nodup_cons.mpr ⟨hnl, hnd⟩, ?_, ?_⟩
        · show IsChain (setAt s.nxt s.nOps (s.use_list_head w)) (setAt s.use_list_head w (some s.nOps) w) (s.nOps :: l)
          rw [setAt_pos]
          refine IsChain.cons s.nOps l ?_
          rw [setAt_pos]
          refine isChain_congr hcn ?_
          intro x hx
          have hne : x ≠ s.nOps := fun he => hnl (he ▸ hx)
          rw [setAt_neg _ _ _ hne]
        · intro o2 ho2
          rcases List.mem_cons.mp ho2 with he | hm
          · refine ⟨by show o2 < s.nOps + 1; omega, ?_, ?_⟩
            · show setAt s.ref s.nOps (ORef.value w) o2 = ORef.value w
              rw [he, setAt_pos]
            · show setAt s.owner s.nOps (some i) o2 ≠ none
              rw [he, setAt_pos]
              exact Option.noConfusion
          · have hb := (hmem o2 hm).1
            have hne : o2 ≠ s.nOps := by omega
            refine ⟨by show o2 < s.nOps + 1; omega, ?_, ?_⟩
            · show setAt s.ref s.nOps (ORef.value w) o2 = ORef.value w
              rw [setAt_neg _ _ _ hne]
              exact (hmem o2 hm).2.1
            · show setAt s.owner s.nOps (some i) o2 ≠ none
              rw [setAt_neg _ _ _ hne]
              exact (hmem o2 hm).2.2
        · intro o2 h1 h2 h3
          by_cases hne : o2 = s.nOps
          · exact hne ▸ List.mem_cons_self _ _
          · have h1b : o2 < s.nOps + 1 := h1
            have h2b : setAt s.ref s.nOps (ORef.value w) o2 = ORef.value w := h2
            have h3b : setAt s.owner s.nOps (some i) o2 ≠ none := h3
            rw [setAt_neg _ _ _ hne] at h2b
            rw [setAt_neg _ _ _ hne] at h3b
            exact List.mem_cons_of_mem _ (hcom o2 (by omega) h2b h3b)
      · obtain ⟨l, hcn, hnd, hmem, hcom⟩ := hwf.1 w hw
        refine ⟨l, ?_, hnd, ?_, ?_⟩
        · show IsChain (setAt s.nxt s.nOps (s.use_list_head v)) (setAt s.use_list_head v (some s.nOps) w) l
          rw [setAt_neg _ _ _ hwv]
          refine isChain_congr hcn ?_
          intro x hx
          have hne : x ≠ s.nOps := by
            have := (hmem x hx).1
            omega
          rw [setAt_neg _ _ _ hne]
        · intro o2 ho2
          have hb := (hmem o2 ho2).1
          have hne : o2 ≠ s.nOps := by omega
          refine ⟨by show o2 < s.nOps + 1; omega, ?_, ?_⟩
          · show setAt s.ref s.nOps (ORef.value v) o2 = ORef.value w
            rw [setAt_neg _ _ _ hne]
            exact (hmem o2 ho2).2.1
          · show setAt s.owner s.nOps (some i) o2 ≠ none
            rw [setAt_neg _ _ _ hne]
            exact (hmem o2 ho2).2.2
        · intro o2 h1 h2 h3
          by_cases hne : o2 = s.nOps
          · have h2b : setAt s.ref s.nOps (ORef.value v) o2 = ORef.value w := h2
            rw [hne, setAt_pos] at h2b
            injection h2b with hb
            exact absurd hb.symm hwv
          · have h1b : o2 < s.nOps + 1 := h1
            have h2b : setAt s.ref s.nOps (ORef.value v) o2 = ORef.value w := h2
            have h3b : setAt s.owner s.nOps (some i) o2 ≠ none := h3
            rw [setAt_neg _ _ _ hne] at h2b
            rw [setAt_neg _ _ _ hne] at h3b
            exact hcom o2 (by omega) h2b h3b
    · intro x hx
      have hx2 : s.nOps + 1 ≤ x := hx
      have hne : x ≠ s.nOps := by omega
      refine ⟨?_, ?_, ?_⟩
      · show setAt s.ref s.nOps (ORef.value v) x = ORef.unalloc
        rw [setAt_neg _ _ _ hne]
        exact (hwf.2 x (by omega)).1
      · show setAt s.owner s.nOps (some i) x = none
        rw [setAt_neg _ _ _ hne]
        exact (hwf.2 x (by omega)).2.1
      · show setAt s.nxt s.nOps (s.use_list_head v) x = none
        rw [setAt_neg _ _ _ hne]
        exact (hwf.2 x (by omega)).2.2

end UseDef

namespace UseDef

/-- `change_operand_value` preserves the invariant. -/
lemma cov_wf {env : KindEnv} {s : State} (o nv : Nat) (hwf : WF env s) :
    WF env (change_operand_value env s o nv) := by
  cases href : s.ref o with
  | block b =>
    cases hown : s.owner o with
    | none => simp only [change_operand_value, href, hown]; exact hwf
    | some u => simp only [change_operand_value, href, hown]; exact hwf
  | unalloc =>
    cases hown : s.owner o with
    | none => simp only [change_operand_value, href, hown]; exact hwf
    | some u => simp only [change_operand_value, href, hown]; exact hwf
  | value v0 =>
    cases hown : s.owner o with
    | none => simp only [change_operand_value, href, hown]; exact hwf
    | some u =>
      simp only [change_operand_value, href, hown]
      by_cases hvn : v0 = nv
      · rw [if_pos hvn]; exact hwf
      · rw [if_neg hvn]
        have hbound : o < s.nOps := by
          by_contra hge
          have h := (hwf.2 o (by omega)).1
          rw [href] at h
          exact ORef.noConfusion h
        obtain ⟨nx, hd, heq, hvwf⟩ := rofule_wf o hwf
        rw [heq]
        have hono : setAt s.owner o none o = none := setAt_pos _ _ _
        by_cases hnvr : env nv = .reg
        · rw [if_pos hnvr]
          show WF env { s with ref := setAt s.ref o (ORef.value nv), nxt := setAt nx o (hd nv), use_list_head := setAt hd nv (some o) }
          refine ⟨?_, ?_⟩
          · intro w hw
            obtain ⟨l2, hc2, hnd2, hmem2, hcom2⟩ := hvwf.1 w hw
            have hc2b : IsChain nx (hd w) l2 := hc2
            have hmem2b : ∀ x ∈ l2, x < s.nOps ∧ s.ref x = ORef.value w ∧ setAt s.owner o none x ≠ none :=
              fun x hx => (hmem2 x hx)
            have hcom2b : ∀ x, x < s.nOps → s.ref x = ORef.value w → setAt s.owner o none x ≠ none → x ∈ l2 :=
              fun x h1 h2 h3 => hcom2 x h1 h2 h3
            have hol2 : o ∉ l2 := by
              intro hin
              exact (hmem2b o hin).2.2 hono
            by_cases hwnv : w = nv
            · refine ⟨o :: l2, ?_, List.nodup_cons.mpr ⟨hol2, hnd2⟩, ?_, ?_⟩
              · show IsChain (setAt nx o (hd nv)) (setAt hd nv (some o) w) (o :: l2)
                rw [hwnv, setAt_pos]
                refine IsChain.cons o l2 ?_
                rw [setAt_pos]
                have hc2c : IsChain nx (hd nv) l2 := hwnv ▸ hc2b
                refine isChain_congr hc2c ?_
                intro x hx
                have hne : x ≠ o := fun he => hol2 (he ▸ hx)
                rw [setAt_neg _ _ _ hne]
              · intro o2 ho2
                rcases List.mem_cons.mp ho2 with he | hm
                · refine ⟨by show o2 < s.nOps; omega, ?_, ?_⟩
                  · show setAt s.ref o (ORef.value nv) o2 = ORef.value w
                    rw [he, setAt_pos, hwnv]
                  · show s.owner o2 ≠ none
                    rw [he, hown]
                    exact Option.noConfusion
                · have hne : o2 ≠ o := fun he => hol2 (he ▸ hm)
                  refine ⟨(hmem2b o2 hm).1, ?_, ?_⟩
                  · show setAt s.ref o (ORef.value nv) o2 = ORef.value w
                    rw [setAt_neg _ _ _ hne]
                    exact (hmem2b o2 hm).2.1
                  · show s.owner o2 ≠ none
                    have h3 := (hmem2b o2 hm).2.2
                    rwa [setAt_neg _ _ _ hne] at h3
              · intro o2 h1 h2 h3
                have h1b : o2 < s.nOps := h1
                have h2b : setAt s.ref o (ORef.value nv) o2 = ORef.value w := h2
                have h3b : s.owner o2 ≠ none := h3
                by_cases hne : o2 = o
                · exact hne ▸ List.mem_cons_self _ _
                · rw [setAt_neg _ _ _ hne] at h2b
                  refine List.mem_cons_of_mem _ (hcom2b o2 h1b h2b ?_)
                  rw [setAt_neg _ _ _ hne]
                  exact h3b
            · refine ⟨l2, ?_, hnd2, ?_, ?_⟩
              · show IsChain (setAt nx o (hd nv)) (setAt hd nv (some o) w) l2
                have hwnv2 : w ≠ nv := hwnv
                rw [setAt_neg _ _ _ hwnv2]
                refine isChain_congr hc2b ?_
                intro x hx
                have hne : x ≠ o := fun he => hol2 (he ▸ hx)
                rw [setAt_neg _ _ _ hne]
              · intro o2 ho2
                have hne : o2 ≠ o := fun he => hol2 (he ▸ ho2)
                refine ⟨(hmem2b o2 ho2).1, ?_, ?_⟩
                · show setAt s.ref o (ORef.value nv) o2 = ORef.value w
                  rw [setAt_neg _ _ _ hne]
                  exact (hmem2b o2 ho2).2.1
                · show s.owner o2 ≠ none
                  have h3 := (hmem2b o2 ho2).2.2
                  rwa [setAt_neg _ _ _ hne] at h3
              · intro o2 h1 h2 h3
                have h1b : o2 < s.nOps := h1
                have h2b : setAt s.ref o (ORef.value nv) o2 = ORef.value w := h2
                have h3b : s.owner o2 ≠ none := h3
                by_cases hne : o2 = o
                · rw [hne, setAt_pos] at h2b
                  injection h2b with hb
                  exact absurd hb.symm hwnv
                · rw [setAt_neg _ _ _ hne] at h2b
                  refine hcom2b o2 h1b h2b ?_
                  rw [setAt_neg _ _ _ hne]
                  exact h3b
          · intro x hx
            have hx2 : s.nOps ≤ x := hx
            have hne : x ≠ o := by omega
            have hv2 := hvwf.2 x hx2
            refine ⟨?_, ?_, ?_⟩
            · show setAt s.ref o (ORef.value nv) x = ORef.unalloc
              rw [setAt_neg _ _ _ hne]
              exact hv2.1
            · show s.owner x = none
              have h : setAt s.owner o none x = none := hv2.2.1
              rwa [setAt_neg _ _ _ hne] at h
            · show setAt nx o (hd nv) x = none
              rw [setAt_neg _ _ _ hne]
              exact hv2.2.2
        · rw [if_neg hnvr]
          show WF env { s with ref := setAt s.ref o (ORef.value nv), nxt := setAt nx o none, use_list_head := hd }
          refine ⟨?_, ?_⟩
          · intro w hw
            obtain ⟨l2, hc2, hnd2, hmem2, hcom2⟩ := hvwf.1 w hw
            have hc2b : IsChain nx (hd w) l2 := hc2
            have hmem2b : ∀ x ∈ l2, x < s.nOps ∧ s.ref x = ORef.value w ∧ setAt s.owner o none x ≠ none :=
              fun x hx => (hmem2 x hx)
            have hcom2b : ∀ x, x < s.nOps → s.ref x = ORef.value w → setAt s.owner o none x ≠ none → x ∈ l2 :=
              fun x h1 h2 h3 => hcom2 x h1 h2 h3
            have hol2 : o ∉ l2 := by
              intro hin
              exact (hmem2b o hin).2.2 hono
            have hwnv : w ≠ nv := fun he => hnvr (he ▸ hw)
            refine ⟨l2, ?_, hnd2, ?_, ?_⟩
            · show IsChain (setAt nx o none) (hd w) l2
              refine isChain_congr hc2b ?_
              intro x hx
              have hne : x ≠ o := fun he => hol2 (he ▸ hx)
              rw [setAt_neg _ _ _ hne]
            · intro o2 ho2
              have hne : o2 ≠ o := fun he => hol2 (he ▸ ho2)
              refine ⟨(hmem2b o2 ho2).1, ?_, ?_⟩
              · show setAt s.ref o (ORef.value nv) o2 = ORef.value w
                rw [setAt_neg _ _ _ hne]
                exact (hmem2b o2 ho2).2.1
              · show s.owner o2 ≠ none
                have h3 := (hmem2b o2 ho2).2.2
                rwa [setAt_neg _ _ _ hne] at h3
            · intro o2 h1 h2 h3
              have h1b : o2 < s.nOps := h1
              have h2b : setAt s.ref o (ORef.value nv) o2 = ORef.value w := h2
              have h3b : s.owner o2 ≠ none := h3
              by_cases hne : o2 = o
              · rw [hne, setAt_pos] at h2b
                injection h2b with hb
                exact absurd hb.symm hwnv
              · rw [setAt_neg _ _ _ hne] at h2b
                refine hcom2b o2 h1b h2b ?_
                rw [setAt_neg _ _ _ hne]
                exact h3b
          · intro x hx
            have hx2 : s.nOps ≤ x := hx
            have hne : x ≠ o := by omega
            have hv2 := hvwf.2 x hx2
            refine ⟨?_, ?_, ?_⟩
            · show setAt s.ref o (ORef.value nv) x = ORef.unalloc
              rw [setAt_neg _ _ _ hne]
              exact hv2.1
            · show s.owner x = none
              have h : setAt s.owner o none x = none := hv2.2.1
              rwa [setAt_neg _ _ _ hne] at h
            · show setAt nx o none x = none
              rw [setAt_neg _ _ _ hne]
              exact hv2.2.2

end UseDef

namespace UseDef

/-- Detaching an operand outside a well formed register use list keeps
that list well formed. -/
lemma regChainOk_detach {s : State} {o v : Nat}
    {l : List Nat} (hl : RegChainOk s v l) (hol : o ∉ l) :
    RegChainOk { s with owner := setAt s.owner o none } v l := by
  obtain ⟨hc, hnd, hmem, hcom⟩ := hl
  refine ⟨hc, hnd, ?_, ?_⟩
  · intro o2 ho2
    have hne : o2 ≠ o := fun he => hol (he ▸ ho2)
    refine ⟨(hmem o2 ho2).1, (hmem o2 ho2).2.1, ?_⟩
    show setAt s.owner o none o2 ≠ none
    rw [setAt_neg _ _ _ hne]
    exact (hmem o2 ho2).2.2
  · intro o2 h1 h2 h3
    have h1b : o2 < s.nOps := h1
    have h2b : s.ref o2 = ORef.value v := h2
    have h3b : setAt s.owner o none o2 ≠ none := h3
    have hne : o2 ≠ o := by
      intro he
      rw [he, setAt_pos] at h3b
      exact h3b rfl
    rw [setAt_neg _ _ _ hne] at h3b
    exact hcom o2 h1b h2b h3b

/-- Splicing operand `o` out of a use list turns the (well formed) list
of any register value into that list with `o` erased, in the state where
`o` is additionally detached. -/
lemma rofule_erase {env : KindEnv} {s : State} (o : Nat) (hwf : WF env s)
    {v : Nat} (hv : env v = .reg) {l : List Nat} (hl : RegChainOk s v l) :
    RegChainOk { remove_operand_from_use_list env s o with owner := setAt s.owner o none } v (l.erase o) := by
  cases href : s.ref o with
  | block b =>
    have hol : o ∉ l := by
      intro hin
      have h := (hl.2.2.1 o hin).2.1
      rw [href] at h
      exact ORef.noConfusion h
    simp only [remove_operand_from_use_list, href]
    rw [List.erase_of_not_mem hol]
    exact regChainOk_detach hl hol
  | unalloc =>
    have hol : o ∉ l := by
      intro hin
      have h := (hl.2.2.1 o hin).2.1
      rw [href] at h
      exact ORef.noConfusion h
    simp only [remove_operand_from_use_list, href]
    rw [List.erase_of_not_mem hol]
    exact regChainOk_detach hl hol
  | value v0 =>
    by_cases hcn : env v0 = .const ∨ env v0 = .nodef
    · have hvv : v ≠ v0 := by
        intro he
        rcases hcn with h | h <;> rw [← he, hv] at h <;> exact VKind.noConfusion h
      have hol : o ∉ l := by
        intro hin
        have h := (hl.2.2.1 o hin).2.1
        rw [href] at h
        injection h with hb
        exact hvv hb.symm
      simp only [remove_operand_from_use_list, href]
      rw [if_pos hcn, List.erase_of_not_mem hol]
      exact regChainOk_detach hl hol
    · have hreg0 : env v0 = .reg := by
        cases h : env v0 with
        | const => exact absurd (Or.inl h) hcn
        | nodef => exact absurd (Or.inr h) hcn
        | reg => rfl
      simp only [remove_operand_from_use_list, href]
      rw [if_neg hcn]
      obtain ⟨hc, hnd, hmem, hcom⟩ := hl
      by_cases hvv : v = v0
      · subst hvv
        have hlen : l.length ≤ s.nOps :=
          nodup_lt_length_le hnd (fun x hx => (hmem x hx).1)
        have hrf := removeFirst_spec o hc s.nOps hnd hlen
        refine ⟨?_, hnd.erase o, ?_, ?_⟩
        · show IsChain (removeFirst o s.nOps s.nxt (s.use_list_head v)).2 (setAt s.use_list_head v (removeFirst o s.nOps s.nxt (s.use_list_head v)).1 v) (l.erase o)
          rw [setAt_pos]
          exact hrf.1
        · intro o2 ho2
          have ho2l : o2 ∈ l := List.mem_of_mem_erase ho2
          have hne : o2 ≠ o := (hnd.mem_erase_iff.mp ho2).1
          refine ⟨(hmem o2 ho2l).1, (hmem o2 ho2l).2.1, ?_⟩
          show setAt s.owner o none o2 ≠ none
          rw [setAt_neg _ _ _ hne]
          exact (hmem o2 ho2l).2.2
        · intro o2 h1 h2 h3
          have h1b : o2 < s.nOps := h1
          have h2b : s.ref o2 = ORef.value v := h2
          have h3b : setAt s.owner o none o2 ≠ none := h3
          have hne : o2 ≠ o := by
            intro he
            rw [he, setAt_pos] at h3b
            exact h3b rfl
          rw [setAt_neg _ _ _ hne] at h3b
          exact hnd.mem_erase_iff.mpr ⟨hne, hcom o2 h1b h2b h3b⟩
      · obtain ⟨l0, hc0, hnd0, hmem0, hcom0⟩ := hwf.1 v0 hreg0
        have hlen0 : l0.length ≤ s.nOps :=
          nodup_lt_length_le hnd0 (fun x hx => (hmem0 x hx).1)
        have hrf := removeFirst_spec o hc0 s.nOps hnd0 hlen0
        have hdisj : ∀ x ∈ l, x ∉ l0 := by
          intro x hx hx0
          have e1 := (hmem x hx).2.1
          have e2 := (hmem0 x hx0).2.1
          rw [e1] at e2
          injection e2 with he
          exact hvv he
        have hol : o ∉ l := by
          intro hin
          have e1 := (hmem o hin).2.1
          rw [href] at e1
          injection e1 with he
          exact hvv he.symm
        rw [List.erase_of_not_mem hol]
        refine ⟨?_, hnd, ?_, ?_⟩
        · show IsChain (removeFirst o s.nOps s.nxt (s.use_list_head v0)).2 (setAt s.use_list_head v0 (removeFirst o s.nOps s.nxt (s.use_list_head v0)).1 v) l
          have hvv2 : v ≠ v0 := hvv
          rw [setAt_neg _ _ _ hvv2]
          refine isChain_congr hc ?_
          intro x hx
          exact hrf.2 x (hdisj x hx)
        · intro o2 ho2
          have hne : o2 ≠ o := fun he => hol (he ▸ ho2)
          refine ⟨(hmem o2 ho2).1, (hmem o2 ho2).2.1, ?_⟩
          show setAt s.owner o none o2 ≠ none
          rw [setAt_neg _ _ _ hne]
          exact (hmem o2 ho2).2.2
        · intro o2 h1 h2 h3
          have h1b : o2 < s.nOps := h1
          have h2b : s.ref o2 = ORef.value v := h2
          have h3b : setAt s.owner o none o2 ≠ none := h3
          have hne : o2 ≠ o := by
            intro he
            rw [he, setAt_pos] at h3b
            exact h3b rfl
          rw [setAt_neg _ _ _ hne] at h3b
          exact hcom o2 h1b h2b h3b

end UseDef

namespace UseDef

/-- The effect of `change_operand_value` on an attached register operand:
the operand is retargeted to the new value, no other referent changes,
and the old value's use list loses exactly that operand. -/
lemma cov_chain {env : KindEnv} {s : State} {o old_val nv : Nat}
    (hwf : WF env s) (href : s.ref o = .value old_val)
    (hown : s.owner o ≠ none) (hne : old_val ≠ nv)
    (hreg : env old_val = .reg) {l : List Nat} (hl : RegChainOk s old_val l) :
    (change_operand_value env s o nv).ref o = .value nv ∧
    (∀ x, x ≠ o → (change_operand_value env s o nv).ref x = s.ref x) ∧
    RegChainOk (change_operand_value env s o nv) old_val (l.erase o) := by
  have hR := rofule_erase o hwf hreg hl
  cases hosome : s.owner o with
  | none => exact absurd hosome hown
  | some u =>
    simp only [change_operand_value, href, hosome]
    rw [if_neg hne]
    obtain ⟨nx, hd, heq, hvwf⟩ := rofule_wf o hwf
    rw [heq]
    rw [heq] at hR
    have hcR : IsChain nx (hd old_val) (l.erase o) := hR.1
    have hndR : (l.erase o).Nodup := hR.2.1
    have hmemR : ∀ x ∈ l.erase o, x < s.nOps ∧ s.ref x = ORef.value old_val ∧ setAt s.owner o none x ≠ none :=
      fun x hx => hR.2.2.1 x hx
    have hcomR : ∀ x, x < s.nOps → s.ref x = ORef.value old_val → setAt s.owner o none x ≠ none → x ∈ l.erase o :=
      fun x h1 h2 h3 => hR.2.2.2 x h1 h2 h3
    have holE : o ∉ l.erase o := by
      intro hin
      have h := (hmemR o hin).2.2
      rw [setAt_pos] at h
      exact h rfl
    by_cases hnvr : env nv = .reg
    · rw [if_pos hnvr]
      refine ⟨?_, ?_, ?_, hndR, ?_, ?_⟩
      · show setAt s.ref o (ORef.value nv) o = ORef.value nv
        rw [setAt_pos]
      · intro x hx
        show setAt s.ref o (ORef.value nv) x = s.ref x
        rw [setAt_neg _ _ _ hx]
      · show IsChain (setAt nx o (hd nv)) (setAt hd nv (some o) old_val) (l.erase o)
        rw [setAt_neg _ _ _ hne]
        refine isChain_congr hcR ?_
        intro x hx
        have hxo : x ≠ o := fun he => holE (he ▸ hx)
        rw [setAt_neg _ _ _ hxo]
      · intro o2 ho2
        have hxo : o2 ≠ o := fun he => holE (he ▸ ho2)
        refine ⟨(hmemR o2 ho2).1, ?_, ?_⟩
        · show setAt s.ref o (ORef.value nv) o2 = ORef.value old_val
          rw [setAt_neg _ _ _ hxo]
          exact (hmemR o2 ho2).2.1
        · show s.owner o2 ≠ none
          have h := (hmemR o2 ho2).2.2
          rwa [setAt_neg _ _ _ hxo] at h
      · intro o2 h1 h2 h3
        have h1b : o2 < s.nOps := h1
        have h2b : setAt s.ref o (ORef.value nv) o2 = ORef.value old_val := h2
        have h3b : s.owner o2 ≠ none := h3
        by_cases hxo : o2 = o
        · rw [hxo, setAt_pos] at h2b
          injection h2b with hb
          exact absurd hb.symm hne
        · rw [setAt_neg _ _ _ hxo] at h2b
          refine hcomR o2 h1b h2b ?_
          rw [setAt_neg _ _ _ hxo]
          exact h3b
    · rw [if_neg hnvr]
      refine ⟨?_, ?_, ?_, hndR, ?_, ?_⟩
      · show setAt s.ref o (ORef.value nv) o = ORef.value nv
        rw [setAt_pos]
      · intro x hx
        show setAt s.ref o (ORef.value nv) x = s.ref x
        rw [setAt_neg _ _ _ hx]
      · show IsChain (setAt nx o none) (hd old_val) (l.erase o)
        refine isChain_congr hcR ?_
        intro x hx
        have hxo : x ≠ o := fun he => holE (he ▸ hx)
        rw [setAt_neg _ _ _ hxo]
      · intro o2 ho2
        have hxo : o2 ≠ o := fun he => holE (he ▸ ho2)
        refine ⟨(hmemR o2 ho2).1, ?_, ?_⟩
        · show setAt s.ref o (ORef.value nv) o2 = ORef.value old_val
          rw [setAt_neg _ _ _ hxo]
          exact (hmemR o2 ho2).2.1
        · show s.owner o2 ≠ none
          have h := (hmemR o2 ho2).2.2
          rwa [setAt_neg _ _ _ hxo] at h
      · intro o2 h1 h2 h3
        have h1b : o2 < s.nOps := h1
        have h2b : setAt s.ref o (ORef.value nv) o2 = ORef.value old_val := h2
        have h3b : s.owner o2 ≠ none := h3
        by_cases hxo : o2 = o
        · rw [hxo, setAt_pos] at h2b
          injection h2b with hb
          exact absurd hb.symm hne
        · rw [setAt_neg _ _ _ hxo] at h2b
          refine hcomR o2 h1b h2b ?_
          rw [setAt_neg _ _ _ hxo]
          exact h3b

end UseDef

namespace UseDef

/-- Chain inversion: the empty chain has no head. -/
lemma isChain_nil {nxt : Nat → Option Nat} {c : Option Nat}
    (h : IsChain nxt c []) : c = none := by
  cases h
  rfl

/-- Chain inversion: a non-empty chain starts at its first element. -/
lemma isChain_cons {nxt : Nat → Option Nat} {c : Option Nat} {o : Nat}
    {l : List Nat} (h : IsChain nxt c (o :: l)) :
    c = some o ∧ IsChain nxt (nxt o) l := by
  cases h
  exact ⟨rfl, by assumption⟩

/-- `remove_operand` preserves the invariant. -/
lemma remove_op_wf {env : KindEnv} {s : State} (o : Nat) (hwf : WF env s) :
    WF env (remove_operand env s o) := by
  cases hosome : s.owner o with
  | none => simp only [remove_operand, hosome]; exact hwf
  | some instr =>
    simp only [remove_operand, hosome]
    obtain ⟨nx, hd, heq, hvwf⟩ := rofule_wf o hwf
    rw [heq]
    exact WF_congr rfl rfl rfl rfl rfl hvwf

/-- The retargeting loop of `replace_all_uses_with` preserves the
invariant. -/
lemma rauw_loop_wf {env : KindEnv} {old nv : Nat} (fuel : Nat) :
    ∀ s : State, WF env s →
      WF env (replace_all_uses_with_loop env old nv fuel s) := by
  induction fuel with
  | zero => intro s hwf; exact hwf
  | succ f ih =>
    intro s hwf
    simp only [replace_all_uses_with_loop]
    cases hh : s.use_list_head old with
    | none => exact hwf
    | some use => exact ih _ (cov_wf use nv hwf)

/-- `replace_all_uses_with` preserves the invariant. -/
lemma rauw_wf {env : KindEnv} {s : State} (old nv : Nat) (hwf : WF env s) :
    WF env (replace_all_uses_with env s old nv) := by
  unfold replace_all_uses_with
  split
  · exact hwf
  · exact rauw_loop_wf s.nOps s hwf

/-- Every one of the four operand-manipulation calls preserves the
invariant. -/
lemma applyCall_wf {env : KindEnv} {s : State} (c : Call) (hwf : WF env s) :
    WF env (applyCall env s c) := by
  cases c with
  | add_op i v => exact add_op_wf hwf
  | add_bb i b => exact add_bb_wf hwf
  | remove_op o => exact remove_op_wf o hwf
  | change_op o v => exact cov_wf o v hwf
  | rauw a b => exact rauw_wf a b hwf

/-- Any sequence of operand-manipulation calls preserves the invariant. -/
lemma applySeq_wf {env : KindEnv} (calls : List Call) :
    ∀ s : State, WF env s → WF env (applySeq env s calls) := by
  induction calls with
  | nil => intro s hwf; exact hwf
  | cons c rest ih => intro s hwf; exact ih _ (applyCall_wf c hwf)

/-- The retargeting loop empties the old register value's use list and
retargets exactly its members. -/
lemma rauw_loop_post {env : KindEnv} {old nv : Nat} (hne : old ≠ nv)
    (hreg : env old = .reg) :
    ∀ (l : List Nat) (s : State) (fuel : Nat), WF env s →
      RegChainOk s old l → l.length ≤ fuel →
      (replace_all_uses_with_loop env old nv fuel s).use_list_head old = none ∧
      (∀ x, x ∉ l → (replace_all_uses_with_loop env old nv fuel s).ref x = s.ref x) ∧
      (∀ x ∈ l, (replace_all_uses_with_loop env old nv fuel s).ref x = .value nv) := by
  intro l
  induction l with
  | nil =>
    intro s fuel hwf hl _
    have hh : s.use_list_head old = none := isChain_nil hl.1
    cases fuel with
    | zero => exact ⟨hh, fun x _ => rfl, fun x hx => absurd hx (List.not_mem_nil x)⟩
    | succ f =>
      have hred : replace_all_uses_with_loop env old nv (f + 1) s = s := by
        simp only [replace_all_uses_with_loop, hh]
      rw [hred]
      exact ⟨hh, fun x _ => rfl, fun x hx => absurd hx (List.not_mem_nil x)⟩
  | cons u l2 ih =>
    intro s fuel hwf hl hf
    have hh : s.use_list_head old = some u := (isChain_cons hl.1).1
    cases fuel with
    | zero => simp at hf
    | succ f =>
      simp only [replace_all_uses_with_loop, hh]
      have humem : u ∈ u :: l2 := List.mem_cons_self u l2
      have href_u : s.ref u = ORef.value old := (hl.2.2.1 u humem).2.1
      have hown_u : s.owner u ≠ none := (hl.2.2.1 u humem).2.2
      have hul2 : u ∉ l2 := (List.nodup_cons.mp hl.2.1).1
      have hcc := cov_chain hwf href_u hown_u hne hreg hl
      have hchain2 : RegChainOk (change_operand_value env s u nv) old l2 := by
        have h := hcc.2.2
        rwa [List.erase_cons_head] at h
      have hwt : WF env (change_operand_value env s u nv) := cov_wf u nv hwf
      have hih := ih (change_operand_value env s u nv) f hwt hchain2 (by simpa using hf)
      refine ⟨hih.1, ?_, ?_⟩
      · intro x hx
        have hx1 : x ≠ u := fun he => hx (he ▸ humem)
        have hx2 : x ∉ l2 := fun hc2 => hx (List.mem_cons_of_mem u hc2)
        rw [hih.2.1 x hx2]
        exact hcc.2.1 x hx1
      · intro x hx
        rcases List.mem_cons.mp hx with he | hm
        · rw [he]
          rw [hih.2.1 u hul2]
          exact hcc.1
        · exact hih.2.2 x hm

/-- Reading a chain from an empty head gives the empty list. -/
lemma chainFrom_none (nxt : Nat → Option Nat) (fuel : Nat) :
    chainFrom nxt fuel none = [] := by
  cases fuel <;> rfl

/-- `replace_all_uses_with` empties the old register value's use list and
retargets every former user. -/
lemma rauw_post {env : KindEnv} {s : State} {old nv : Nat} (hwf : WF env s)
    (hreg : env old = .reg) (hne : old ≠ nv) :
    (replace_all_uses_with env s old nv).use_list_head old = none ∧
    ∀ x ∈ useList s old, (replace_all_uses_with env s old nv).ref x = .value nv := by
  unfold replace_all_uses_with
  by_cases hcond : old = nv ∨ s.use_list_head old = none
  · rw [if_pos hcond]
    rcases hcond with h | h
    · exact absurd h hne
    · refine ⟨h, ?_⟩
      intro x hx
      unfold useList at hx
      rw [h, chainFrom_none] at hx
      exact absurd hx (List.not_mem_nil x)
  · rw [if_neg hcond]
    obtain ⟨l, hl⟩ := hwf.1 old hreg
    have hlen : l.length ≤ s.nOps :=
      nodup_lt_length_le hl.2.1 (fun x hx => (hl.2.2.1 x hx).1)
    have hul : useList s old = l := by
      unfold useList
      exact chainFrom_isChain hl.1 s.nOps hlen
    have hp := rauw_loop_post hne hreg l s s.nOps hwf hl hlen
    refine ⟨hp.1, ?_⟩
    rw [hul]
    exact hp.2.2

/-- The use list read from a well formed state is duplicate-free and
contains exactly the attached operands referencing the register value. -/
lemma useList_spec {env : KindEnv} {s : State} (hwf : WF env s) {v : Nat}
    (hv : env v = .reg) :
    (useList s v).Nodup ∧
    ∀ o, o ∈ useList s v ↔ (s.ref o = .value v ∧ s.owner o ≠ none) := by
  obtain ⟨l, hl⟩ := hwf.1 v hv
  have hlen : l.length ≤ s.nOps :=
    nodup_lt_length_le hl.2.1 (fun x hx => (hl.2.2.1 x hx).1)
  have hul : useList s v = l := by
    unfold useList
    exact chainFrom_isChain hl.1 s.nOps hlen
  rw [hul]
  refine ⟨hl.2.1, ?_⟩
  intro o
  constructor
  · intro ho
    exact ⟨(hl.2.2.1 o ho).2.1, (hl.2.2.1 o ho).2.2⟩
  · intro hro
    have hb : o < s.nOps := by
      by_contra hge
      have h := (hwf.2 o (by omega)).1
      rw [hro.1] at h
      exact ORef.noConfusion h
    exact hl.2.2.2 o hb hro.1 hro.2

end UseDef

/-- The empty use-def state satisfies the invariant for any
classification. -/
lemma wf_emptyUD (env : UseDef.KindEnv) : UseDef.WF env emptyUD := by
  refine ⟨?_, ?_⟩
  · intro v _
    refine ⟨[], UseDef.IsChain.nil, List.nodup_nil, ?_, ?_⟩
    · intro o ho
      exact absurd ho (List.not_mem_nil o)
    · intro o h1 _ _
      exact absurd h1 (Nat.not_lt_zero o)
  · intro o _
    exact ⟨rfl, rfl, rfl⟩

/-- C3: use-def consistency.  After any sequence of operand-manipulation
calls (`add_operand` in both forms, `remove_operand`,
`change_operand_value`, `replace_all_uses_with`) starting from a state
satisfying the use-def invariant: the invariant still holds; for every
register value `v` the use list read from the state is duplicate-free
and an operand belongs to it exactly when it references `v` and is
attached to an instruction; and a further `replace_all_uses_with old new`
with `old` a register distinct from `new` leaves `old` with an empty use
list and retargets every former user of `old` to `new`. -/
theorem use_def_consistency (env : UseDef.KindEnv) (s0 : UseDef.State)
    (calls : List UseDef.Call) (hwf : UseDef.WF env s0) :
    UseDef.WF env (UseDef.applySeq env s0 calls) ∧
    (∀ v, env v = .reg →
      (UseDef.useList (UseDef.applySeq env s0 calls) v).Nodup ∧
      (∀ o, o ∈ UseDef.useList (UseDef.applySeq env s0 calls) v ↔
        ((UseDef.applySeq env s0 calls).ref o = .value v ∧
         (UseDef.applySeq env s0 calls).owner o ≠ none))) ∧
    (∀ old nv, env old = .reg → old ≠ nv →
      (UseDef.replace_all_uses_with env (UseDef.applySeq env s0 calls) old nv).use_list_head old = none ∧
      (∀ o ∈ UseDef.useList (UseDef.applySeq env s0 calls) old,
        (UseDef.replace_all_uses_with env (UseDef.applySeq env s0 calls) old nv).ref o = .value nv)) := by
  have hw := UseDef.applySeq_wf calls s0 hwf
  refine ⟨hw, ?_, ?_⟩
  · intro v hv
    exact UseDef.useList_spec hw hv
  · intro old nv hreg hne
    exact UseDef.rauw_post hw hreg hne

/-- C3 witness: the consistency theorem applied to a concrete call
sequence (two `add_operand`s on value `5`, then a retargeting to `6`)
from the empty state. -/
theorem use_def_consistency_witness :
    UseDef.WF envW (UseDef.applySeq envW emptyUD callsW) ∧
    (UseDef.useList (UseDef.applySeq envW emptyUD callsW) 5).Nodup :=
  ⟨(use_def_consistency envW emptyUD callsW (wf_emptyUD envW)).1,
   ((use_def_consistency envW emptyUD callsW (wf_emptyUD envW)).2.1 5
     (by decide)).1⟩

lemma headI_mem {l : List Nat} (h : l ≠ []) : l.headI ∈ l := by
  cases l with
  | nil => exact absurd rfl h
  | cons a t => exact List.mem_cons_self a t

namespace Mem2Reg

lemma instrEvolve_refl (pd : List Nat) (i : IRInstruction) :
    InstrEvolve pd i i :=
  ⟨rfl, rfl, rfl, Or.inl rfl, fun _ _ _ h => h⟩

lemma instrEvolve_trans {pd : List Nat} {i1 i2 i3 : IRInstruction}
    (h12 : InstrEvolve pd i1 i2) (h23 : InstrEvolve pd i2 i3) :
    InstrEvolve pd i1 i3 := by
  obtain ⟨a1, a2, a3, a4, a5⟩ := h12
  obtain ⟨b1, b2, b3, b4, b5⟩ := h23
  refine ⟨b1.trans a1, b2.trans a2, b3.trans a3, ?_, ?_⟩
  · rcases b4 with hb | hb
    · rw [hb]; exact a4
    · exact Or.inr hb
  · intro k dd hdd h
    exact a5 k dd hdd (b5 k dd hdd h)

lemma funcEvolve_refl (pd : List Nat) (f : IRFunction) :
    FuncEvolve pd f f := by
  refine ⟨rfl, List.Sublist.refl _, ?_⟩
  intro b2 hb2 i2 hi2
  exact ⟨b2, hb2, rfl, i2, hi2, instrEvolve_refl pd i2⟩

lemma funcEvolve_trans {pd : List Nat} {f1 f2 f3 : IRFunction}
    (h12 : FuncEvolve pd f1 f2) (h23 : FuncEvolve pd f2 f3) :
    FuncEvolve pd f1 f3 := by
  refine ⟨h23.1.trans h12.1, h23.2.1.trans h12.2.1, ?_⟩
  intro b3 hb3 i3 hi3
  obtain ⟨b2, hb2, hbid2, i2, hi2, he2⟩ := h23.2.2 b3 hb3 i3 hi3
  obtain ⟨b1, hb1, hbid1, i1, hi1, he1⟩ := h12.2.2 b2 hb2 i2 hi2
  exact ⟨b1, hb1, hbid1.trans hbid2, i1, hi1, instrEvolve_trans he1 he2⟩

/-- A load from or a store to a promoted address in the evolved
instruction was already one in the original. -/
lemma usesPA_evolve {pd : List Nat} {i1 i2 : IRInstruction}
    (he : InstrEvolve pd i1 i2) (hu : UsesPromotedAddr pd i2) :
    UsesPromotedAddr pd i1 := by
  obtain ⟨_, _, _, hop, hback⟩ := he
  rcases hu with ⟨hl, v, hv, hs⟩ | ⟨hl, v, hv, hs⟩
  · have hop1 : i1.opcode = .load := by
      rcases hop with h | h
      · rw [← h]; exact hl
      · rw [hl] at h; exact Opcode.noConfusion h
    exact Or.inl ⟨hop1, v, hv, hback 0 v hv hs⟩
  · have hop1 : i1.opcode = .store := by
      rcases hop with h | h
      · rw [← h]; exact hl
      · rw [hl] at h; exact Opcode.noConfusion h
    exact Or.inr ⟨hop1, v, hv, hback 1 v hv hs⟩

lemma blockClean_evolve {pd : List Nat} {f1 f2 : IRFunction} {b : Nat}
    (he : FuncEvolve pd f1 f2) (hc : BlockClean pd f1 b) :
    BlockClean pd f2 b := by
  intro bb hbb hid i hi hu
  obtain ⟨b1, hb1, hbid, i1, hi1, hie⟩ := he.2.2 bb hbb i hi
  exact hc b1 hb1 (hbid.trans hid) i1 hi1 (usesPA_evolve hie hu)

lemma m2rinv_evolve {pd : List Nat} {f1 f2 : IRFunction}
    (he : FuncEvolve pd f1 f2) (hinv : M2RInv pd f1) : M2RInv pd f2 := by
  refine ⟨?_, ?_⟩
  · intro bb hbb i hi hst v hv hs
    obtain ⟨b1, hb1, _, i1, hi1, hie⟩ := he.2.2 bb hbb i hi
    have hop1 : i1.opcode = .store := by
      rcases hie.2.2.2.1 with h | h
      · rw [← h]; exact hst
      · rw [hst] at h; exact Opcode.noConfusion h
    exact hinv.1 b1 hb1 i1 hi1 hop1 v hv (hie.2.2.2.2 0 v hv hs)
  · intro bb hbb i hi hpfa d hd
    obtain ⟨b1, hb1, _, i1, hi1, hie⟩ := he.2.2 bb hbb i hi
    refine hinv.2 b1 hb1 i1 hi1 ?_ d ?_
    · rw [← hie.2.2.1]; exact hpfa
    · rw [← hie.2.1]; exact hd

/-- Instruction identifiers stay duplicate-free along the evolution. -/
lemma nodupIds_evolve {pd : List Nat} {f1 f2 : IRFunction}
    (he : FuncEvolve pd f1 f2)
    (hnd : (f1.allInstrs.map (fun i => i.id)).Nodup) :
    (f2.allInstrs.map (fun i => i.id)).Nodup :=
  he.2.1.nodup hnd

/-- With duplicate-free identifiers, an instruction of the function is
determined by its identifier. -/
lemma instr_id_unique {f : IRFunction}
    (hnd : (f.allInstrs.map (fun i => i.id)).Nodup)
    {b1 b2 : IRBasicBlock} {i1 i2 : IRInstruction}
    (hb1 : b1 ∈ f.blocks) (hi1 : i1 ∈ b1.instrs)
    (hb2 : b2 ∈ f.blocks) (hi2 : i2 ∈ b2.instrs) (hid : i1.id = i2.id) :
    i1 = i2 := by
  have hm1 : i1 ∈ f.allInstrs := List.mem_flatMap.mpr ⟨b1, hb1, hi1⟩
  have hm2 : i2 ∈ f.allInstrs := List.mem_flatMap.mpr ⟨b2, hb2, hi2⟩
  exact List.inj_on_of_nodup_map hnd hm1 hm2 hid

end Mem2Reg

namespace Mem2Reg

lemma mapInstrs_ids (bs : List IRBasicBlock) (g : IRInstruction → IRInstruction)
    (hg : ∀ i, (g i).id = i.id) :
    ((bs.map (fun bb => { bb with instrs := bb.instrs.map g })).flatMap
        (fun bb => bb.instrs)).map (fun i => i.id) =
      (bs.flatMap (fun bb => bb.instrs)).map (fun i => i.id) := by
  induction bs with
  | nil => rfl
  | cons b rest ih =>
    simp only [List.map_cons, List.flatMap_cons, List.map_append]
    rw [ih]
    congr 1
    show (b.instrs.map g).map (fun i => i.id) = b.instrs.map (fun i => i.id)
    rw [List.map_map]
    exact List.map_congr_left (fun i _ => hg i)

lemma mapInstrs_block_ids (bs : List IRBasicBlock)
    (g : IRInstruction → IRInstruction) :
    (bs.map (fun bb => { bb with instrs := bb.instrs.map g })).map
        (fun bb => bb.id) = bs.map (fun bb => bb.id) := by
  rw [List.map_map]
  rfl

/-- A pointwise instruction rewrite that instruction-evolves everywhere
function-evolves. -/
lemma funcEvolve_map (pd : List Nat) (f : IRFunction)
    (g : IRInstruction → IRInstruction)
    (hg : ∀ i, InstrEvolve pd i (g i)) :
    FuncEvolve pd f { f with blocks := f.blocks.map (fun bb => { bb with instrs := bb.instrs.map g }) } := by
  refine ⟨mapInstrs_block_ids f.blocks g, ?_, ?_⟩
  · have heq := mapInstrs_ids f.blocks g (fun i => (hg i).1)
    show List.Sublist (((f.blocks.map (fun bb => { bb with instrs := bb.instrs.map g })).flatMap (fun bb => bb.instrs)).map (fun i => i.id)) ((f.blocks.flatMap (fun bb => bb.instrs)).map (fun i => i.id))
    rw [heq]
  · intro b2 hb2 i2 hi2
    rcases List.mem_map.mp hb2 with ⟨b1, hb1, rfl⟩
    rcases List.mem_map.mp hi2 with ⟨i1, hi1, rfl⟩
    exact ⟨b1, hb1, rfl, i1, hi1, hg i1⟩

lemma flatMap_ids_sublist (bs : List IRBasicBlock)
    (h : IRBasicBlock → IRBasicBlock)
    (hh : ∀ bb, List.Sublist (h bb).instrs bb.instrs) :
    List.Sublist
      (((bs.map h).flatMap (fun bb => bb.instrs)).map (fun i => i.id))
      ((bs.flatMap (fun bb => bb.instrs)).map (fun i => i.id)) := by
  induction bs with
  | nil => exact List.Sublist.refl _
  | cons b rest ih =>
    simp only [List.map_cons, List.flatMap_cons, List.map_append]
    exact List.Sublist.append ((hh b).map _) ih

/-- A pointwise block rewrite that only drops instructions
function-evolves. -/
lemma funcEvolve_filter (pd : List Nat) (f : IRFunction)
    (h : IRBasicBlock → IRBasicBlock)
    (hh : ∀ bb, (h bb).id = bb.id ∧ List.Sublist (h bb).instrs bb.instrs) :
    FuncEvolve pd f { f with blocks := f.blocks.map h } := by
  refine ⟨?_, ?_, ?_⟩
  · rw [List.map_map]
    exact List.map_congr_left (fun bb _ => (hh bb).1)
  · show List.Sublist (((f.blocks.map h).flatMap (fun bb => bb.instrs)).map (fun i => i.id)) ((f.blocks.flatMap (fun bb => bb.instrs)).map (fun i => i.id))
    exact flatMap_ids_sublist f.blocks h (fun bb => (hh bb).2)
  · intro b2 hb2 i2 hi2
    rcases List.mem_map.mp hb2 with ⟨b1, hb1, rfl⟩
    exact ⟨b1, hb1, ((hh b1).1).symm, i2, (hh b1).2.subset hi2, instrEvolve_refl pd i2⟩

lemma rauw_funcEvolve {pd : List Nat} (f : IRFunction) {old nv : Nat}
    (hnv : nv ∉ pd) : FuncEvolve pd f (SCCP.rauw f old nv) := by
  have h := funcEvolve_map pd f
    (fun i => { i with operands := i.operands.map (fun od => if od = .value old then .value nv else od) }) ?_
  · exact h
  · intro i
    refine ⟨rfl, rfl, rfl, Or.inl rfl, ?_⟩
    intro k dd hdd hk
    have hk0 : (i.operands.map (fun od => if od = OperandData.value old then OperandData.value nv else od)).get? k = some (OperandData.value dd) := hk
    rw [List.get?_map] at hk0
    cases hod : i.operands.get? k with
    | none => rw [hod] at hk0; exact Option.noConfusion hk0
    | some od =>
      rw [hod] at hk0
      have hk2 : (if od = OperandData.value old then OperandData.value nv else od) = OperandData.value dd := Option.some.inj hk0
      by_cases ho : od = OperandData.value old
      · rw [if_pos ho] at hk2
        injection hk2 with h3
        exact absurd (h3 ▸ hdd) hnv
      · rw [if_neg ho] at hk2
        exact congrArg some hk2

lemma setInstr_funcEvolve {pd : List Nat} (f : IRFunction) (iid : Nat)
    (g0 : IRInstruction → IRInstruction)
    (hg0 : ∀ i, InstrEvolve pd i (g0 i)) :
    FuncEvolve pd f (f.setInstr iid g0) := by
  have h := funcEvolve_map pd f
    (fun ins => if ins.id = iid then g0 ins else ins) ?_
  · exact h
  · intro i
    by_cases hi : i.id = iid
    · show InstrEvolve pd i (if i.id = iid then g0 i else i)
      rw [if_pos hi]
      exact hg0 i
    · show InstrEvolve pd i (if i.id = iid then g0 i else i)
      rw [if_neg hi]
      exact instrEvolve_refl pd i

lemma mark_instrEvolve (pd : List Nat) (i : IRInstruction) :
    InstrEvolve pd i { i with opcode := .unknown } :=
  ⟨rfl, rfl, rfl, Or.inr rfl, fun _ _ _ h => h⟩

lemma addIncoming_instrEvolve {pd : List Nat} {top : Nat} (bid : Nat)
    (htop : top ∉ pd) (i : IRInstruction) :
    InstrEvolve pd i (ir_phi_add_incoming i top bid) := by
  unfold ir_phi_add_incoming
  split
  · exact instrEvolve_refl pd i
  · refine ⟨rfl, rfl, rfl, Or.inl rfl, ?_⟩
    intro k dd hdd hk
    have hk0 : (i.operands ++ [OperandData.value top, OperandData.block bid]).get? k = some (OperandData.value dd) := hk
    by_cases hlt : k < i.operands.length
    · rwa [List.get?_append hlt] at hk0
    · rw [List.get?_append_right (by omega)] at hk0
      rcases hm : k - i.operands.length with _ | m
      · rw [hm] at hk0
        have h3 : OperandData.value top = OperandData.value dd := Option.some.inj hk0
        injection h3 with h4
        exact absurd (h4 ▸ hdd) htop
      · rw [hm] at hk0
        rcases m with _ | m2
        · have h3 : OperandData.block bid = OperandData.value dd := Option.some.inj hk0
          exact OperandData.noConfusion h3
        · exact Option.noConfusion hk0

lemma cleanup_funcEvolve {pd : List Nat} (f : IRFunction) (b : Nat) :
    FuncEvolve pd f (cleanupBlock f b) := by
  have h := funcEvolve_filter pd f
    (fun bb => if bb.id = b then { bb with instrs := bb.instrs.filter (fun i => i.opcode ≠ .unknown) } else bb) ?_
  · exact h
  · intro bb
    constructor
    · show (if bb.id = b then { bb with instrs := bb.instrs.filter (fun i => i.opcode ≠ .unknown) } else bb).id = bb.id
      split <;> rfl
    · show List.Sublist (if bb.id = b then { bb with instrs := bb.instrs.filter (fun i => i.opcode ≠ .unknown) } else bb).instrs bb.instrs
      split
      · exact List.filter_sublist bb.instrs
      · exact List.Sublist.refl bb.instrs

lemma erase_funcEvolve {pd : List Nat} (f : IRFunction) (iid : Nat) :
    FuncEvolve pd f (InstCombine.eraseFromBlocks f iid) := by
  have h := funcEvolve_filter pd f
    (fun bb => { bb with instrs := bb.instrs.filter (fun ins => ins.id ≠ iid) }) ?_
  · exact h
  · intro bb
    exact ⟨rfl, List.filter_sublist bb.instrs⟩

end Mem2Reg

namespace Mem2Reg

lemma findIdx?_bound {α : Type} {p : α → Bool} :
    ∀ (l : List α) (i j : Nat), List.findIdx? p l i = some j →
      i ≤ j ∧ j < i + l.length := by
  intro l
  induction l with
  | nil => intro i j h; simp [List.findIdx?] at h
  | cons a t ih =>
    intro i j h
    rw [List.findIdx?_cons] at h
    by_cases hp : p a
    · rw [if_pos hp] at h
      have h2 : i = j := Option.some.inj h
      simp only [List.length_cons]
      omega
    · rw [if_neg hp] at h
      have h3 := ih (i + 1) j h
      simp only [List.length_cons]
      omega

lemma findIdx?_lt_length {α : Type} {p : α → Bool} {l : List α} {j : Nat}
    (h : l.findIdx? p = some j) : j < l.length := by
  have h2 := findIdx?_bound l 0 j h
  omega

lemma stack_top_safe {pd : List Nat} {pas : List IRInstruction}
    {stks : List (List Nat)} (hst : StacksOk pd pas stks) {j : Nat}
    (hj : j < pas.length) : (stks.getD j []).headI ∉ pd := by
  have hjl : j < stks.length := by rw [hst.1]; exact hj
  have hget : stks.get? j = some (stks.get ⟨j, hjl⟩) := List.get?_eq_get hjl
  have hgd : stks.getD j [] = stks.get ⟨j, hjl⟩ := by
    rw [List.getD_eq_getD_get?, hget]
    rfl
  rw [hgd]
  have hmem : stks.get ⟨j, hjl⟩ ∈ stks := List.get_mem stks j hjl
  have h2 := hst.2 _ hmem
  exact h2.2 _ (headI_mem h2.1)

lemma stacksOk_push {pd : List Nat} {pas : List IRInstruction}
    {stks : List (List Nat)} (hst : StacksOk pd pas stks) {j v : Nat}
    (hv : v ∉ pd) : StacksOk pd pas (stks.set j (v :: stks.getD j [])) := by
  refine ⟨by rw [List.length_set]; exact hst.1, ?_⟩
  intro l hl
  rcases List.mem_or_eq_of_mem_set hl with h | h
  · exact hst.2 l h
  · refine ⟨by rw [h]; exact List.cons_ne_nil _ _, ?_⟩
    intro x hx
    rw [h] at hx
    rcases List.mem_cons.mp hx with he | hm
    · rw [he]; exact hv
    · rw [List.getD_eq_getD_get?] at hm
      cases hq : stks.get? j with
      | none => rw [hq] at hm; exact absurd hm (List.not_mem_nil x)
      | some l0 =>
        rw [hq] at hm
        exact (hst.2 l0 (List.get?_mem hq)).2 x hm

lemma not_usesPA_of_unknown {pd : List Nat} {i : IRInstruction}
    (h : i.opcode = Opcode.unknown) : ¬ UsesPromotedAddr pd i := by
  intro hu
  rcases hu with ⟨hl, _⟩ | ⟨hl, _⟩ <;> rw [h] at hl <;> exact Opcode.noConfusion hl

lemma setInstr_mark_marked (f : IRFunction) (iid : Nat) :
    ∀ bb ∈ (f.setInstr iid (fun ins => { ins with opcode := .unknown })).blocks,
      ∀ i ∈ bb.instrs, i.id = iid → i.opcode = Opcode.unknown := by
  intro bb hbb i hi hiid
  have hbb2 : bb ∈ f.blocks.map (fun bb2 => { bb2 with instrs := bb2.instrs.map (fun ins => if ins.id = iid then { ins with opcode := Opcode.unknown } else ins) }) := hbb
  rcases List.mem_map.mp hbb2 with ⟨bb1, hbb1, rfl⟩
  have hi2 : i ∈ bb1.instrs.map (fun ins => if ins.id = iid then { ins with opcode := Opcode.unknown } else ins) := hi
  rcases List.mem_map.mp hi2 with ⟨ins0, hins0, rfl⟩
  by_cases h0 : ins0.id = iid
  · simp only [if_pos h0]
  · rw [if_neg h0] at hiid ⊢
    exact absurd hiid h0

lemma markedAt_evolve {pd : List Nat} {f1 f2 : IRFunction} {b iid : Nat}
    (he : FuncEvolve pd f1 f2)
    (hm : ∀ bb ∈ f1.blocks, bb.id = b → ∀ i ∈ bb.instrs, i.id = iid →
      ¬ UsesPromotedAddr pd i) :
    ∀ bb ∈ f2.blocks, bb.id = b → ∀ i ∈ bb.instrs, i.id = iid →
      ¬ UsesPromotedAddr pd i := by
  intro bb hbb hid i hi hiid hu
  obtain ⟨b1, hb1, hb1id, i1, hi1, hie⟩ := he.2.2 bb hbb i hi
  exact hm b1 hb1 (hb1id.trans hid) i1 hi1 (hie.1.symm.trans hiid)
    (usesPA_evolve hie hu)

end Mem2Reg

namespace Mem2Reg

/-- One renaming step: the function evolves, the stacks stay well formed,
and afterwards no instruction with the processed identifier in a block
with the processed block identifier is a load from or a store to a
promoted address. -/
lemma renameInstrStep_spec {pas : List IRInstruction} {b : Nat}
    (acc : M2RState × List (List Nat)) (iid : Nat)
    (hndI : ((acc.1.f.allInstrs).map (fun i => i.id)).Nodup)
    (hndB : (acc.1.f.blocks.map (fun bb => bb.id)).Nodup)
    (hinv : M2RInv (pdests pas) acc.1.f)
    (hst : StacksOk (pdests pas) pas acc.2) :
    FuncEvolve (pdests pas) acc.1.f (renameInstrStep pas b acc iid).1.f ∧
    StacksOk (pdests pas) pas (renameInstrStep pas b acc iid).2 ∧
    (∀ bb ∈ (renameInstrStep pas b acc iid).1.f.blocks, bb.id = b →
      ∀ i ∈ bb.instrs, i.id = iid → ¬ UsesPromotedAddr (pdests pas) i) := by
  simp only [renameInstrStep]
  split
  · rename_i hfb
    refine ⟨funcEvolve_refl _ _, hst, ?_⟩
    intro bb hbb hid i hi hiid hu
    unfold IRFunction.findBlock at hfb
    have h2 := List.find?_eq_none.mp hfb bb hbb
    simp at h2
    exact h2 hid
  · rename_i bb0 hfb
    unfold IRFunction.findBlock at hfb
    have hbb0mem : bb0 ∈ acc.1.f.blocks := List.mem_of_find?_eq_some hfb
    have hbb0id : bb0.id = b := by simpa using List.find?_some hfb
    split
    · rename_i hcur
      refine ⟨funcEvolve_refl _ _, hst, ?_⟩
      intro bb hbb hid i hi hiid hu
      have hbbeq : bb = bb0 :=
        List.inj_on_of_nodup_map hndB hbb hbb0mem (hid.trans hbb0id.symm)
      rw [hbbeq] at hi
      have h2 := List.find?_eq_none.mp hcur i hi
      simp at h2
      exact h2 hiid
    · rename_i cur hcur
      have hcurmem : cur ∈ bb0.instrs := List.mem_of_find?_eq_some hcur
      have hcurid : cur.id = iid := by simpa using List.find?_some hcur
      have huniq : ∀ bb ∈ acc.1.f.blocks, ∀ i ∈ bb.instrs, i.id = iid →
          i = cur := by
        intro bb hbb i hi hiid
        exact instr_id_unique hndI hbb hi hbb0mem hcurmem
          (hiid.trans hcurid.symm)
      split
      · rename_i hload
        split
        · rename_i j hfi
          have hj : j < pas.length := findIdx?_lt_length hfi
          have htop : (acc.2.getD j []).headI ∉ pdests pas :=
            stack_top_safe hst hj
          have he1 : FuncEvolve (pdests pas) acc.1.f
              (match cur.dest with
               | some d => SCCP.rauw acc.1.f d ((acc.2.getD j []).headI)
               | none => acc.1.f) := by
            cases cur.dest with
            | some d => exact rauw_funcEvolve _ htop
            | none => exact funcEvolve_refl _ _
          refine ⟨?_, hst, ?_⟩
          · refine funcEvolve_trans he1 ?_
            exact setInstr_funcEvolve _ iid _ (mark_instrEvolve _)
          · intro bb hbb hid i hi hiid
            exact not_usesPA_of_unknown (setInstr_mark_marked _ iid bb hbb i hi hiid)
        · rename_i hfi
          refine ⟨funcEvolve_refl _ _, hst, ?_⟩
          intro bb hbb hid i hi hiid hu
          have hieq : i = cur := huniq bb hbb i hi hiid
          rw [hieq] at hu
          rcases hu with ⟨_, v, hv, hslot⟩ | ⟨hop, _⟩
          · rcases List.mem_filterMap.mp hv with ⟨pa, hpa, hpad⟩
            have hpred : (SCCP.operandValue (cur.operands.get? 0) = pa.dest ∧
                pa.dest ≠ none) := by
              rw [hslot, hpad]
              exact ⟨rfl, Option.noConfusion⟩
            have h2 := List.findIdx?_eq_none_iff.mp hfi pa hpa
            simp at h2
            exact absurd hpred (by simpa using h2)
          · rw [hload] at hop
            exact Opcode.noConfusion hop
      · rename_i hnotload
        split
        · rename_i hstore
          split
          · rename_i j hfi
            have hj : j < pas.length := findIdx?_lt_length hfi
            refine ⟨?_, ?_, ?_⟩
            · exact setInstr_funcEvolve _ iid _ (mark_instrEvolve _)
            · split
              · rename_i v hov
                refine stacksOk_push hst ?_
                intro hvpd
                rcases List.mem_filterMap.mp hvpd with ⟨pa2, hpa2, hpad2⟩
                have hslot : cur.operands.get? 0 = some (OperandData.value v) := by
                  cases hq : cur.operands.get? 0 with
                  | none => rw [hq] at hov; exact Option.noConfusion hov
                  | some od =>
                    rw [hq] at hov
                    cases od with
                    | value w =>
                      have : w = v := by
                        simpa [SCCP.operandValue] using hov
                      rw [this]
                    | block w =>
                      simp [SCCP.operandValue] at hov
                exact hinv.1 bb0 hbb0mem cur hcurmem hstore v hvpd hslot
              · exact hst
            · intro bb hbb hid i hi hiid
              exact not_usesPA_of_unknown
                (setInstr_mark_marked _ iid bb hbb i hi hiid)
          · rename_i hfi
            refine ⟨funcEvolve_refl _ _, hst, ?_⟩
            intro bb hbb hid i hi hiid hu
            have hieq : i = cur := huniq bb hbb i hi hiid
            rw [hieq] at hu
            rcases hu with ⟨hop, _⟩ | ⟨_, v, hv, hslot⟩
            · rw [hstore] at hop
              exact Opcode.noConfusion hop
            · rcases List.mem_filterMap.mp hv with ⟨pa, hpa, hpad⟩
              have hpred : (SCCP.operandValue (cur.operands.get? 1) = pa.dest ∧
                  pa.dest ≠ none) := by
                rw [hslot, hpad]
                exact ⟨rfl, Option.noConfusion⟩
              have h2 := List.findIdx?_eq_none_iff.mp hfi pa hpa
              simp at h2
              exact absurd hpred (by simpa using h2)
        · rename_i hnotstore
          refine ⟨funcEvolve_refl _ _, hst, ?_⟩
          intro bb hbb hid i hi hiid hu
          have hieq : i = cur := huniq bb hbb i hi hiid
          rw [hieq] at hu
          rcases hu with ⟨hop, _⟩ | ⟨hop, _⟩
          · exact hnotload hop
          · exact hnotstore hop

end Mem2Reg

namespace Mem2Reg

lemma findIdx?_exists {α : Type} {p : α → Bool} :
    ∀ (l : List α) (i j : Nat), List.findIdx? p l i = some j →
      ∃ a ∈ l, p a = true := by
  intro l
  induction l with
  | nil => intro i j h; simp [List.findIdx?] at h
  | cons a t ih =>
    intro i j h
    rw [List.findIdx?_cons] at h
    by_cases hp : p a
    · exact ⟨a, List.mem_cons_self a t, hp⟩
    · rw [if_neg hp] at h
      rcases ih (i + 1) j h with ⟨x, hx, hpx⟩
      exact ⟨x, List.mem_cons_of_mem a hx, hpx⟩

/-- The PHI scan of a block pushes only non-promoted values. -/
lemma renamePhiScan_stacks {pas : List IRInstruction} {st : M2RState}
    (bb : IRBasicBlock) (hbb : bb ∈ st.f.blocks)
    (hinv : M2RInv (pdests pas) st.f) {stks : List (List Nat)}
    (hst : StacksOk (pdests pas) pas stks) :
    StacksOk (pdests pas) pas (renamePhiScan pas bb stks) := by
  unfold renamePhiScan
  refine foldl_invariant
    (P := fun stks2 => StacksOk (pdests pas) pas stks2) _ _ _ hst ?_
  intro stks2 phi hphi hok
  have hphimem : phi ∈ bb.instrs := (List.takeWhile_sublist _).subset hphi
  split
  · rename_i j hfi
    split
    · rename_i d hd
      refine stacksOk_push hok ?_
      rcases findIdx?_exists pas 0 j hfi with ⟨pa, hpa, hpred⟩
      have hpfa : phi.phi_for_alloca = some pa.id := by simpa using hpred
      refine hinv.2 bb hbb phi hphimem ?_ d hd
      rw [hpfa]
      exact Option.noConfusion
    · exact hok
  · exact hok

/-- The instruction fold of a block: the function evolves, the stacks
stay well formed, and every instruction of the processed list ends up
incapable of loading from or storing to a promoted address. -/
lemma renameFold_spec {pas : List IRInstruction} {b : Nat} {f0 : IRFunction}
    (hnd0 : (f0.allInstrs.map (fun i => i.id)).Nodup)
    (hndB0 : (f0.blocks.map (fun bb => bb.id)).Nodup)
    (hinv0 : M2RInv (pdests pas) f0) :
    ∀ (l : List Nat) (acc : M2RState × List (List Nat)),
      FuncEvolve (pdests pas) f0 acc.1.f →
      StacksOk (pdests pas) pas acc.2 →
      FuncEvolve (pdests pas) acc.1.f
        ((l.foldl (renameInstrStep pas b) acc).1.f) ∧
      StacksOk (pdests pas) pas ((l.foldl (renameInstrStep pas b) acc).2) ∧
      (∀ iid ∈ l, ∀ bb ∈ ((l.foldl (renameInstrStep pas b) acc).1.f).blocks,
        bb.id = b → ∀ i ∈ bb.instrs, i.id = iid →
          ¬ UsesPromotedAddr (pdests pas) i) := by
  intro l
  induction l with
  | nil =>
    intro acc hev hst
    exact ⟨funcEvolve_refl _ _, hst,
      fun iid hiid => absurd hiid (List.not_mem_nil iid)⟩
  | cons iid rest ih =>
    intro acc hev hst
    rw [List.foldl_cons]
    have hndI : ((acc.1.f.allInstrs).map (fun i => i.id)).Nodup :=
      nodupIds_evolve hev hnd0
    have hndB : (acc.1.f.blocks.map (fun bb => bb.id)).Nodup := by
      rw [hev.1]
      exact hndB0
    have hinv : M2RInv (pdests pas) acc.1.f := m2rinv_evolve hev hinv0
    have hstep := renameInstrStep_spec (b := b) acc iid hndI hndB hinv hst
    have hih := ih (renameInstrStep pas b acc iid)
      (funcEvolve_trans hev hstep.1) hstep.2.1
    refine ⟨funcEvolve_trans hstep.1 hih.1, hih.2.1, ?_⟩
    intro iid2 hiid2
    rcases List.mem_cons.mp hiid2 with he | hm
    · rw [he]
      exact markedAt_evolve hih.1 hstep.2.2
    · exact hih.2.2 iid2 hm

end Mem2Reg

namespace Mem2Reg

/-- Filling successor PHIs only appends non-promoted incoming values. -/
lemma renameFill_evolve {pas : List IRInstruction} {b : Nat}
    (st : M2RState) (stks : List (List Nat))
    (hst : StacksOk (pdests pas) pas stks) :
    FuncEvolve (pdests pas) st.f (renameFillSuccessorPhis pas b st stks).f := by
  unfold renameFillSuccessorPhis
  split
  · exact funcEvolve_refl _ _
  · rename_i bb hfb
    refine foldl_invariant
      (P := fun st1 : M2RState => FuncEvolve (pdests pas) st.f st1.f) _ _ _
      (funcEvolve_refl _ _) ?_
    intro st1 succ hsucc hev
    split
    · exact hev
    · rename_i sbb hsbb
      refine foldl_invariant
        (P := fun st2 : M2RState => FuncEvolve (pdests pas) st.f st2.f) _ _ _
        hev ?_
      intro st2 phi hphi hev2
      split
      · rename_i j hfi
        refine funcEvolve_trans hev2 ?_
        have hj : j < pas.length := findIdx?_lt_length hfi
        have htop := stack_top_safe hst hj
        exact setInstr_funcEvolve _ _ _
          (fun i => addIncoming_instrEvolve b htop i)
      · exact hev2

end Mem2Reg

namespace Mem2Reg

mutual

/-- The recursive renaming walk: the function evolves, and every block of
the processed subtree ends clean of loads from and stores to promoted
addresses. -/
lemma rename_rec_spec (pas : List IRInstruction) (f0 : IRFunction)
    (hnd0 : (f0.allInstrs.map (fun i => i.id)).Nodup)
    (hndB0 : (f0.blocks.map (fun bb => bb.id)).Nodup)
    (hinv0 : M2RInv (pdests pas) f0) :
    ∀ (t : DomTree) (st : M2RState) (stks : List (List Nat)),
      FuncEvolve (pdests pas) f0 st.f →
      StacksOk (pdests pas) pas stks →
      (∀ b2 ∈ t.nodes, b2 ∈ f0.blocks.map (fun bb => bb.id)) →
      FuncEvolve (pdests pas) st.f (rename_recursive pas st t stks).f ∧
      (∀ b2 ∈ t.nodes,
        BlockClean (pdests pas) (rename_recursive pas st t stks).f b2)
  | .node b children, st, stks, hev, hst, hcov => by
    simp only [rename_recursive]
    split
    · rename_i hfb
      unfold IRFunction.findBlock at hfb
      have hb0 : b ∈ f0.blocks.map (fun bb => bb.id) :=
        hcov b (show b ∈ b :: DomTree.nodesList children from
          List.mem_cons_self _ _)
      rw [← hev.1] at hb0
      rcases List.mem_map.mp hb0 with ⟨bb, hbb, hbid⟩
      have h2 := List.find?_eq_none.mp hfb bb hbb
      simp at h2
      exact absurd hbid h2
    · rename_i bb hfb
      unfold IRFunction.findBlock at hfb
      have hbbmem : bb ∈ st.f.blocks := List.mem_of_find?_eq_some hfb
      have hbbid : bb.id = b := by simpa using List.find?_some hfb
      have hst1 : StacksOk (pdests pas) pas (renamePhiScan pas bb stks) :=
        renamePhiScan_stacks bb hbbmem (m2rinv_evolve hev hinv0) hst
      have hfold := renameFold_spec (b := b) hnd0 hndB0 hinv0
        (bb.instrs.map (fun i => i.id)) (st, renamePhiScan pas bb stks) hev hst1
      have hndB : (st.f.blocks.map (fun bb2 => bb2.id)).Nodup := by
        rw [hev.1]
        exact hndB0
      have hclean1 : BlockClean (pdests pas)
          (((bb.instrs.map (fun i => i.id)).foldl (renameInstrStep pas b)
            (st, renamePhiScan pas bb stks)).1.f) b := by
        intro bb2 hbb2 hbb2id i hi
        obtain ⟨b1, hb1, hb1id, i1, hi1, hie⟩ :=
          hfold.1.2.2 bb2 hbb2 i hi
        have hb1bb : b1 = bb :=
          List.inj_on_of_nodup_map hndB hb1 hbbmem (hb1id.trans (hbb2id.trans hbbid.symm))
        have hi1mem : i1.id ∈ bb.instrs.map (fun i2 => i2.id) := by
          rw [← hb1bb]
          exact List.mem_map_of_mem _ hi1
        exact hfold.2.2 i1.id hi1mem bb2 hbb2 hbb2id i hi hie.1
      have hfill := renameFill_evolve (b := b)
        ((bb.instrs.map (fun i => i.id)).foldl (renameInstrStep pas b)
          (st, renamePhiScan pas bb stks)).1
        ((bb.instrs.map (fun i => i.id)).foldl (renameInstrStep pas b)
          (st, renamePhiScan pas bb stks)).2 hfold.2.1
      have hforest := rename_forest_spec pas f0 hnd0 hndB0 hinv0 children
        (renameFillSuccessorPhis pas b
          ((bb.instrs.map (fun i => i.id)).foldl (renameInstrStep pas b)
            (st, renamePhiScan pas bb stks)).1
          ((bb.instrs.map (fun i => i.id)).foldl (renameInstrStep pas b)
            (st, renamePhiScan pas bb stks)).2)
        ((bb.instrs.map (fun i => i.id)).foldl (renameInstrStep pas b)
          (st, renamePhiScan pas bb stks)).2
        (funcEvolve_trans hev (funcEvolve_trans hfold.1 hfill)) hfold.2.1
        (fun b2 hb2 => hcov b2
          (show b2 ∈ b :: DomTree.nodesList children from
            List.mem_cons_of_mem _ hb2))
      refine ⟨?_, ?_⟩
      · refine funcEvolve_trans hfold.1 (funcEvolve_trans hfill
          (funcEvolve_trans hforest.1 (cleanup_funcEvolve _ b)))
      · intro b2 hb2
        rcases List.mem_cons.mp
          (show b2 ∈ b :: DomTree.nodesList children from hb2) with he | hm
        · rw [he]
          exact blockClean_evolve (funcEvolve_trans hfill
            (funcEvolve_trans hforest.1 (cleanup_funcEvolve _ b))) hclean1
        · exact blockClean_evolve (cleanup_funcEvolve _ b) (hforest.2 b2 hm)

/-- The forest version of `rename_rec_spec`. -/
lemma rename_forest_spec (pas : List IRInstruction) (f0 : IRFunction)
    (hnd0 : (f0.allInstrs.map (fun i => i.id)).Nodup)
    (hndB0 : (f0.blocks.map (fun bb => bb.id)).Nodup)
    (hinv0 : M2RInv (pdests pas) f0) :
    ∀ (ts : List DomTree) (st : M2RState) (stks : List (List Nat)),
      FuncEvolve (pdests pas) f0 st.f →
      StacksOk (pdests pas) pas stks →
      (∀ b2 ∈ DomTree.nodesList ts, b2 ∈ f0.blocks.map (fun bb => bb.id)) →
      FuncEvolve (pdests pas) st.f (renameForest pas st ts stks).f ∧
      (∀ b2 ∈ DomTree.nodesList ts,
        BlockClean (pdests pas) (renameForest pas st ts stks).f b2)
  | [], st, stks, hev, hst, hcov => by
    simp only [renameForest]
    exact ⟨funcEvolve_refl _ _, fun b2 hb2 => absurd hb2 (by simp [DomTree.nodesList])⟩
  | c :: cs, st, stks, hev, hst, hcov => by
    simp only [renameForest]
    have hc := rename_rec_spec pas f0 hnd0 hndB0 hinv0 c st stks hev hst
      (fun b2 hb2 => hcov b2 (by
        show b2 ∈ DomTree.nodes c ++ DomTree.nodesList cs
        exact List.mem_append_left _ hb2))
    have hcs := rename_forest_spec pas f0 hnd0 hndB0 hinv0 cs
      (rename_recursive pas st c stks) stks
      (funcEvolve_trans hev hc.1) hst
      (fun b2 hb2 => hcov b2 (by
        show b2 ∈ DomTree.nodes c ++ DomTree.nodesList cs
        exact List.mem_append_right _ hb2))
    refine ⟨funcEvolve_trans hc.1 hcs.1, ?_⟩
    intro b2 hb2
    rcases List.mem_append.mp
      (show b2 ∈ DomTree.nodes c ++ DomTree.nodesList cs from hb2) with h | h
    · exact blockClean_evolve hcs.1 (hc.2 b2 h)
    · exact hcs.2 b2 h

end

end Mem2Reg

namespace Mem2Reg

lemma insert_blocks_perm (bid : Nat) (phi : IRInstruction)
    (mod : IRBasicBlock → IRBasicBlock)
    (hmod : ∀ bb, ∃ A B, (mod bb).instrs = A ++ phi :: B ∧ A ++ B = bb.instrs) :
    ∀ bs : List IRBasicBlock, bid ∈ bs.map (fun bb => bb.id) →
      (bs.map (fun bb => bb.id)).Nodup →
      List.Perm
        ((bs.map (fun bb => if bb.id = bid then mod bb else bb)).flatMap
          (fun bb => bb.instrs))
        (phi :: bs.flatMap (fun bb => bb.instrs)) := by
  intro bs
  induction bs with
  | nil => intro h _; simp at h
  | cons b rest ih =>
    intro hmem hnd
    simp only [List.map_cons, List.flatMap_cons]
    by_cases hb : b.id = bid
    · rw [if_pos hb]
      have hbnotrest : ∀ bb ∈ rest, bb.id ≠ bid := by
        intro bb hbb he
        have h1 : b.id ∈ rest.map (fun bb2 => bb2.id) := by
          rw [hb, ← he]
          exact List.mem_map_of_mem _ hbb
        exact (List.nodup_cons.mp hnd).1 h1
      have hrest : rest.map (fun bb => if bb.id = bid then mod bb else bb) = rest := by
        have h1 : ∀ bb ∈ rest, (if bb.id = bid then mod bb else bb) = bb := by
          intro bb hbb
          rw [if_neg (hbnotrest bb hbb)]
        exact (List.map_congr_left h1).trans (List.map_id' rest)
      rw [hrest]
      obtain ⟨A, B, hAB1, hAB2⟩ := hmod b
      rw [hAB1]
      have h2 : (A ++ phi :: B) ++ rest.flatMap (fun bb => bb.instrs) =
          A ++ phi :: (B ++ rest.flatMap (fun bb => bb.instrs)) := by
        simp [List.append_assoc]
      rw [h2]
      refine List.Perm.trans List.perm_middle ?_
      rw [← List.append_assoc, hAB2]
    · rw [if_neg hb]
      have hmem2 : bid ∈ rest.map (fun bb => bb.id) := by
        rcases List.mem_cons.mp hmem with he | hm
        · exact absurd he.symm hb
        · exact hm
      have h3 := ih hmem2 (List.nodup_cons.mp hnd).2
      refine List.Perm.trans (List.Perm.append_left b.instrs h3) ?_
      exact List.perm_middle

end Mem2Reg

namespace Mem2Reg

/-- `insertPhiInBlock`: block identifiers unchanged, the instruction
multiset gains exactly the PHI, and every instruction of the result is
the PHI or an instruction of the original function. -/
lemma insertPhi_spec (f : IRFunction) (bid : Nat) (phi : IRInstruction)
    (hb : bid ∈ f.blocks.map (fun bb => bb.id))
    (hndB : (f.blocks.map (fun bb => bb.id)).Nodup) :
    (insertPhiInBlock f bid phi).blocks.map (fun bb => bb.id) =
      f.blocks.map (fun bb => bb.id) ∧
    List.Perm ((insertPhiInBlock f bid phi).allInstrs) (phi :: f.allInstrs) ∧
    (∀ bb ∈ (insertPhiInBlock f bid phi).blocks, ∀ i ∈ bb.instrs,
      i = phi ∨ ∃ bb0 ∈ f.blocks, i ∈ bb0.instrs) := by
  have hmod : ∀ bb : IRBasicBlock, ∃ A B,
      ({ bb with instrs := bb.instrs.takeWhile (fun i => i.opcode = .phi) ++ [phi] ++ bb.instrs.dropWhile (fun i => i.opcode = .phi) } : IRBasicBlock).instrs = A ++ phi :: B ∧ A ++ B = bb.instrs := by
    intro bb
    refine ⟨bb.instrs.takeWhile (fun i => i.opcode = .phi),
      bb.instrs.dropWhile (fun i => i.opcode = .phi), ?_, ?_⟩
    · show bb.instrs.takeWhile (fun i => i.opcode = .phi) ++ [phi] ++ bb.instrs.dropWhile (fun i => i.opcode = .phi) = bb.instrs.takeWhile (fun i => i.opcode = .phi) ++ phi :: bb.instrs.dropWhile (fun i => i.opcode = .phi)
      rw [List.append_assoc]
      rfl
    · exact List.takeWhile_append_dropWhile (p := fun i => i.opcode = .phi) (l := bb.instrs)
  refine ⟨?_, ?_, ?_⟩
  · show (f.blocks.map (fun bb => if bb.id = bid then { bb with instrs := bb.instrs.takeWhile (fun i => i.opcode = .phi) ++ [phi] ++ bb.instrs.dropWhile (fun i => i.opcode = .phi) } else bb)).map (fun bb => bb.id) = f.blocks.map (fun bb => bb.id)
    rw [List.map_map]
    refine List.map_congr_left ?_
    intro bb _
    show (if bb.id = bid then ({ bb with instrs := bb.instrs.takeWhile (fun i => i.opcode = .phi) ++ [phi] ++ bb.instrs.dropWhile (fun i => i.opcode = .phi) } : IRBasicBlock) else bb).id = bb.id
    split <;> rfl
  · exact insert_blocks_perm bid phi _ hmod f.blocks hb hndB
  · intro bb hbb i hi
    have hbb2 : bb ∈ f.blocks.map (fun bb2 => if bb2.id = bid then { bb2 with instrs := bb2.instrs.takeWhile (fun i2 => i2.opcode = .phi) ++ [phi] ++ bb2.instrs.dropWhile (fun i2 => i2.opcode = .phi) } else bb2) := hbb
    rcases List.mem_map.mp hbb2 with ⟨bb0, hbb0, rfl⟩
    have hi2 : i ∈ (if bb0.id = bid then ({ bb0 with instrs := bb0.instrs.takeWhile (fun i2 => i2.opcode = .phi) ++ [phi] ++ bb0.instrs.dropWhile (fun i2 => i2.opcode = .phi) } : IRBasicBlock) else bb0).instrs := hi
    by_cases h0 : bb0.id = bid
    · rw [if_pos h0] at hi2
      have hi3 : i ∈ bb0.instrs.takeWhile (fun i2 => i2.opcode = .phi) ++ [phi] ++ bb0.instrs.dropWhile (fun i2 => i2.opcode = .phi) := hi2
      rcases List.mem_append.mp hi3 with h1 | h1
      · rcases List.mem_append.mp h1 with h2 | h2
        · exact Or.inr ⟨bb0, hbb0, (List.takeWhile_sublist _).subset h2⟩
        · exact Or.inl (by simpa using h2)
      · exact Or.inr ⟨bb0, hbb0, (List.dropWhile_sublist _).subset h1⟩
    · rw [if_neg h0] at hi2
      exact Or.inr ⟨bb0, hbb0, hi2⟩

end Mem2Reg

namespace Mem2Reg

/-- PHI insertion preserves the pre-renaming invariant: block identifiers,
duplicate-free bounded instruction identifiers, the internal invariant,
and the bound on the promoted destinations. -/
lemma insert_phi_nodes_inv (pas : List IRInstruction) (func : IRFunction)
    (placements : List (IRInstruction × List Nat)) :
    ∀ st : M2RState,
      (st.f.blocks.map (fun bb => bb.id) = func.blocks.map (fun bb => bb.id) ∧
       ((st.f.allInstrs).map (fun i => i.id)).Nodup ∧
       (∀ x ∈ (st.f.allInstrs).map (fun i => i.id), x < st.next_instr) ∧
       M2RInv (pdests pas) st.f ∧
       (∀ dd ∈ pdests pas, dd < st.next_val) ∧
       (func.blocks.map (fun bb => bb.id)).Nodup) →
      ((insert_phi_nodes st placements).f.blocks.map (fun bb => bb.id) = func.blocks.map (fun bb => bb.id) ∧
       (((insert_phi_nodes st placements).f.allInstrs).map (fun i => i.id)).Nodup ∧
       (∀ x ∈ ((insert_phi_nodes st placements).f.allInstrs).map (fun i => i.id), x < (insert_phi_nodes st placements).next_instr) ∧
       M2RInv (pdests pas) (insert_phi_nodes st placements).f ∧
       (∀ dd ∈ pdests pas, dd < (insert_phi_nodes st placements).next_val) ∧
       (func.blocks.map (fun bb => bb.id)).Nodup) := by
  intro st hP
  unfold insert_phi_nodes
  refine foldl_invariant (P := fun st1 : M2RState =>
    st1.f.blocks.map (fun bb => bb.id) = func.blocks.map (fun bb => bb.id) ∧
    ((st1.f.allInstrs).map (fun i => i.id)).Nodup ∧
    (∀ x ∈ (st1.f.allInstrs).map (fun i => i.id), x < st1.next_instr) ∧
    M2RInv (pdests pas) st1.f ∧
    (∀ dd ∈ pdests pas, dd < st1.next_val) ∧
    (func.blocks.map (fun bb => bb.id)).Nodup) _ _ _ hP ?_
  intro st1 pa _ hP1
  refine foldl_invariant (P := fun st2 : M2RState =>
    st2.f.blocks.map (fun bb => bb.id) = func.blocks.map (fun bb => bb.id) ∧
    ((st2.f.allInstrs).map (fun i => i.id)).Nodup ∧
    (∀ x ∈ (st2.f.allInstrs).map (fun i => i.id), x < st2.next_instr) ∧
    M2RInv (pdests pas) st2.f ∧
    (∀ dd ∈ pdests pas, dd < st2.next_val) ∧
    (func.blocks.map (fun bb => bb.id)).Nodup) _ _ _ hP1 ?_
  intro st2 bid hbid hP2
  split
  · obtain ⟨hb1, hb2, hb3, hb4, hb5, hb6⟩ := hP2
    have hbidf : bid ∈ func.blocks.map (fun bb => bb.id) := by
      rw [← hP1.1]
      exact hbid
    have hbid2 : bid ∈ st2.f.blocks.map (fun bb => bb.id) := by
      rw [hb1]
      exact hbidf
    have hndB2 : (st2.f.blocks.map (fun bb => bb.id)).Nodup := by
      rw [hb1]
      exact hb6
    have hspec := insertPhi_spec st2.f bid
      { id := st2.next_instr, opcode := .phi, dest := some st2.next_val,
        phi_for_alloca := some pa.1.id } hbid2 hndB2
    have hperm := hspec.2.1.map (fun i => i.id)
    refine ⟨?_, ?_, ?_, ⟨?_, ?_⟩, ?_, hb6⟩
    · exact hspec.1.trans hb1
    · refine (hperm.nodup_iff).mpr ?_
      refine List.nodup_cons.mpr ⟨?_, hb2⟩
      intro hmem
      have h4 : st2.next_instr < st2.next_instr := hb3 _ hmem
      omega
    · intro x hx
      have hx2 := hperm.mem_iff.mp hx
      rcases List.mem_cons.mp hx2 with he | hm
      · show x < st2.next_instr + 1
        have he2 : x = st2.next_instr := he
        omega
      · show x < st2.next_instr + 1
        have := hb3 x hm
        omega
    · intro bb hbb i hi hst v hv hs
      rcases hspec.2.2 bb hbb i hi with he | ⟨bb0, hbb0, hi0⟩
      · rw [he] at hst
        exact Opcode.noConfusion hst
      · exact hb4.1 bb0 hbb0 i hi0 hst v hv hs
    · intro bb hbb i hi hpfa d hd
      rcases hspec.2.2 bb hbb i hi with he | ⟨bb0, hbb0, hi0⟩
      · rw [he] at hd
        have hd2 : some st2.next_val = some d := hd
        have hd3 : st2.next_val = d := Option.some.inj hd2
        intro hdp
        have := hb5 d hdp
        omega
      · exact hb4.2 bb0 hbb0 i hi0 hpfa d hd
    · intro dd hdd
      show dd < st2.next_val + 1
      have := hb5 dd hdd
      omega
  · exact hP2

end Mem2Reg

namespace Mem2Reg

/-- Every promotable alloca is an instruction of the function. -/
lemma analyze_allocas_subset (func : IRFunction) (env : ValueEnv)
    (entry : Nat) :
    ∀ pa ∈ analyze_allocas func env entry, pa ∈ func.allInstrs := by
  intro pa hpa
  unfold analyze_allocas at hpa
  cases hfb : func.findBlock entry with
  | none =>
    rw [hfb] at hpa
    exact absurd hpa (List.not_mem_nil pa)
  | some bb0 =>
    rw [hfb] at hpa
    unfold IRFunction.findBlock at hfb
    have hbb0 : bb0 ∈ func.blocks := List.mem_of_find?_eq_some hfb
    have hmem : pa ∈ bb0.instrs :=
      (List.takeWhile_sublist _).subset (List.mem_filter.mp hpa).1
    exact List.mem_flatMap.mpr ⟨bb0, hbb0, hmem⟩

/-- The promotability check itself rules out a store whose *value*
operand is a promoted address, and `phi_for_alloca`-free functions
trivially satisfy the back-pointer component: the initial function
satisfies the internal invariant. -/
lemma m2rinv_initial (func : IRFunction) (env : ValueEnv) (entry : Nat)
    (hpfa : ∀ i ∈ func.allInstrs, i.phi_for_alloca = none) :
    M2RInv (pdests (analyze_allocas func env entry)) func := by
  constructor
  · intro bb hbb i hi hst v hv hs
    rcases List.mem_filterMap.mp hv with ⟨pa, hpa, hpad⟩
    have hprom : is_alloca_promotable func env pa = true := by
      unfold analyze_allocas at hpa
      cases hfb : func.findBlock entry with
      | none => rw [hfb] at hpa; exact absurd hpa (List.not_mem_nil pa)
      | some bb0 =>
        rw [hfb] at hpa
        exact (List.mem_filter.mp hpa).2
    have hsp : ∀ i2 ∈ func.allInstrs, ∀ ke ∈ i2.operands.enum,
        decide (ke.2 ≠ OperandData.value v ∨ i2.opcode = Opcode.load ∨ (i2.opcode = Opcode.store ∧ ke.1 = 1)) = true := by
      unfold is_alloca_promotable at hprom
      split at hprom
      · exact Bool.noConfusion hprom
      · rename_i d2 heq
        rw [hpad] at heq
        injection heq with hd2
        subst hd2
        split at hprom
        · have hall := (Bool.and_eq_true_iff.mp hprom).2
          rw [List.all_eq_true] at hall
          intro i2 hi2 ke hke
          have h2 := hall i2 hi2
          rw [List.all_eq_true] at h2
          exact h2 ke hke
        · exact Bool.noConfusion hprom
    have hmemi : i ∈ func.allInstrs := List.mem_flatMap.mpr ⟨bb, hbb, hi⟩
    have hke : ((0 : Nat), OperandData.value v) ∈ i.operands.enum :=
      List.mem_enum_iff_get?.mpr hs
    have hp := of_decide_eq_true (hsp i hmemi _ hke)
    rcases hp with h | h | h
    · exact h rfl
    · rw [hst] at h
      exact Opcode.noConfusion h
    · exact absurd h.2.symm (by omega)
  · intro bb hbb i hi hpfa2 d _
    have h := hpfa i (List.mem_flatMap.mpr ⟨bb, hbb, hi⟩)
    exact absurd h hpfa2

/-- The final erasure fold only ever removes instructions. -/
lemma erase_fold_evolve (pd : List Nat) (l : List IRInstruction)
    (g : IRFunction) :
    FuncEvolve pd g
      (l.foldl (fun g2 pa => InstCombine.eraseFromBlocks g2 pa.id) g) := by
  refine foldl_invariant (P := fun g2 : IRFunction => FuncEvolve pd g g2)
    _ _ _ (funcEvolve_refl _ _) ?_
  intro g2 pa _ hev
  exact funcEvolve_trans hev (erase_funcEvolve g2 pa.id)

lemma erase_absent (g : IRFunction) (x : Nat) :
    ∀ bb ∈ (InstCombine.eraseFromBlocks g x).blocks, ∀ i ∈ bb.instrs,
      i.id ≠ x := by
  intro bb hbb i hi
  have hbb2 : bb ∈ g.blocks.map (fun bb2 => { bb2 with instrs := bb2.instrs.filter (fun ins => ins.id ≠ x) }) := hbb
  rcases List.mem_map.mp hbb2 with ⟨bb0, _, rfl⟩
  have hi2 : i ∈ bb0.instrs.filter (fun ins => ins.id ≠ x) := hi
  have h := (List.mem_filter.mp hi2).2
  simpa using h

lemma erase_keeps_absent (g : IRFunction) (y x : Nat)
    (h : ∀ bb ∈ g.blocks, ∀ i ∈ bb.instrs, i.id ≠ x) :
    ∀ bb ∈ (InstCombine.eraseFromBlocks g y).blocks, ∀ i ∈ bb.instrs,
      i.id ≠ x := by
  intro bb hbb i hi
  have hbb2 : bb ∈ g.blocks.map (fun bb2 => { bb2 with instrs := bb2.instrs.filter (fun ins => ins.id ≠ y) }) := hbb
  rcases List.mem_map.mp hbb2 with ⟨bb0, hbb0, rfl⟩
  have hi2 : i ∈ bb0.instrs.filter (fun ins => ins.id ≠ y) := hi
  exact h bb0 hbb0 i (List.mem_of_mem_filter hi2)

/-- After the final erasure fold, no instruction carries the identifier
of any erased alloca. -/
lemma erase_fold_gone :
    ∀ (l : List IRInstruction) (g : IRFunction), ∀ pa ∈ l,
      ∀ bb ∈ (l.foldl (fun g2 pa2 => InstCombine.eraseFromBlocks g2 pa2.id) g).blocks,
        ∀ i ∈ bb.instrs, i.id ≠ pa.id := by
  intro l
  induction l with
  | nil => intro g pa hpa; exact absurd hpa (List.not_mem_nil pa)
  | cons q rest ih =>
    intro g pa hpa
    rw [List.foldl_cons]
    rcases List.mem_cons.mp hpa with he | hm
    · rw [he]
      refine foldl_invariant (P := fun g2 : IRFunction =>
        ∀ bb ∈ g2.blocks, ∀ i ∈ bb.instrs, i.id ≠ q.id) _ _ _
        (erase_absent g q.id) ?_
      intro g2 pa2 _ h
      exact erase_keeps_absent g2 pa2.id q.id h
    · exact ih _ pa hm

end Mem2Reg

namespace Mem2Reg

/-- The renaming walk followed by the final erasure fold leaves the
function clean of loads from and stores to promoted addresses, given the
pre-renaming invariant for the PHI-augmented function `st1.f`. -/
lemma pipeline_clean (pas : List IRInstruction) (func : IRFunction)
    (dt : DomTree) (st1 : M2RState)
    (hbids : st1.f.blocks.map (fun bb => bb.id) = func.blocks.map (fun bb => bb.id))
    (hndI : ((st1.f.allInstrs).map (fun i => i.id)).Nodup)
    (hndB : (func.blocks.map (fun bb => bb.id)).Nodup)
    (hM2R : M2RInv (pdests pas) st1.f)
    (hpdb : ∀ dd ∈ pdests pas, dd < st1.next_val)
    (hcov : ∀ bb ∈ func.blocks, bb.id ∈ dt.nodes)
    (hdtn : ∀ b ∈ dt.nodes, b ∈ func.blocks.map (fun bb => bb.id)) :
    FuncClean (pdests pas)
      (pas.foldl (fun (g : IRFunction) pa => InstCombine.eraseFromBlocks g pa.id)
        (rename_recursive pas { st1 with env := setAt st1.env st1.next_val { is_constant := false, def_instr := none, ty := .void }, next_val := st1.next_val + 1 } dt (pas.map (fun _ => [st1.next_val]))).f) := by
  have hndBf0 : (st1.f.blocks.map (fun bb => bb.id)).Nodup := by
    rw [hbids]
    exact hndB
  have hstks : StacksOk (pdests pas) pas (pas.map (fun _ => [st1.next_val])) := by
    refine ⟨List.length_map _ _, ?_⟩
    intro l hl
    rcases List.mem_map.mp hl with ⟨pa, _, rfl⟩
    refine ⟨List.cons_ne_nil _ _, ?_⟩
    intro v hv2
    have hv3 : v = st1.next_val := by simpa using hv2
    rw [hv3]
    intro hvpd
    have := hpdb _ hvpd
    omega
  have hrec := rename_rec_spec pas st1.f hndI hndBf0 hM2R dt
    { st1 with env := setAt st1.env st1.next_val { is_constant := false, def_instr := none, ty := .void }, next_val := st1.next_val + 1 }
    (pas.map (fun _ => [st1.next_val]))
    (funcEvolve_refl _ _) hstks
    (fun b2 hb2 => by rw [hbids]; exact hdtn b2 hb2)
  intro bb hbb i hi hu
  have hevE := erase_fold_evolve (pdests pas) pas
    (rename_recursive pas { st1 with env := setAt st1.env st1.next_val { is_constant := false, def_instr := none, ty := .void }, next_val := st1.next_val + 1 } dt (pas.map (fun _ => [st1.next_val]))).f
  have hbidmem := List.mem_map_of_mem (fun bb2 : IRBasicBlock => bb2.id) hbb
  have hchain := hevE.1.trans (hrec.1.1.trans hbids)
  rw [hchain] at hbidmem
  rcases List.mem_map.mp hbidmem with ⟨bbf, hbbf, hbfid⟩
  have hcovb := hcov bbf hbbf
  rw [hbfid] at hcovb
  have hclean := hrec.2 bb.id hcovb
  exact blockClean_evolve hevE hclean bb hbb rfl i hi hu

end Mem2Reg

/-- C4 amended: the promotion guarantee holds for the allocas the pass
itself selects, on the input function: whenever `run_mem2reg` returns a
rewritten function, every alloca of `analyze_allocas` (the entry-block
allocas that `is_alloca_promotable` accepts **before** the rewrite) is
erased from the function, and the result contains no load from and no
store to any of those allocas' result values.  (The claim as stated —
quantifying promotability over the *resulting* function — is refuted by
`mem2reg_promotable_alloca_remains`.)  Hypotheses: the function has an
entry block, instruction and block identifiers are duplicate-free, the
fresh-identifier counters lie above all existing identifiers and
destinations, no instruction carries a `phi_for_alloca` back-pointer yet,
and the dominator tree covers exactly blocks of the function. -/
theorem mem2reg_promoted_allocas_erased
    (dt : Mem2Reg.DomTree) (env : ValueEnv) (next_val next_instr entry : Nat)
    (func : IRFunction)
    (hentry : func.entry = some entry)
    (hnd : ((func.allInstrs).map (fun i => i.id)).Nodup)
    (hndB : (func.blocks.map (fun bb => bb.id)).Nodup)
    (hlt : ∀ i ∈ func.allInstrs, i.id < next_instr)
    (hdest : ∀ i ∈ func.allInstrs, i.dest.getD 0 < next_val)
    (hpfa : ∀ i ∈ func.allInstrs, i.phi_for_alloca = none)
    (hcov : ∀ bb ∈ func.blocks, bb.id ∈ dt.nodes)
    (hdtn : ∀ b ∈ dt.nodes, b ∈ func.blocks.map (fun bb => bb.id)) :
    ∀ f1, (Mem2Reg.run_mem2reg dt env next_val next_instr (some func)).2 = some f1 →
      (∀ pa ∈ Mem2Reg.analyze_allocas func env entry,
        ∀ bb ∈ f1.blocks, ∀ i ∈ bb.instrs, i.id ≠ pa.id) ∧
      Mem2Reg.FuncClean
        (Mem2Reg.pdests (Mem2Reg.analyze_allocas func env entry)) f1 := by
  intro f1 hrun
  unfold Mem2Reg.run_mem2reg at hrun
  split at hrun
  · rename_i heq
    exact Option.noConfusion heq
  · rename_i func2 heq
    injection heq with heq2
    subst heq2
    split at hrun
    · rename_i heq3
      rw [hentry] at heq3
      exact Option.noConfusion heq3
    · rename_i entry2 heq3
      rw [hentry] at heq3
      injection heq3 with heq4
      subst heq4
      dsimp only at hrun
      split at hrun
      · rename_i hemp
        dsimp only at hrun
        injection hrun with hbig
        subst hbig
        have hpas : Mem2Reg.analyze_allocas func env entry = [] := by
          cases hq : Mem2Reg.analyze_allocas func env entry with
          | nil => rfl
          | cons a t =>
            rw [hq] at hemp
            exact Bool.noConfusion hemp
        refine ⟨?_, ?_⟩
        · rw [hpas]
          intro pa hpa
          exact absurd hpa (List.not_mem_nil pa)
        · intro bb hbb i hi hu
          rcases hu with ⟨_, v, hv, _⟩ | ⟨_, v, hv, _⟩ <;>
            rw [hpas] at hv <;> simp [Mem2Reg.pdests] at hv
      · rename_i hemp
        dsimp only at hrun
        injection hrun with hbig
        subst hbig
        have hltm : ∀ x ∈ (func.allInstrs).map (fun i => i.id), x < next_instr := by
          intro x hx
          rcases List.mem_map.mp hx with ⟨i, hi, rfl⟩
          exact hlt i hi
        have hpdb : ∀ dd ∈ Mem2Reg.pdests (Mem2Reg.analyze_allocas func env entry), dd < next_val := by
          intro dd hdd
          rcases List.mem_filterMap.mp hdd with ⟨pa, hpa, hpad⟩
          have h1 := hdest pa (Mem2Reg.analyze_allocas_subset func env entry pa hpa)
          rw [hpad] at h1
          simpa using h1
        have hM2R := Mem2Reg.m2rinv_initial func env entry hpfa
        have hins := fun P => Mem2Reg.insert_phi_nodes_inv
          (Mem2Reg.analyze_allocas func env entry) func P
          { f := func, env := env, next_val := next_val, next_instr := next_instr }
          ⟨rfl, hnd, hltm, hM2R, hpdb, hndB⟩
        refine ⟨?_, ?_⟩
        · intro pa hpa
          exact Mem2Reg.erase_fold_gone _ _ pa hpa
        · exact Mem2Reg.pipeline_clean
            (Mem2Reg.analyze_allocas func env entry) func dt _
            (hins _).1 (hins _).2.1 hndB (hins _).2.2.2.1
            (hins _).2.2.2.2.1 hcov hdtn

/-- C4 amended witness: on the single-block function
`%1 = alloca i32; store 42, %1; %5 = load %1; ret %5` the promoted
alloca is erased and no load or store of its address remains. -/
theorem mem2reg_promoted_allocas_erased_witness :
    (∀ pa ∈ Mem2Reg.analyze_allocas fC4w envC4w 0,
      ∀ bb ∈ fC4w_after.blocks, ∀ i ∈ bb.instrs, i.id ≠ pa.id) ∧
    Mem2Reg.FuncClean
      (Mem2Reg.pdests (Mem2Reg.analyze_allocas fC4w envC4w 0)) fC4w_after :=
  mem2reg_promoted_allocas_erased dtC4 envC4w 20 10 0 fC4w rfl
    (by decide) (by decide) (by decide) (by decide) (by decide) (by decide)
    (by decide) fC4w_after (by decide)
